import Mathlib

/-!
KPZ_LABS `kpz_1.1.cpp`: the recursive-descent calculator

A shallow embedding of `ExpressionParser` (tokenizer, numeric evaluator,
symbolic differentiator and integrator) and theorems about it.

Conventions of the embedding.

* A `wchar_t` is its code, a natural number; a C string is the list of its
  codes. `expressionPointer` is the memory from the pointer onwards: the text,
  its terminating NUL and whatever the buffer holds after it. Reading past the
  modelled memory yields NUL.
* `iswspace`, `iswalpha`, `iswdigit` depend on the C locale and are taken as a
  parameter `Locale` together with the facts every C locale satisfies.
* `double` arithmetic is taken as a parameter `Arith F`. A `double` that was
  declared but never written is `none`.
* The recursion `Term -> ... -> Primary -> Term` is structural on a fuel
  argument; `none` as a result means the fuel ran out. The entry points
  supply `length + 1`, which is shown to suffice.
* `syntaxError` prints a message; the printed error codes are collected in
  the field `output`.
* `currentToken[80]` is modelled by the list of the characters `parseToken`
  copies into it. The source copies without a bound check: the copy stays
  inside the array, terminator included, when the token has at most
  `tokenCapacity` = 79 characters. A longer token overruns the array; what the
  source does then is undefined and is not what the list says. A theorem that
  states what is returned and printed for every number or name of some kind
  therefore takes them within the capacity (`fitsToken`, `isNumberToken`,
  `isVariableToken`, `isToken`).
-/

namespace KPZ

/-- Token kinds, `enum TokenTypes`. -/
inductive TokenTypes
  | DELIMITER
  | NUMBER
  | VARIABLE
  | UNKNOWN
  deriving DecidableEq, Repr

open TokenTypes

/-- Character classification of the C locale in force. The fields after the
three functions are facts that hold in every locale. -/
structure Locale where
  iswspace : Nat → Bool
  iswalpha : Nat → Bool
  iswdigit : Nat → Bool
  space_ascii : ∀ c, c = 32 ∨ (9 ≤ c ∧ c ≤ 13) → iswspace c = true
  digit_ascii : ∀ c, 48 ≤ c ∧ c ≤ 57 → iswdigit c = true
  alpha_ascii : ∀ c, (65 ≤ c ∧ c ≤ 90) ∨ (97 ≤ c ∧ c ≤ 122) → iswalpha c = true
  space_not_nul : iswspace 0 = false
  space_not_punct : ∀ c, c ∈ [43, 45, 42, 47, 37, 94, 61, 40, 41] → iswspace c = false
  space_not_alpha : ∀ c, iswalpha c = true → iswspace c = false
  space_not_digit : ∀ c, iswdigit c = true → iswspace c = false
  alpha_not_digit : ∀ c, iswalpha c = true → iswdigit c = false
  alpha_not_delim : ∀ c, iswalpha c = true →
    c ∉ [0, 32, 9, 13, 43, 45, 42, 47, 37, 94, 61, 40, 41]
  digit_not_delim : ∀ c, iswdigit c = true →
    c ∉ [0, 32, 9, 13, 43, 45, 42, 47, 37, 94, 61, 40, 41]

/-- The primitive `double` operations the evaluator uses. -/
structure Arith (F : Type) where
  zero : F
  one : F
  add : F → F → F
  sub : F → F → F
  mul : F → F → F
  div : F → F → F
  fmod : F → F → F
  pow : F → F → F
  neg : F → F
  /-- The comparison `temp == 0.0`. -/
  isZero : F → Bool
  /-- The conversion `wcstod(token, nullptr)`. -/
  wcstod : List Nat → F

/-- The object state of `ExpressionParser`, with the text printed by
`syntaxError` as the list of printed error codes. -/
structure ExpressionParser (F : Type) where
  expressionPointer : List Nat
  currentToken : List Nat
  tokenType : TokenTypes
  /-- The member `variables` (a reserved word here). -/
  varTable : List (List Nat × Option F)
  output : List Nat

/-- The value of `*p` for a pointer into a NUL-terminated buffer. -/
def deref : List Nat → Nat
  | [] => 0
  | c :: _ => c

/-- The value of `wcschr(s, c) != nullptr`: the terminating NUL of `s` is part
of the string searched. -/
def wcschr (s : List Nat) (c : Nat) : Bool :=
  c == 0 || s.contains c

/-- The nine delimiter characters of the string literal in `parseToken`. -/
def delimiterChars : List Nat := [43, 45, 42, 47, 37, 94, 61, 40, 41]

/-- The characters of the string literal in `isDelimiter`: a blank, the four
operators plus, minus, slash, star, and `%^=()`. -/
def isDelimiterChars : List Nat := [32, 43, 45, 47, 42, 37, 94, 61, 40, 41]

/-- Source `isDelimiter`. -/
def isDelimiter (c : Nat) : Bool :=
  wcschr isDelimiterChars c || c == 9 || c == 13 || c == 0

/-- The loop `while (iswspace(*expressionPointer)) ++expressionPointer;`. -/
def skipSpace (L : Locale) : List Nat → List Nat
  | [] => []
  | c :: cs => if L.iswspace c then skipSpace L cs else c :: cs

/-- The loop `while (!isDelimiter(*expressionPointer)) *temp++ = *expressionPointer++;`:
the characters copied and the pointer left. -/
def scanToken : List Nat → List Nat × List Nat
  | [] => ([], [])
  | c :: cs =>
    if isDelimiter c then ([], c :: cs)
    else ((scanToken cs).1.cons c, (scanToken cs).2)

/-- The C string held by a buffer into which the single character `c` and a
NUL were written. -/
def oneChar (c : Nat) : List Nat :=
  if c = 0 then [] else [c]

/-- The characters `currentToken[80]` holds besides its terminating NUL. -/
def tokenCapacity : Nat := 79

/-- The token was copied inside `currentToken[80]`: it has at most 79
characters. -/
def fitsToken (tok : List Nat) : Bool := decide (tok.length ≤ tokenCapacity)

/-- Source `parseToken`. The two copy loops and the copy of a delimiter write
to `currentToken` without a bound check; the token read is given in full, and
the source agrees with it when `fitsToken` holds of it. -/
def parseToken {F : Type} (L : Locale) (p : ExpressionParser F) : ExpressionParser F :=
  if deref p.expressionPointer = 0 then
    { p with tokenType := UNKNOWN, currentToken := [] }
  else
    let ptr := skipSpace L p.expressionPointer
    if wcschr delimiterChars (deref ptr) then
      { p with tokenType := DELIMITER, currentToken := oneChar (deref ptr),
               expressionPointer := ptr.tail }
    else if L.iswalpha (deref ptr) then
      { p with tokenType := VARIABLE, currentToken := (scanToken ptr).1,
               expressionPointer := (scanToken ptr).2 }
    else if L.iswdigit (deref ptr) then
      { p with tokenType := NUMBER, currentToken := (scanToken ptr).1,
               expressionPointer := (scanToken ptr).2 }
    else
      { p with tokenType := UNKNOWN, currentToken := [], expressionPointer := ptr }

/-- Source `syntaxError`: prints the message of `errorCode`. -/
def syntaxError {F : Type} (errorCode : Nat) (p : ExpressionParser F) : ExpressionParser F :=
  { p with output := p.output ++ [errorCode] }

/-- The entry of `var` in the `std::map`, if there is one. -/
def lookupVariable {F : Type} (var : List Nat) :
    List (List Nat × Option F) → Option (Option F)
  | [] => none
  | (k, v) :: rest => if k = var then some v else lookupVariable var rest

/-- The map after `variables[var] = value`. -/
def storeVariable {F : Type} (var : List Nat) (value : Option F) :
    List (List Nat × Option F) → List (List Nat × Option F)
  | [] => [(var, value)]
  | (k, v) :: rest =>
    if k = var then (k, value) :: rest else (k, v) :: storeVariable var value rest

/-- Source `findVariable`. -/
def findVariable {F : Type} (A : Arith F) (var : List Nat) (p : ExpressionParser F) :
    Option F × ExpressionParser F :=
  match lookupVariable var p.varTable with
  | none => (some A.zero, syntaxError 0 p)
  | some v => (v, p)

/-- Source `assignVariable`. -/
def assignVariable {F : Type} (var : List Nat) (value : Option F) (p : ExpressionParser F) :
    ExpressionParser F :=
  { p with varTable := storeVariable var value p.varTable }

/-- A binary `double` operation on values that may be indeterminate. -/
def lift2 {F : Type} (f : F → F → F) : Option F → Option F → Option F
  | some a, some b => some (f a b)
  | _, _ => none

/-- The type of `void evaluateX(double& result)`: the incoming content of
`result` and the object state, to the outgoing ones. -/
abbrev Eval (F : Type) := Option F → ExpressionParser F → Option (Option F × ExpressionParser F)

/-- Source `evaluatePrimary`, with the recursive call of `evaluateTerm` as `term`. -/
def evaluatePrimary {F : Type} (L : Locale) (A : Arith F) (term : Eval F) : Eval F :=
  fun result p =>
  if deref p.currentToken = 40 then
    match term result (parseToken L p) with
    | none => none
    | some (r, p2) =>
      some (r, parseToken L (if deref p2.currentToken ≠ 41 then syntaxError 1 p2 else p2))
  else
    match p.tokenType with
    | NUMBER => some (some (A.wcstod p.currentToken), parseToken L p)
    | VARIABLE =>
      let tempToken := p.currentToken
      let p1 := parseToken L p
      if deref p1.currentToken = 61 then
        match term result (parseToken L p1) with
        | none => none
        | some (r, p3) => some (r, assignVariable tempToken r p3)
      else
        some (findVariable A tempToken p1)
    | _ => some (result, syntaxError 0 p)

/-- Source `evaluateUnary`. -/
def evaluateUnary {F : Type} (L : Locale) (A : Arith F) (primary : Eval F) : Eval F :=
  fun result p =>
  if p.tokenType = DELIMITER ∧ (deref p.currentToken = 43 ∨ deref p.currentToken = 45) then
    match primary result (parseToken L p) with
    | none => none
    | some (r, p2) =>
      some (if deref p.currentToken = 45 then r.map A.neg else r, p2)
  else
    primary result p

/-- The assignments of `evaluatePower` after both operands are evaluated. -/
def powerValue {F : Type} (A : Arith F) (ex temp : Option F) : Option F :=
  match temp with
  | none => none
  | some t => if A.isZero t then some A.one else ex.map (fun b => A.pow b t)

/-- Source `evaluatePower`. -/
def evaluatePower {F : Type} (L : Locale) (A : Arith F) (unary : Eval F) : Eval F :=
  fun result p =>
  match unary result p with
  | none => none
  | some (r, p1) =>
    if deref p1.currentToken = 94 then
      match unary none (parseToken L p1) with
      | none => none
      | some (temp, p2) => some (powerValue A r temp, p2)
    else
      some (r, p1)

/-- The `switch (op)` of `evaluateFactor`. -/
def factorOp {F : Type} (A : Arith F) (op : Nat) (result temp : Option F) : Option F :=
  if op = 42 then lift2 A.mul result temp
  else if op = 47 then lift2 A.div result temp
  else if op = 37 then lift2 A.fmod result temp
  else result

/-- The `while` loop of `evaluateFactor`; `temp` keeps its content from one
iteration to the next. -/
def evaluateFactorLoop {F : Type} (L : Locale) (A : Arith F) (power : Eval F) :
    Nat → Option F → Option F → ExpressionParser F → Option (Option F × ExpressionParser F)
  | 0, _, _, _ => none
  | k + 1, result, temp, p =>
    if deref p.currentToken = 42 ∨ deref p.currentToken = 47 ∨ deref p.currentToken = 37 then
      match power temp (parseToken L p) with
      | none => none
      | some (t, p2) =>
        evaluateFactorLoop L A power k (factorOp A (deref p.currentToken) result t) t p2
    else
      some (result, p)

/-- Source `evaluateFactor`. -/
def evaluateFactor {F : Type} (L : Locale) (A : Arith F) (power : Eval F) : Eval F :=
  fun result p =>
  match power result p with
  | none => none
  | some (r, p1) => evaluateFactorLoop L A power (p1.expressionPointer.length + 2) r none p1

/-- The `switch (op)` of `evaluateTerm`. -/
def termOp {F : Type} (A : Arith F) (op : Nat) (result temp : Option F) : Option F :=
  if op = 45 then lift2 A.sub result temp
  else if op = 43 then lift2 A.add result temp
  else result

/-- The `while` loop of `evaluateTerm`. -/
def evaluateTermLoop {F : Type} (L : Locale) (A : Arith F) (factor : Eval F) :
    Nat → Option F → Option F → ExpressionParser F → Option (Option F × ExpressionParser F)
  | 0, _, _, _ => none
  | k + 1, result, temp, p =>
    if deref p.currentToken = 43 ∨ deref p.currentToken = 45 then
      match factor temp (parseToken L p) with
      | none => none
      | some (t, p2) =>
        evaluateTermLoop L A factor k (termOp A (deref p.currentToken) result t) t p2
    else
      some (result, p)

/-- The body of `evaluateTerm` over a given `evaluateFactor`. -/
def evaluateTermBody {F : Type} (L : Locale) (A : Arith F) (factor : Eval F) : Eval F :=
  fun result p =>
  match factor result p with
  | none => none
  | some (r, p1) => evaluateTermLoop L A factor (p1.expressionPointer.length + 2) r none p1

/-- Source `evaluateTerm`. The fuel bounds the nesting of `evaluateTerm`
inside `evaluatePrimary`. -/
def evaluateTerm {F : Type} (L : Locale) (A : Arith F) : Nat → Eval F
  | 0 => fun _ _ => none
  | n + 1 =>
    evaluateTermBody L A
      (evaluateFactor L A (evaluatePower L A (evaluateUnary L A
        (evaluatePrimary L A (evaluateTerm L A n)))))

/-- Source `evaluateExpression`: the returned `double` and the object state
after the call. -/
def evaluateExpression {F : Type} (L : Locale) (A : Arith F) (this : ExpressionParser F)
    (expression : List Nat) : Option (Option F × ExpressionParser F) :=
  let p := parseToken L { this with expressionPointer := expression }
  if deref p.currentToken = 0 then
    some (some A.zero, syntaxError 2 p)
  else
    match evaluateTerm L A (expression.length + 1) none p with
    | none => none
    | some (result, p1) =>
      some (result, if deref p1.currentToken ≠ 0 then syntaxError 0 p1 else p1)

/-! ### A concrete locale and arithmetic, for running the embedding -/

/-- The `"C"` locale on wide characters. -/
def cLocale : Locale where
  iswspace c := c == 32 || (decide (9 ≤ c) && decide (c ≤ 13))
  iswalpha c := (decide (65 ≤ c) && decide (c ≤ 90)) || (decide (97 ≤ c) && decide (c ≤ 122))
  iswdigit c := decide (48 ≤ c) && decide (c ≤ 57)
  space_ascii := by intro c h; simp; omega
  digit_ascii := by intro c h; simp; omega
  alpha_ascii := by intro c h; simp; omega
  space_not_nul := by simp
  space_not_punct := by intro c h; simp at h; simp; omega
  space_not_alpha := by intro c h; simp at h; simp; omega
  space_not_digit := by intro c h; simp at h; simp; omega
  alpha_not_digit := by intro c h; simp at h; simp; omega
  alpha_not_delim := by intro c h; simp at h; simp; omega
  digit_not_delim := by intro c h; simp at h; simp; omega

/-- The leading decimal digits of a token, as a number. -/
def leadingDigits : Nat → List Nat → Nat
  | acc, [] => acc
  | acc, c :: cs => if 48 ≤ c ∧ c ≤ 57 then leadingDigits (10 * acc + (c - 48)) cs else acc

/-- Integer arithmetic in place of `double`, for running examples whose
values are whole numbers. -/
def intArith : Arith Int where
  zero := 0
  one := 1
  add a b := a + b
  sub a b := a - b
  mul a b := a * b
  div a b := Int.tdiv a b
  fmod a b := Int.tmod a b
  pow a b := a ^ b.toNat
  neg a := -a
  isZero a := a == 0
  wcstod s := Int.ofNat (leadingDigits 0 s)

/-- The codes of the characters of a string. -/
def wstr (s : String) : List Nat := s.toList.map Char.toNat

/-- The state a freshly constructed `ExpressionParser` is modelled by. -/
def newParser (F : Type) : ExpressionParser F :=
  { expressionPointer := [], currentToken := [], tokenType := UNKNOWN, varTable := [], output := [] }

/-- The C string `s` in memory: its characters, the terminating NUL, and the
content `after` of the buffer behind it. -/
def cString (s after : List Nat) : List Nat := s ++ 0 :: after

/-! ### Fuel -/

/-- The characters left to read, plus one when a token is held. -/
def inputLeft {F : Type} (p : ExpressionParser F) : Nat :=
  p.expressionPointer.length + (if p.currentToken = [] then 0 else 1)

/-- `g` returns whatever `f` returns. -/
def EvalLe {F : Type} (f g : Eval F) : Prop :=
  ∀ r p x, f r p = some x → g r p = some x

/-- `f` returns, without running out of fuel and without moving the input
backwards, on every state with less than `m` input left. -/
def EvalTotal {F : Type} (m : Nat) (f : Eval F) : Prop :=
  ∀ r p, inputLeft p < m → ∃ x, f r p = some x ∧ inputLeft x.2 ≤ inputLeft p


/-! ### The evaluator with its fuel supplied -/

/-- The function `evaluateTerm` run with the fuel its input needs. -/
def evalTerm {F : Type} (L : Locale) (A : Arith F) : Eval F :=
  fun r p => evaluateTerm L A (inputLeft p + 1) r p

/-- The function `evaluatePrimary`, its recursive call being `evalTerm`. -/
def evalPrimary {F : Type} (L : Locale) (A : Arith F) : Eval F :=
  evaluatePrimary L A (evalTerm L A)

/-- The function `evaluateUnary` over `evalPrimary`. -/
def evalUnary {F : Type} (L : Locale) (A : Arith F) : Eval F :=
  evaluateUnary L A (evalPrimary L A)

/-- The function `evaluatePower` over `evalUnary`. -/
def evalPower {F : Type} (L : Locale) (A : Arith F) : Eval F :=
  evaluatePower L A (evalUnary L A)

/-- The loop of `evaluateFactor` over `evalPower`, run to its end. -/
def evalFactorLoop {F : Type} (L : Locale) (A : Arith F) (r t : Option F)
    (p : ExpressionParser F) : Option (Option F × ExpressionParser F) :=
  evaluateFactorLoop L A (evalPower L A) (inputLeft p + 1) r t p

/-- The function `evaluateFactor` over `evalPower`. -/
def evalFactor {F : Type} (L : Locale) (A : Arith F) : Eval F :=
  evaluateFactor L A (evalPower L A)

/-- The loop of `evaluateTerm` over `evalFactor`, run to its end. -/
def evalTermLoop {F : Type} (L : Locale) (A : Arith F) (r t : Option F)
    (p : ExpressionParser F) : Option (Option F × ExpressionParser F) :=
  evaluateTermLoop L A (evalFactor L A) (inputLeft p + 1) r t p

/-! ### Well-formed input -/

/-- The state after `parseToken` read the next token from `ptr`. -/
def lookAt {F : Type} (L : Locale) (p : ExpressionParser F) (ptr : List Nat) :
    ExpressionParser F :=
  parseToken L { p with expressionPointer := ptr }

/-- Blanks: runs of space, tab and carriage return, the white-space characters
that also end a token. -/
def isBlank (ws : List Nat) : Bool :=
  ws.all (fun c => c == 32 || c == 9 || c == 13)

/-- A number literal: a digit followed by characters that do not end a token
(digits and the decimal point among them). -/
def isNumberLiteral (L : Locale) : List Nat → Bool
  | [] => false
  | c :: cs => L.iswdigit c && cs.all (fun d => !isDelimiter d)

/-- A variable name: a letter followed by characters that do not end a token. -/
def isVariableName (L : Locale) : List Nat → Bool
  | [] => false
  | c :: cs => L.iswalpha c && cs.all (fun d => !isDelimiter d)

/-- A number token: a number literal that fits `currentToken`. -/
def isNumberToken (L : Locale) (lit : List Nat) : Bool :=
  isNumberLiteral L lit && fitsToken lit

/-- A variable token: a variable name that fits `currentToken`. -/
def isVariableToken (L : Locale) (v : List Nat) : Bool :=
  isVariableName L v && fitsToken v

/-- White space: characters that `parseToken` skips before a token. -/
def isSpace (L : Locale) (ws : List Nat) : Bool :=
  ws.all L.iswspace

/-- White space after a number or a name: none, or white space that starts with
a character that ends the token (a space, a tab or a carriage return; a line
feed does not end a token). -/
def isGap (L : Locale) (ws : List Nat) : Bool :=
  isSpace L ws && isDelimiter (deref ws)

/-! ### The symbolic differentiator -/

/-- The type of `std::wstring differentiateX()`: the object state, to the text
returned and the state after. -/
abbrev Sym (F : Type) := ExpressionParser F → Option (List Nat × ExpressionParser F)

/-- Source `differentiateVariable`. -/
def differentiateVariable (var diffVar : List Nat) : List Nat :=
  if var = diffVar then [49] else [48]

/-- Source `differentiatePrimary`, with the recursive call of
`differentiateTerm` as `term`. -/
def differentiatePrimary {F : Type} (L : Locale) (term : Sym F) : Sym F :=
  fun p =>
  if deref p.currentToken = 40 then
    match term (parseToken L p) with
    | none => none
    | some (t, p2) =>
      some (40 :: t ++ [41],
        parseToken L (if deref p2.currentToken ≠ 41 then syntaxError 1 p2 else p2))
  else
    match p.tokenType with
    | NUMBER => some ([48], parseToken L p)
    | VARIABLE => some (differentiateVariable p.currentToken [120], parseToken L p)
    | _ => some ([], syntaxError 0 p)

/-- Source `differentiateUnary`. -/
def differentiateUnary {F : Type} (L : Locale) (primary : Sym F) : Sym F :=
  fun p =>
  if p.tokenType = DELIMITER ∧ (deref p.currentToken = 43 ∨ deref p.currentToken = 45) then
    match primary (parseToken L p) with
    | none => none
    | some (r, p2) => some (if deref p.currentToken = 45 then 45 :: r else r, p2)
  else
    primary p

/-- Source `differentiatePower`: `exponent*base^(exponent-1)`. -/
def differentiatePower {F : Type} (L : Locale) (unary : Sym F) : Sym F :=
  fun p =>
  match unary p with
  | none => none
  | some (base, p1) =>
    if deref p1.currentToken = 94 then
      match unary (parseToken L p1) with
      | none => none
      | some (exponent, p2) =>
        some (exponent ++ [42] ++ base ++ [94, 40] ++ exponent ++ [45, 49, 41], p2)
    else
      some (base, p1)

/-- The `while` loop of `differentiateFactor`. -/
def differentiateFactorLoop {F : Type} (L : Locale) (power : Sym F) :
    Nat → List Nat → ExpressionParser F → Option (List Nat × ExpressionParser F)
  | 0, _, _ => none
  | k + 1, result, p =>
    if deref p.currentToken = 42 ∨ deref p.currentToken = 47 ∨ deref p.currentToken = 37 then
      match power (parseToken L p) with
      | none => none
      | some (temp, p2) =>
        differentiateFactorLoop L power k
          (if deref p.currentToken = 42 then [40] ++ result ++ [42] ++ temp ++ [41]
           else result ++ [deref p.currentToken] ++ temp) p2
    else
      some (result, p)

/-- Source `differentiateFactor`. -/
def differentiateFactor {F : Type} (L : Locale) (power : Sym F) : Sym F :=
  fun p =>
  match power p with
  | none => none
  | some (r, p1) => differentiateFactorLoop L power (p1.expressionPointer.length + 2) r p1

/-- The `while` loop of `differentiateTerm`. -/
def differentiateTermLoop {F : Type} (L : Locale) (factor : Sym F) :
    Nat → List Nat → ExpressionParser F → Option (List Nat × ExpressionParser F)
  | 0, _, _ => none
  | k + 1, result, p =>
    if deref p.currentToken = 43 ∨ deref p.currentToken = 45 then
      match factor (parseToken L p) with
      | none => none
      | some (t, p2) =>
        differentiateTermLoop L factor k (result ++ [deref p.currentToken] ++ t) p2
    else
      some (result, p)

/-- The body of `differentiateTerm` over a given `differentiateFactor`. -/
def differentiateTermBody {F : Type} (L : Locale) (factor : Sym F) : Sym F :=
  fun p =>
  match factor p with
  | none => none
  | some (r, p1) => differentiateTermLoop L factor (p1.expressionPointer.length + 2) r p1

/-- Source `differentiateTerm`; the fuel bounds the nesting of parentheses. -/
def differentiateTerm {F : Type} (L : Locale) : Nat → Sym F
  | 0 => fun _ => none
  | n + 1 =>
    differentiateTermBody L
      (differentiateFactor L (differentiatePower L (differentiateUnary L
        (differentiatePrimary L (differentiateTerm L n)))))

/-- Source `differentiate`: the text returned and the object state after the
call. The argument `variable` is not used. -/
def differentiate {F : Type} (L : Locale) (this : ExpressionParser F) (expression : List Nat)
    (_variable : List Nat) : Option (List Nat × ExpressionParser F) :=
  differentiateTerm L (expression.length + 1) (parseToken L { this with expressionPointer := expression })

/-! ### The symbolic integrator -/

/-- Source `integrateVariable`. -/
def integrateVariable (var intVar : List Nat) : List Nat :=
  if var = intVar then [48, 46, 53, 42] ++ intVar ++ [94, 50] else var ++ [42] ++ intVar

/-- Source `integratePrimary`, with the recursive call of `integrateTerm` as
`term`. -/
def integratePrimary {F : Type} (L : Locale) (term : Sym F) : Sym F :=
  fun p =>
  if deref p.currentToken = 40 then
    match term (parseToken L p) with
    | none => none
    | some (t, p2) =>
      some (40 :: t ++ [41],
        parseToken L (if deref p2.currentToken ≠ 41 then syntaxError 1 p2 else p2))
  else
    match p.tokenType with
    | NUMBER => some (p.currentToken, parseToken L p)
    | VARIABLE => some (integrateVariable p.currentToken [120], parseToken L p)
    | _ => some ([], syntaxError 0 p)

/-- Source `integrateUnary`. -/
def integrateUnary {F : Type} (L : Locale) (primary : Sym F) : Sym F :=
  fun p =>
  if p.tokenType = DELIMITER ∧ (deref p.currentToken = 43 ∨ deref p.currentToken = 45) then
    match primary (parseToken L p) with
    | none => none
    | some (r, p2) => some (if deref p.currentToken = 45 then 45 :: r else r, p2)
  else
    primary p

/-- Source `integratePower`: `(base^(exponent+1))/(exponent+1)`. -/
def integratePower {F : Type} (L : Locale) (unary : Sym F) : Sym F :=
  fun p =>
  match unary p with
  | none => none
  | some (base, p1) =>
    if deref p1.currentToken = 94 then
      match unary (parseToken L p1) with
      | none => none
      | some (exponent, p2) =>
        some ([40] ++ base ++ [94, 40] ++ exponent ++ [43, 49, 41, 41, 47, 40] ++ exponent
          ++ [43, 49, 41], p2)
    else
      some (base, p1)

/-- The `while` loop of `integrateFactor`. -/
def integrateFactorLoop {F : Type} (L : Locale) (power : Sym F) :
    Nat → List Nat → ExpressionParser F → Option (List Nat × ExpressionParser F)
  | 0, _, _ => none
  | k + 1, result, p =>
    if deref p.currentToken = 42 ∨ deref p.currentToken = 47 ∨ deref p.currentToken = 37 then
      match power (parseToken L p) with
      | none => none
      | some (temp, p2) =>
        integrateFactorLoop L power k (result ++ [deref p.currentToken] ++ temp) p2
    else
      some (result, p)

/-- Source `integrateFactor`. -/
def integrateFactor {F : Type} (L : Locale) (power : Sym F) : Sym F :=
  fun p =>
  match power p with
  | none => none
  | some (r, p1) => integrateFactorLoop L power (p1.expressionPointer.length + 2) r p1

/-- The `while` loop of `integrateTerm`. -/
def integrateTermLoop {F : Type} (L : Locale) (factor : Sym F) :
    Nat → List Nat → ExpressionParser F → Option (List Nat × ExpressionParser F)
  | 0, _, _ => none
  | k + 1, result, p =>
    if deref p.currentToken = 43 ∨ deref p.currentToken = 45 then
      match factor (parseToken L p) with
      | none => none
      | some (t, p2) =>
        integrateTermLoop L factor k (result ++ [deref p.currentToken] ++ t) p2
    else
      some (result, p)

/-- The body of `integrateTerm` over a given `integrateFactor`. -/
def integrateTermBody {F : Type} (L : Locale) (factor : Sym F) : Sym F :=
  fun p =>
  match factor p with
  | none => none
  | some (r, p1) => integrateTermLoop L factor (p1.expressionPointer.length + 2) r p1

/-- Source `integrateTerm`; the fuel bounds the nesting of parentheses. -/
def integrateTerm {F : Type} (L : Locale) : Nat → Sym F
  | 0 => fun _ => none
  | n + 1 =>
    integrateTermBody L
      (integrateFactor L (integratePower L (integrateUnary L
        (integratePrimary L (integrateTerm L n)))))

/-- Source `integrate`: the text returned and the object state after the call.
The argument `variable` is not used. -/
def integrate {F : Type} (L : Locale) (this : ExpressionParser F) (expression : List Nat)
    (_variable : List Nat) : Option (List Nat × ExpressionParser F) :=
  integrateTerm L (expression.length + 1) (parseToken L { this with expressionPointer := expression })

/-! ### The grammar walk shared by the two symbolic modes

`differentiateX` and `integrateX` are the same walk with four different texts:
for a number, for a variable, for a product and for a power. Facts that do not
depend on those texts are proved once, on the walk `symX` below. -/

/-- The texts in which the two symbolic modes differ. -/
structure SymRules where
  number : List Nat → List Nat
  name : List Nat → List Nat
  times : List Nat → List Nat → List Nat
  power : List Nat → List Nat → List Nat

/-- The texts of the differentiator. -/
def differentiateRules : SymRules where
  number := fun _ => [48]
  name := fun v => differentiateVariable v [120]
  times := fun r t => [40] ++ r ++ [42] ++ t ++ [41]
  power := fun base exponent => exponent ++ [42] ++ base ++ [94, 40] ++ exponent ++ [45, 49, 41]

/-- The texts of the integrator. -/
def integrateRules : SymRules where
  number := fun tok => tok
  name := fun v => integrateVariable v [120]
  times := fun r t => r ++ [42] ++ t
  power := fun base exponent =>
    [40] ++ base ++ [94, 40] ++ exponent ++ [43, 49, 41, 41, 47, 40] ++ exponent ++ [43, 49, 41]

/-- The walk of `Primary`. -/
def symPrimary {F : Type} (R : SymRules) (L : Locale) (term : Sym F) : Sym F :=
  fun p =>
  if deref p.currentToken = 40 then
    match term (parseToken L p) with
    | none => none
    | some (t, p2) =>
      some (40 :: t ++ [41],
        parseToken L (if deref p2.currentToken ≠ 41 then syntaxError 1 p2 else p2))
  else
    match p.tokenType with
    | NUMBER => some (R.number p.currentToken, parseToken L p)
    | VARIABLE => some (R.name p.currentToken, parseToken L p)
    | _ => some ([], syntaxError 0 p)

/-- The walk of `Unary`. -/
def symUnary {F : Type} (L : Locale) (primary : Sym F) : Sym F :=
  fun p =>
  if p.tokenType = DELIMITER ∧ (deref p.currentToken = 43 ∨ deref p.currentToken = 45) then
    match primary (parseToken L p) with
    | none => none
    | some (r, p2) => some (if deref p.currentToken = 45 then 45 :: r else r, p2)
  else
    primary p

/-- The walk of `Power`. -/
def symPower {F : Type} (R : SymRules) (L : Locale) (unary : Sym F) : Sym F :=
  fun p =>
  match unary p with
  | none => none
  | some (base, p1) =>
    if deref p1.currentToken = 94 then
      match unary (parseToken L p1) with
      | none => none
      | some (exponent, p2) => some (R.power base exponent, p2)
    else
      some (base, p1)

/-- The text a `Factor` loop builds from `result`, the operator and `temp`. -/
def symFactorStep (R : SymRules) (op : Nat) (result temp : List Nat) : List Nat :=
  if op = 42 then R.times result temp else result ++ [op] ++ temp

/-- The loop of the walk of `Factor`. -/
def symFactorLoop {F : Type} (R : SymRules) (L : Locale) (power : Sym F) :
    Nat → List Nat → ExpressionParser F → Option (List Nat × ExpressionParser F)
  | 0, _, _ => none
  | k + 1, result, p =>
    if deref p.currentToken = 42 ∨ deref p.currentToken = 47 ∨ deref p.currentToken = 37 then
      match power (parseToken L p) with
      | none => none
      | some (temp, p2) =>
        symFactorLoop R L power k (symFactorStep R (deref p.currentToken) result temp) p2
    else
      some (result, p)

/-- The walk of `Factor`. -/
def symFactor {F : Type} (R : SymRules) (L : Locale) (power : Sym F) : Sym F :=
  fun p =>
  match power p with
  | none => none
  | some (r, p1) => symFactorLoop R L power (p1.expressionPointer.length + 2) r p1

/-- The loop of the walk of `Term`. -/
def symTermLoop {F : Type} (L : Locale) (factor : Sym F) :
    Nat → List Nat → ExpressionParser F → Option (List Nat × ExpressionParser F)
  | 0, _, _ => none
  | k + 1, result, p =>
    if deref p.currentToken = 43 ∨ deref p.currentToken = 45 then
      match factor (parseToken L p) with
      | none => none
      | some (t, p2) => symTermLoop L factor k (result ++ [deref p.currentToken] ++ t) p2
    else
      some (result, p)

/-- The body of the walk of `Term`. -/
def symTermBody {F : Type} (L : Locale) (factor : Sym F) : Sym F :=
  fun p =>
  match factor p with
  | none => none
  | some (r, p1) => symTermLoop L factor (p1.expressionPointer.length + 2) r p1

/-- The walk of `Term`, on fuel. -/
def symTerm {F : Type} (R : SymRules) (L : Locale) : Nat → Sym F
  | 0 => fun _ => none
  | n + 1 =>
    symTermBody L (symFactor R L (symPower R L (symUnary L (symPrimary R L (symTerm R L n)))))

/-- `g` returns whatever `f` returns. -/
def SymLe {F : Type} (f g : Sym F) : Prop :=
  ∀ p x, f p = some x → g p = some x

/-- `f` returns, without running out of fuel and without moving the input
backwards, on every state with less than `m` input left. -/
def SymTotal {F : Type} (m : Nat) (f : Sym F) : Prop :=
  ∀ p, inputLeft p < m → ∃ x, f p = some x ∧ inputLeft x.2 ≤ inputLeft p

/-- The walk of `Term` run with the fuel its input needs. -/
def walkTerm {F : Type} (R : SymRules) (L : Locale) : Sym F :=
  fun p => symTerm R L (inputLeft p + 1) p

/-- The walk of `Primary`, its recursive call being `walkTerm`. -/
def walkPrimary {F : Type} (R : SymRules) (L : Locale) : Sym F :=
  symPrimary R L (walkTerm R L)

/-- The walk of `Unary` over `walkPrimary`. -/
def walkUnary {F : Type} (R : SymRules) (L : Locale) : Sym F :=
  symUnary L (walkPrimary R L)

/-- The walk of `Power` over `walkUnary`. -/
def walkPower {F : Type} (R : SymRules) (L : Locale) : Sym F :=
  symPower R L (walkUnary R L)

/-- The loop of the walk of `Factor` over `walkPower`, run to its end. -/
def walkFactorLoop {F : Type} (R : SymRules) (L : Locale) (r : List Nat)
    (p : ExpressionParser F) : Option (List Nat × ExpressionParser F) :=
  symFactorLoop R L (walkPower R L) (inputLeft p + 1) r p

/-- The walk of `Factor` over `walkPower`. -/
def walkFactor {F : Type} (R : SymRules) (L : Locale) : Sym F :=
  symFactor R L (walkPower R L)

/-- The loop of the walk of `Term` over `walkFactor`, run to its end. -/
def walkTermLoop {F : Type} (R : SymRules) (L : Locale) (r : List Nat)
    (p : ExpressionParser F) : Option (List Nat × ExpressionParser F) :=
  symTermLoop L (walkFactor R L) (inputLeft p + 1) r p
/-! ### The grammar of section 4.2 and its reference evaluation -/

/-- The operators of a `Factor`. -/
inductive MulOp
  | mul
  | div
  | rem
  deriving DecidableEq, Repr

/-- The operators of a `Term`. -/
inductive AddOp
  | add
  | sub
  deriving DecidableEq, Repr

/-- The character of a `Factor` operator. -/
def MulOp.code : MulOp → Nat
  | .mul => 42
  | .div => 47
  | .rem => 37

/-- The character of a `Term` operator. -/
def AddOp.code : AddOp → Nat
  | .add => 43
  | .sub => 45

/-- Abstract syntax of an expression without assignment. -/
inductive Expr
  | num (lit : List Nat)
  | var (name : List Nat)
  | neg (e : Expr)
  | pow (b x : Expr)
  | mulop (op : MulOp) (l r : Expr)
  | addop (op : AddOp) (l r : Expr)
  deriving Repr

/-- The reference evaluation: the value of an expression over the primitive
operations, an exponent equal to 0 giving 1; `env` gives the variables their
values. -/
def refEval {F : Type} (A : Arith F) (env : List Nat → F) : Expr → F
  | .num lit => A.wcstod lit
  | .var name => env name
  | .neg e => A.neg (refEval A env e)
  | .pow b x =>
    if A.isZero (refEval A env x) then A.one else A.pow (refEval A env b) (refEval A env x)
  | .mulop .mul l r => A.mul (refEval A env l) (refEval A env r)
  | .mulop .div l r => A.div (refEval A env l) (refEval A env r)
  | .mulop .rem l r => A.fmod (refEval A env l) (refEval A env r)
  | .addop .add l r => A.add (refEval A env l) (refEval A env r)
  | .addop .sub l r => A.sub (refEval A env l) (refEval A env r)

/-- The five levels of the grammar. -/
inductive Level
  | primary
  | unary
  | power
  | factor
  | term
  deriving DecidableEq, Repr

/-- `Renders L V lv e s`: the text `s` is a phrase of level `lv` of the grammar

    Term    := Factor (('+' | '-') Factor)*
    Factor  := Power (('*' | '/' | '%') Power)*
    Power   := Unary ('^' Unary)?
    Unary   := ('+' | '-')? Primary
    Primary := '(' Term ')' | Number | Variable

with blanks allowed before every token and the variables taken from `V`
(none, for a variable-free expression), and `e` is the expression it denotes,
the repetitions associating to the left. -/
inductive Renders (L : Locale) (V : List Nat → Prop) : Level → Expr → List Nat → Prop
  | number (ws lit : List Nat) :
      isBlank ws = true → isNumberLiteral L lit = true →
      Renders L V .primary (.num lit) (ws ++ lit)
  | var (ws name : List Nat) :
      isBlank ws = true → isVariableName L name = true → V name →
      Renders L V .primary (.var name) (ws ++ name)
  | paren (ws1 ws2 : List Nat) (e : Expr) (s : List Nat) :
      isBlank ws1 = true → isBlank ws2 = true → Renders L V .term e s →
      Renders L V .primary e (ws1 ++ 40 :: (s ++ (ws2 ++ [41])))
  | primary (e : Expr) (s : List Nat) :
      Renders L V .primary e s → Renders L V .unary e s
  | plus (ws : List Nat) (e : Expr) (s : List Nat) :
      isBlank ws = true → Renders L V .primary e s → Renders L V .unary e (ws ++ 43 :: s)
  | minus (ws : List Nat) (e : Expr) (s : List Nat) :
      isBlank ws = true → Renders L V .primary e s → Renders L V .unary (.neg e) (ws ++ 45 :: s)
  | unary (e : Expr) (s : List Nat) :
      Renders L V .unary e s → Renders L V .power e s
  | pow (ws : List Nat) (b x : Expr) (s1 s2 : List Nat) :
      isBlank ws = true → Renders L V .unary b s1 → Renders L V .unary x s2 →
      Renders L V .power (.pow b x) (s1 ++ (ws ++ 94 :: s2))
  | power (e : Expr) (s : List Nat) :
      Renders L V .power e s → Renders L V .factor e s
  | mulop (ws : List Nat) (op : MulOp) (l r : Expr) (s1 s2 : List Nat) :
      isBlank ws = true → Renders L V .factor l s1 → Renders L V .power r s2 →
      Renders L V .factor (.mulop op l r) (s1 ++ (ws ++ op.code :: s2))
  | factor (e : Expr) (s : List Nat) :
      Renders L V .factor e s → Renders L V .term e s
  | addop (ws : List Nat) (op : AddOp) (l r : Expr) (s1 s2 : List Nat) :
      isBlank ws = true → Renders L V .term l s1 → Renders L V .factor r s2 →
      Renders L V .term (.addop op l r) (s1 ++ (ws ++ op.code :: s2))

/-- The number and variable tokens of the expression fit `currentToken`. -/
def Expr.tokensFit : Expr → Bool
  | .num lit => fitsToken lit
  | .var name => fitsToken name
  | .neg e => e.tokensFit
  | .pow b x => b.tokensFit && x.tokensFit
  | .mulop _ l r => l.tokensFit && r.tokensFit
  | .addop _ l r => l.tokensFit && r.tokensFit

/-- No variable: the set of variables of a variable-free expression. -/
def noVariable : List Nat → Prop := fun _ => False

/-- The table binds every variable of `V` to the value `env` gives it. -/
def Binds {F : Type} (V : List Nat → Prop) (env : List Nat → F)
    (table : List (List Nat × Option F)) : Prop :=
  ∀ name, V name → lookupVariable name table = some (some (env name))

/-- The next token of `rest` is none of the characters `cs`. -/
def NextNot {F : Type} (L : Locale) (p : ExpressionParser F) (rest : List Nat)
    (cs : List Nat) : Prop :=
  isDelimiter (deref rest) = true ∧ ∀ c ∈ cs, deref (lookAt L p rest).currentToken ≠ c

/-- What the evaluator does on a phrase of each level, followed by `rest`:
`Primary`, `Unary` and `Power` return the value and hold the next token;
`Factor` and `Term` reach their loop with the value, holding the next token. -/
def EvalSpec {F : Type} (L : Locale) (A : Arith F) (env : List Nat → F)
    (p : ExpressionParser F) : Level → Expr → List Nat → Prop
  | .primary, e, s => ∀ (rest : List Nat) (r : Option F),
      NextNot L p rest [61] →
      evalPrimary L A r (lookAt L p (s ++ rest)) =
        some (some (refEval A env e), lookAt L p rest) ∧
      deref (lookAt L p (s ++ rest)).currentToken ≠ 0 ∧
      ¬((lookAt L p (s ++ rest)).tokenType = DELIMITER ∧
        (deref (lookAt L p (s ++ rest)).currentToken = 43 ∨
         deref (lookAt L p (s ++ rest)).currentToken = 45))
  | .unary, e, s => ∀ (rest : List Nat) (r : Option F),
      NextNot L p rest [61] →
      evalUnary L A r (lookAt L p (s ++ rest)) =
        some (some (refEval A env e), lookAt L p rest) ∧
      deref (lookAt L p (s ++ rest)).currentToken ≠ 0
  | .power, e, s => ∀ (rest : List Nat) (r : Option F),
      NextNot L p rest [61, 94] →
      evalPower L A r (lookAt L p (s ++ rest)) =
        some (some (refEval A env e), lookAt L p rest) ∧
      deref (lookAt L p (s ++ rest)).currentToken ≠ 0
  | .factor, e, s => ∀ (rest : List Nat) (r : Option F),
      NextNot L p rest [61, 94] →
      (∃ t, evalFactor L A r (lookAt L p (s ++ rest)) =
        evalFactorLoop L A (some (refEval A env e)) t (lookAt L p rest)) ∧
      deref (lookAt L p (s ++ rest)).currentToken ≠ 0
  | .term, e, s => ∀ (rest : List Nat) (r : Option F),
      NextNot L p rest [61, 94, 42, 47, 37] →
      (∃ t, evalTerm L A r (lookAt L p (s ++ rest)) =
        evalTermLoop L A (some (refEval A env e)) t (lookAt L p rest)) ∧
      deref (lookAt L p (s ++ rest)).currentToken ≠ 0

/-- The text `s` is a well-formed expression without variables that denotes
`e`: a `Term` of the grammar whose number tokens fit `currentToken`. -/
def WellFormed (L : Locale) (e : Expr) (s : List Nat) : Prop :=
  Renders L noVariable .term e s ∧ e.tokensFit = true

/-! ### Chains of atoms -/

/-- An atom: a number token or a variable token. -/
def isAtom (L : Locale) (a : List Nat) : Bool :=
  isNumberLiteral L a || isVariableName L a

/-- An atom that fits `currentToken`. -/
def isToken (L : Locale) (a : List Nat) : Bool :=
  isAtom L a && fitsToken a

/-- One more operand of a chain: white space, an operator, white space, an
atom. -/
structure Link where
  before : List Nat
  op : Nat
  after : List Nat
  atom : List Nat

/-- The text of the links of a chain. -/
def chainText : List Link → List Nat
  | [] => []
  | l :: ls => l.before ++ l.op :: (l.after ++ (l.atom ++ chainText ls))

/-- The links are well-formed and their operators are among `ops`: the white
space before the operator follows an atom (`isGap`), the white space after it is
arbitrary, and the atom fits `currentToken`. -/
def isChain (L : Locale) (ops : List Nat) (ls : List Link) : Bool :=
  ls.all (fun l => isGap L l.before && ops.contains l.op && isSpace L l.after && isToken L l.atom)

/-- The text a symbolic mode returns for an atom. -/
def atomText (R : SymRules) (L : Locale) (a : List Nat) : List Nat :=
  if isNumberLiteral L a then R.number a else R.name a

/-- The derivative of an atom as the specification words it: `1` for the
variable `x`, `0` for any other atom. -/
def atomDerivative (a : List Nat) : List Nat :=
  if a = [120] then [49] else [48]

/-- The left fold of the specification for a chain of `* / %`: a product is
wrapped as `(r*d)`, a quotient or remainder is appended as `r/d` or `r%d`. -/
def productFold (r : List Nat) : List Link → List Nat
  | [] => r
  | l :: ls =>
    productFold
      (if l.op = 42 then [40] ++ r ++ [42] ++ atomDerivative l.atom ++ [41]
       else r ++ [l.op] ++ atomDerivative l.atom) ls

/-- `f` prints after what was printed before, and erases nothing. -/
def EvalGrows {F : Type} (f : Eval F) : Prop :=
  ∀ r p x, f r p = some x → ∃ l, x.2.output = p.output ++ l

/-- The same for a symbolic mode, which moreover leaves the Variable Table. -/
def SymGrows {F : Type} (f : Sym F) : Prop :=
  ∀ p x, f p = some x → (∃ l, x.2.output = p.output ++ l) ∧ x.2.varTable = p.varTable

/-! ### Two runs on a text and on the same text followed by an operator

Run 1 reads the text `A` up to its terminating NUL (with `after1` behind it),
run 2 reads `A` followed by the operator `op` and `rest2`. -/

/-- Both runs have the part `X` of `A` still to read, and have printed the
same. -/
def Pre {F : Type} (after1 : List Nat) (op : Nat) (rest2 : List Nat) (X : List Nat)
    (p1 p2 : ExpressionParser F) : Prop :=
  0 ∉ X ∧ p1.expressionPointer = X ++ 0 :: after1 ∧ p2.expressionPointer = X ++ op :: rest2 ∧
  p2.output = p1.output ∧ p2.varTable = p1.varTable

/-- The runs are in step: the same part of `A` left and the same token held. -/
def InStep {F : Type} (after1 : List Nat) (op : Nat) (rest2 : List Nat) (X : List Nat)
    (p1 p2 : ExpressionParser F) : Prop :=
  Pre after1 op rest2 X p1 p2 ∧ p2.currentToken = p1.currentToken ∧
  p2.tokenType = p1.tokenType ∧ (p1.currentToken = [] → X ≠ [])

/-- Something was printed between the states `p` and `q`. -/
def Printed {F : Type} (p q : ExpressionParser F) : Prop :=
  ∃ l, l ≠ [] ∧ q.output = p.output ++ l

/-- The text `s` is a phrase of level `lv` with variables from `V`. -/
def Phrase (L : Locale) (V : List Nat → Prop) (lv : Level) (s : List Nat) : Prop :=
  ∃ e, Renders L V lv e s

/-- The characters of a text `differentiate` returns: `0 1 + - * / % ^ ( )`. -/
def derivativeChars : List Nat := [48, 49, 43, 45, 42, 47, 37, 94, 40, 41]

/-- A text of the differentiator: a variable-free phrase of level `lv` made of
the characters `0 1 + - * / % ^ ( )`. -/
def DText (L : Locale) (lv : Level) (s : List Nat) : Prop :=
  Phrase L noVariable lv s ∧ ∀ c ∈ s, c ∈ derivativeChars

/-- Whenever `f` returns without having printed, its text is a text of the
differentiator of level `lv`. -/
def ReturnsDText {F : Type} (L : Locale) (lv : Level) (f : Sym F) : Prop :=
  ∀ p x, f p = some x → x.2.output = p.output → DText L lv x.1

/-! ### The texts of the integrator -/

/-- The text ends on a delimiter, or is empty. -/
def EndsDelim (pre : List Nat) : Prop :=
  ∀ c, pre.getLast? = some c → isDelimiter c = true

/-- The variable `v` occurs in the text `s`: as a run of characters between
two delimiters (or the ends of the text). -/
def Occurs (L : Locale) (s v : List Nat) : Prop :=
  isVariableName L v = true ∧
  ∃ pre post, s = pre ++ (v ++ post) ∧ EndsDelim pre ∧ isDelimiter (deref post) = true

/-- The text `s` is a phrase of level `lv` over the variables that occur in it. -/
def IPhrase (L : Locale) (lv : Level) (s : List Nat) : Prop :=
  Phrase L (Occurs L s) lv s

/-- The text `^2^`: the exponent of the integral of `x`, followed by another
exponent. -/
def doublePower : List Nat := [94, 50, 94]

/-- The integral of `x`, `0.5*x^2`. -/
def halfSquare : List Nat := [48, 46, 53, 42, 120, 94, 50]

/-- A sign the integrator puts before a `Primary`: none, or `-`. -/
def isSign (sign : List Nat) : Prop := sign = [] ∨ sign = [45]

/-- The texts `integratePrimary` returns: a `Primary` of the grammar, `v*x` for
a variable `v`, or `0.5*x^2`; or a text that contains `^2^`. -/
def IPrimary (L : Locale) (s : List Nat) : Prop :=
  IPhrase L .primary s ∨ (∃ v, isVariableName L v = true ∧ s = v ++ [42, 120]) ∨
  s = halfSquare ∨ doublePower <:+: s

/-- The texts `integrateUnary` returns: the former, with a sign. -/
def IUnary (L : Locale) (s : List Nat) : Prop :=
  IPhrase L .unary s ∨
  (∃ sign v, isSign sign ∧ isVariableName L v = true ∧ s = sign ++ (v ++ [42, 120])) ∨
  (∃ sign, isSign sign ∧ s = sign ++ halfSquare) ∨ doublePower <:+: s

/-- A phrase of level `lv`, or a text that contains `^2^`. -/
def IGood (L : Locale) (lv : Level) (s : List Nat) : Prop :=
  IPhrase L lv s ∨ doublePower <:+: s

/-- The token held is what its type says: a number literal for a `NUMBER`, a
name for a `VARIABLE`. -/
def TokenOk {F : Type} (L : Locale) (p : ExpressionParser F) : Prop :=
  (p.tokenType = NUMBER → isNumberLiteral L p.currentToken = true) ∧
  (p.tokenType = VARIABLE → isVariableName L p.currentToken = true)

/-- Started on a token read by `parseToken`, `f` returns on such a token, and
whenever it returns without having printed, its text satisfies `P`. -/
def ReturnsText {F : Type} (L : Locale) (P : List Nat → Prop) (f : Sym F) : Prop :=
  ∀ p x, TokenOk L p → f p = some x → TokenOk L x.2 ∧ (x.2.output = p.output → P x.1)

/-- The runs of characters of a text between its delimiters. -/
def words : List Nat → List (List Nat)
  | [] => [[]]
  | c :: cs =>
    if isDelimiter c then [] :: words cs
    else
      match words cs with
      | w :: ws => (c :: w) :: ws
      | [] => [[c]]

/-- The variables that occur in a text: its runs of characters between
delimiters that are variable names. -/
def variablesOf (L : Locale) (s : List Nat) : List (List Nat) :=
  (words s).filter (isVariableName L)

/-! ### Invariants of the evaluator -/

/-- `J` is a property of the object state and `R` a relation between the state
before and the state after that every step of the evaluator keeps: reading a
token, printing "Syntax error" or "Unclosed parenthesis", and an assignment
(made after a token `=` was read). -/
structure Closed {F : Type} (L : Locale) (J : ExpressionParser F → Prop)
    (R : ExpressionParser F → ExpressionParser F → Prop) : Prop where
  refl : ∀ p, R p p
  trans : ∀ p q s, R p q → R q s → R p s
  parse : ∀ p, J p → J (parseToken L p) ∧ R p (parseToken L p)
  err : ∀ e p, e = 0 ∨ e = 1 → J p → J (syntaxError e p) ∧ R p (syntaxError e p)
  assign : ∀ v r p1 p3, J p1 → deref p1.currentToken = 61 → J p3 →
    J (assignVariable v r p3) ∧ R p3 (assignVariable v r p3)

/-- Started in a state with `J`, `f` returns in a state with `J` that is
related to the first by `R`. -/
def Keeps {F : Type} (J : ExpressionParser F → Prop)
    (R : ExpressionParser F → ExpressionParser F → Prop) (f : Eval F) : Prop :=
  ∀ r p x, J p → f r p = some x → J x.2 ∧ R p x.2

/-- The evaluator printed `l`, which holds "Syntax error" and "Unclosed
parenthesis" only. -/
def PrintedErrors {F : Type} (p q : ExpressionParser F) : Prop :=
  ∃ l, q.output = p.output ++ l ∧ ∀ c ∈ l, c = 0 ∨ c = 1

/-! ### Two runs of a symbolic mode on the same text -/

/-- Two object states hold the same token and point at the same text. -/
def SameCursor {F : Type} (p q : ExpressionParser F) : Prop :=
  p.expressionPointer = q.expressionPointer ∧ p.currentToken = q.currentToken ∧
  p.tokenType = q.tokenType

/-- Started in `p` and in `q`, two runs ended in `x` and in `y`: on the same
token and at the same place of the text, having printed the same. -/
def Alike {F : Type} (p q x y : ExpressionParser F) : Prop :=
  SameCursor x y ∧ ∃ l, x.output = p.output ++ l ∧ y.output = q.output ++ l

/-- Run on two states with the same cursor, `f` returns the same text, on the
same cursor, and prints the same. -/
def SymAlike {F : Type} (f : Sym F) : Prop :=
  ∀ p q x, SameCursor p q → f p = some x →
    ∃ y, f q = some y ∧ y.1 = x.1 ∧ Alike p q x.2 y.2

/-- No `=` is left to read and none is held as the token. -/
def NoAssign {F : Type} (p : ExpressionParser F) : Prop :=
  61 ∉ p.expressionPointer ∧ deref p.currentToken ≠ 61

/-- The Variable Table is the same in both states. -/
def SameTable {F : Type} (p q : ExpressionParser F) : Prop :=
  q.varTable = p.varTable

/-! ## Theorems -/

/-! ### The tokenizer never moves backwards -/


theorem scanToken_length (l : List Nat) :
    (scanToken l).1.length + (scanToken l).2.length = l.length := by
  induction l with
  | nil => simp [scanToken]
  | cons c cs ih =>
    unfold scanToken
    split
    · simp
    · simp; omega

theorem skipSpace_length (L : Locale) (l : List Nat) : (skipSpace L l).length ≤ l.length := by
  induction l with
  | nil => simp [skipSpace]
  | cons c cs ih =>
    unfold skipSpace
    split
    · simp; omega
    · simp

theorem deref_ne_zero {l : List Nat} (h : deref l ≠ 0) : l ≠ [] := by
  intro h1; subst h1; simp [deref] at h

theorem inputLeft_of_deref {F : Type} {p : ExpressionParser F} (h : deref p.currentToken ≠ 0) :
    inputLeft p = p.expressionPointer.length + 1 := by
  simp [inputLeft, deref_ne_zero h]

theorem inputLeft_le {F : Type} (p : ExpressionParser F) :
    p.expressionPointer.length ≤ inputLeft p := by
  simp [inputLeft]

theorem parseToken_inputLeft {F : Type} (L : Locale) (p : ExpressionParser F) :
    inputLeft (parseToken L p) ≤ p.expressionPointer.length := by
  have h1 := skipSpace_length L p.expressionPointer
  have h2 := scanToken_length (skipSpace L p.expressionPointer)
  simp only [parseToken]
  split_ifs
  · simp [inputLeft]
  · simp only [inputLeft, oneChar]
    cases h : skipSpace L p.expressionPointer with
    | nil => simp [deref]
    | cons c cs =>
      rw [h] at h1
      simp only [deref, List.tail_cons, List.length_cons] at h1 ⊢
      split_ifs <;> simp at * <;> omega
  · simp only [inputLeft]
    split_ifs with h
    · omega
    · have := List.length_pos.mpr h; omega
  · simp only [inputLeft]
    split_ifs with h
    · omega
    · have := List.length_pos.mpr h; omega
  · simp [inputLeft]; exact h1

@[simp] theorem parseToken_output {F : Type} (L : Locale) (p : ExpressionParser F) :
    (parseToken L p).output = p.output := by
  simp only [parseToken]; split_ifs <;> rfl

@[simp] theorem parseToken_varTable {F : Type} (L : Locale) (p : ExpressionParser F) :
    (parseToken L p).varTable = p.varTable := by
  simp only [parseToken]; split_ifs <;> rfl

@[simp] theorem syntaxError_inputLeft {F : Type} (e : Nat) (p : ExpressionParser F) :
    inputLeft (syntaxError e p) = inputLeft p := rfl

@[simp] theorem syntaxError_pointer {F : Type} (e : Nat) (p : ExpressionParser F) :
    (syntaxError e p).expressionPointer = p.expressionPointer := rfl

@[simp] theorem syntaxError_token {F : Type} (e : Nat) (p : ExpressionParser F) :
    (syntaxError e p).currentToken = p.currentToken := rfl

@[simp] theorem assignVariable_inputLeft {F : Type} (v : List Nat) (x : Option F)
    (p : ExpressionParser F) : inputLeft (assignVariable v x p) = inputLeft p := rfl

theorem findVariable_inputLeft {F : Type} (A : Arith F) (v : List Nat) (p : ExpressionParser F) :
    inputLeft (findVariable A v p).2 = inputLeft p := by
  unfold findVariable; split <;> rfl

/-! ### Fuel of the evaluator: more fuel changes nothing, `inputLeft + 1` suffices -/

theorem evaluatePrimary_mono {F : Type} (L : Locale) (A : Arith F) {t t' : Eval F}
    (h : EvalLe t t') : EvalLe (evaluatePrimary L A t) (evaluatePrimary L A t') := by
  intro r p x hx
  unfold evaluatePrimary at hx ⊢
  split_ifs at hx ⊢ with h1
  · cases ht : t r (parseToken L p) with
    | none => simp [ht] at hx
    | some y => rw [h _ _ _ ht]; rw [ht] at hx; exact hx
  · split at hx
    · simpa using hx
    · simp only [] at hx ⊢
      split_ifs at hx ⊢ with h2
      · cases ht : t r (parseToken L (parseToken L p)) with
        | none => simp [ht] at hx
        | some y => rw [h _ _ _ ht]; rw [ht] at hx; exact hx
      · exact hx
    · exact hx

theorem evaluatePrimary_total {F : Type} (L : Locale) (A : Arith F) {t : Eval F} {m : Nat}
    (h : EvalTotal m t) : EvalTotal (m + 1) (evaluatePrimary L A t) := by
  intro r p hp
  unfold evaluatePrimary
  split_ifs with h1
  · have hne : deref p.currentToken ≠ 0 := by omega
    have e1 := inputLeft_of_deref hne
    have e2 := parseToken_inputLeft L p
    obtain ⟨x, hx, hle⟩ := h r (parseToken L p) (by omega)
    rw [hx]
    refine ⟨_, rfl, ?_⟩
    have e3 := parseToken_inputLeft L (if deref x.2.currentToken ≠ 41 then syntaxError 1 x.2 else x.2)
    have e4 : (if deref x.2.currentToken ≠ 41 then syntaxError 1 x.2 else x.2).expressionPointer
        = x.2.expressionPointer := by split_ifs <;> rfl
    have e5 := inputLeft_le x.2
    rw [e4] at e3
    simp only [] at e3 ⊢
    omega
  · have e2 := parseToken_inputLeft L p
    have e0 := inputLeft_le p
    split
    · exact ⟨_, rfl, by simp only []; omega⟩
    · simp only []
      split_ifs with h2
      · have hne : deref (parseToken L p).currentToken ≠ 0 := by omega
        have e1 := inputLeft_of_deref hne
        have e3 := parseToken_inputLeft L (parseToken L p)
        obtain ⟨x, hx, hle⟩ := h r (parseToken L (parseToken L p)) (by omega)
        rw [hx]
        refine ⟨_, rfl, ?_⟩
        simp only [assignVariable_inputLeft]
        omega
      · refine ⟨_, rfl, ?_⟩
        rw [findVariable_inputLeft]; omega
    · exact ⟨_, rfl, by simp⟩



theorem evaluateUnary_mono {F : Type} (L : Locale) (A : Arith F) {f f' : Eval F}
    (h : EvalLe f f') : EvalLe (evaluateUnary L A f) (evaluateUnary L A f') := by
  intro r p x hx
  unfold evaluateUnary at hx ⊢
  by_cases h1 : p.tokenType = DELIMITER ∧ (deref p.currentToken = 43 ∨ deref p.currentToken = 45)
  · rw [if_pos h1] at hx ⊢
    cases ht : f r (parseToken L p) with
    | none => simp [ht] at hx
    | some y => rw [h _ _ _ ht]; rw [ht] at hx; exact hx
  · rw [if_neg h1] at hx ⊢; exact h _ _ _ hx

theorem evaluateUnary_total {F : Type} (L : Locale) (A : Arith F) {f : Eval F} {m : Nat}
    (h : EvalTotal m f) : EvalTotal m (evaluateUnary L A f) := by
  intro r p hp
  unfold evaluateUnary
  by_cases h1 : p.tokenType = DELIMITER ∧ (deref p.currentToken = 43 ∨ deref p.currentToken = 45)
  · rw [if_pos h1]
    have e2 := parseToken_inputLeft L p
    have e0 := inputLeft_le p
    obtain ⟨x, hx, hle⟩ := h r (parseToken L p) (by omega)
    rw [hx]
    exact ⟨_, rfl, by simp only []; omega⟩
  · rw [if_neg h1]; exact h r p hp

theorem evaluatePower_mono {F : Type} (L : Locale) (A : Arith F) {f f' : Eval F}
    (h : EvalLe f f') : EvalLe (evaluatePower L A f) (evaluatePower L A f') := by
  intro r p x hx
  unfold evaluatePower at hx ⊢
  cases ht : f r p with
  | none => simp [ht] at hx
  | some y =>
    rw [h _ _ _ ht]; rw [ht] at hx
    simp only [] at hx ⊢
    split_ifs at hx ⊢ with h1
    · cases ht2 : f none (parseToken L y.2) with
      | none => simp [ht2] at hx
      | some z => rw [h _ _ _ ht2]; rw [ht2] at hx; exact hx
    · exact hx

theorem evaluatePower_total {F : Type} (L : Locale) (A : Arith F) {f : Eval F} {m : Nat}
    (h : EvalTotal m f) : EvalTotal m (evaluatePower L A f) := by
  intro r p hp
  unfold evaluatePower
  obtain ⟨x, hx, hle⟩ := h r p hp
  rw [hx]
  simp only []
  split_ifs with h1
  · have e2 := parseToken_inputLeft L x.2
    have e0 := inputLeft_le x.2
    obtain ⟨y, hy, hle2⟩ := h none (parseToken L x.2) (by omega)
    rw [hy]
    exact ⟨_, rfl, by simp only []; omega⟩
  · exact ⟨_, rfl, hle⟩

theorem evaluateFactorLoop_mono {F : Type} (L : Locale) (A : Arith F) {f f' : Eval F}
    (h : EvalLe f f') (k : Nat) : ∀ (k' : Nat) (r t : Option F) (p : ExpressionParser F)
    (x : Option F × ExpressionParser F), k ≤ k' →
    evaluateFactorLoop L A f k r t p = some x → evaluateFactorLoop L A f' k' r t p = some x := by
  induction k with
  | zero => intro k' r t p x _ hx; simp [evaluateFactorLoop] at hx
  | succ k ih =>
    intro k' r t p x hk hx
    obtain ⟨j, rfl⟩ : ∃ j, k' = j + 1 := ⟨k' - 1, by omega⟩
    unfold evaluateFactorLoop at hx ⊢
    split_ifs at hx ⊢ with h1
    · cases ht : f t (parseToken L p) with
      | none => simp [ht] at hx
      | some y =>
        rw [h _ _ _ ht]; rw [ht] at hx
        exact ih j _ _ _ _ (by omega) hx
    · exact hx

theorem evaluateFactorLoop_total {F : Type} (L : Locale) (A : Arith F) {f : Eval F} {m : Nat}
    (h : EvalTotal m f) (k : Nat) : ∀ (r t : Option F) (p : ExpressionParser F),
    inputLeft p < m → inputLeft p < k →
    ∃ x, evaluateFactorLoop L A f k r t p = some x ∧ inputLeft x.2 ≤ inputLeft p := by
  induction k with
  | zero => intro r t p _ hk; omega
  | succ k ih =>
    intro r t p hm hk
    unfold evaluateFactorLoop
    split_ifs with h1
    · have hne : deref p.currentToken ≠ 0 := by omega
      have e1 := inputLeft_of_deref hne
      have e2 := parseToken_inputLeft L p
      obtain ⟨y, hy, hle⟩ := h t (parseToken L p) (by omega)
      rw [hy]
      obtain ⟨x, hx, hle2⟩ := ih (factorOp A (deref p.currentToken) r y.1) y.1 y.2
        (by omega) (by omega)
      exact ⟨x, hx, by omega⟩
    · exact ⟨_, rfl, le_refl _⟩

theorem evaluateFactor_mono {F : Type} (L : Locale) (A : Arith F) {f f' : Eval F}
    (h : EvalLe f f') : EvalLe (evaluateFactor L A f) (evaluateFactor L A f') := by
  intro r p x hx
  unfold evaluateFactor at hx ⊢
  cases ht : f r p with
  | none => simp [ht] at hx
  | some y =>
    rw [h _ _ _ ht]; rw [ht] at hx
    exact evaluateFactorLoop_mono L A h _ _ _ _ _ _ (le_refl _) hx

theorem evaluateFactor_total {F : Type} (L : Locale) (A : Arith F) {f : Eval F} {m : Nat}
    (h : EvalTotal m f) : EvalTotal m (evaluateFactor L A f) := by
  intro r p hp
  unfold evaluateFactor
  obtain ⟨x, hx, hle⟩ := h r p hp
  rw [hx]
  have e0 := inputLeft_le x.2
  have e1 : inputLeft x.2 ≤ x.2.expressionPointer.length + 1 := by
    simp only [inputLeft]; split_ifs <;> omega
  obtain ⟨y, hy, hle2⟩ := evaluateFactorLoop_total L A h (x.2.expressionPointer.length + 2)
    x.1 none x.2 (by omega) (by omega)
  exact ⟨y, hy, by omega⟩


theorem evaluateTermLoop_mono {F : Type} (L : Locale) (A : Arith F) {f f' : Eval F}
    (h : EvalLe f f') (k : Nat) : ∀ (k' : Nat) (r t : Option F) (p : ExpressionParser F)
    (x : Option F × ExpressionParser F), k ≤ k' →
    evaluateTermLoop L A f k r t p = some x → evaluateTermLoop L A f' k' r t p = some x := by
  induction k with
  | zero => intro k' r t p x _ hx; simp [evaluateTermLoop] at hx
  | succ k ih =>
    intro k' r t p x hk hx
    obtain ⟨j, rfl⟩ : ∃ j, k' = j + 1 := ⟨k' - 1, by omega⟩
    unfold evaluateTermLoop at hx ⊢
    split_ifs at hx ⊢ with h1
    · cases ht : f t (parseToken L p) with
      | none => simp [ht] at hx
      | some y =>
        rw [h _ _ _ ht]; rw [ht] at hx
        exact ih j _ _ _ _ (by omega) hx
    · exact hx

theorem evaluateTermLoop_total {F : Type} (L : Locale) (A : Arith F) {f : Eval F} {m : Nat}
    (h : EvalTotal m f) (k : Nat) : ∀ (r t : Option F) (p : ExpressionParser F),
    inputLeft p < m → inputLeft p < k →
    ∃ x, evaluateTermLoop L A f k r t p = some x ∧ inputLeft x.2 ≤ inputLeft p := by
  induction k with
  | zero => intro r t p _ hk; omega
  | succ k ih =>
    intro r t p hm hk
    unfold evaluateTermLoop
    split_ifs with h1
    · have hne : deref p.currentToken ≠ 0 := by omega
      have e1 := inputLeft_of_deref hne
      have e2 := parseToken_inputLeft L p
      obtain ⟨y, hy, hle⟩ := h t (parseToken L p) (by omega)
      rw [hy]
      obtain ⟨x, hx, hle2⟩ := ih (termOp A (deref p.currentToken) r y.1) y.1 y.2
        (by omega) (by omega)
      exact ⟨x, hx, by omega⟩
    · exact ⟨_, rfl, le_refl _⟩

theorem evaluateTermBody_mono {F : Type} (L : Locale) (A : Arith F) {f f' : Eval F}
    (h : EvalLe f f') : EvalLe (evaluateTermBody L A f) (evaluateTermBody L A f') := by
  intro r p x hx
  unfold evaluateTermBody at hx ⊢
  cases ht : f r p with
  | none => simp [ht] at hx
  | some y =>
    rw [h _ _ _ ht]; rw [ht] at hx
    exact evaluateTermLoop_mono L A h _ _ _ _ _ _ (le_refl _) hx

theorem evaluateTermBody_total {F : Type} (L : Locale) (A : Arith F) {f : Eval F} {m : Nat}
    (h : EvalTotal m f) : EvalTotal m (evaluateTermBody L A f) := by
  intro r p hp
  unfold evaluateTermBody
  obtain ⟨x, hx, hle⟩ := h r p hp
  rw [hx]
  have e0 := inputLeft_le x.2
  have e1 : inputLeft x.2 ≤ x.2.expressionPointer.length + 1 := by
    simp only [inputLeft]; split_ifs <;> omega
  obtain ⟨y, hy, hle2⟩ := evaluateTermLoop_total L A h (x.2.expressionPointer.length + 2)
    x.1 none x.2 (by omega) (by omega)
  exact ⟨y, hy, by omega⟩

theorem evaluateTerm_mono_succ {F : Type} (L : Locale) (A : Arith F) (n : Nat) :
    EvalLe (evaluateTerm L A n) (evaluateTerm L A (n + 1)) := by
  induction n with
  | zero => intro r p x hx; simp [evaluateTerm] at hx
  | succ n ih =>
    intro r p x hx
    unfold evaluateTerm at hx ⊢
    exact evaluateTermBody_mono L A (evaluateFactor_mono L A (evaluatePower_mono L A
      (evaluateUnary_mono L A (evaluatePrimary_mono L A ih)))) r p x hx

theorem evaluateTerm_mono {F : Type} (L : Locale) (A : Arith F) {n n' : Nat} (h : n ≤ n') :
    EvalLe (evaluateTerm L A n) (evaluateTerm L A n') := by
  induction h with
  | refl => intro r p x hx; exact hx
  | step _ ih => intro r p x hx; exact evaluateTerm_mono_succ L A _ r p x (ih r p x hx)

theorem evaluateTerm_total {F : Type} (L : Locale) (A : Arith F) (n : Nat) :
    EvalTotal n (evaluateTerm L A n) := by
  induction n with
  | zero => intro r p hp; omega
  | succ n ih =>
    unfold evaluateTerm
    exact evaluateTermBody_total L A (evaluateFactor_total L A (evaluatePower_total L A
      (evaluateUnary_total L A (evaluatePrimary_total L A ih))))

/-- With enough fuel the result of `evaluateTerm` does not depend on the fuel. -/
theorem evaluateTerm_fuel {F : Type} (L : Locale) (A : Arith F) {n n' : Nat} (r : Option F)
    (p : ExpressionParser F) (h : inputLeft p < n) (h' : inputLeft p < n') :
    evaluateTerm L A n r p = evaluateTerm L A n' r p := by
  obtain ⟨x, hx, _⟩ := evaluateTerm_total L A n r p h
  obtain ⟨y, hy, _⟩ := evaluateTerm_total L A n' r p h'
  have h1 := evaluateTerm_mono L A (Nat.le_max_left n n') r p x hx
  have h2 := evaluateTerm_mono L A (Nat.le_max_right n n') r p y hy
  rw [hx, hy, ← h1, ← h2]

/-! ### The evaluator with its fuel supplied: unfolding equations -/

theorem evaluateTerm_eq_evalTerm {F : Type} (L : Locale) (A : Arith F) {n : Nat} (r : Option F)
    (p : ExpressionParser F) (h : inputLeft p < n) :
    evaluateTerm L A n r p = evalTerm L A r p :=
  evaluateTerm_fuel L A r p h (Nat.lt_succ_self _)

theorem evalTerm_total {F : Type} (L : Locale) (A : Arith F) (m : Nat) :
    EvalTotal m (evalTerm L A) := by
  intro r p _
  exact evaluateTerm_total L A (inputLeft p + 1) r p (Nat.lt_succ_self _)

theorem evalTerm_ge {F : Type} (L : Locale) (A : Arith F) (n : Nat) :
    EvalLe (evaluateTerm L A n) (evalTerm L A) := by
  intro r p x hx
  obtain ⟨y, hy, _⟩ := evalTerm_total L A (inputLeft p + 1) r p (Nat.lt_succ_self _)
  have h1 := evaluateTerm_mono L A (Nat.le_max_left n (inputLeft p + 1)) r p x hx
  have h2 := evaluateTerm_mono L A (Nat.le_max_right n (inputLeft p + 1)) r p y hy
  rw [hy, ← h1, ← h2]

theorem evalPrimary_total {F : Type} (L : Locale) (A : Arith F) (m : Nat) :
    EvalTotal m (evalPrimary L A) := by
  intro r p h
  exact evaluatePrimary_total L A (evalTerm_total L A m) r p (Nat.lt_succ_of_lt h)

theorem evalUnary_total {F : Type} (L : Locale) (A : Arith F) (m : Nat) :
    EvalTotal m (evalUnary L A) :=
  evaluateUnary_total L A (evalPrimary_total L A m)

theorem evalPower_total {F : Type} (L : Locale) (A : Arith F) (m : Nat) :
    EvalTotal m (evalPower L A) :=
  evaluatePower_total L A (evalUnary_total L A m)

theorem evalFactor_total {F : Type} (L : Locale) (A : Arith F) (m : Nat) :
    EvalTotal m (evalFactor L A) :=
  evaluateFactor_total L A (evalPower_total L A m)

/-- The body of `evaluateTerm`, fuel-free. -/
theorem evalTerm_eq {F : Type} (L : Locale) (A : Arith F) (r : Option F)
    (p : ExpressionParser F) :
    evalTerm L A r p = evaluateTermBody L A (evalFactor L A) r p := by
  obtain ⟨x, hx, _⟩ := evalTerm_total L A (inputLeft p + 1) r p (Nat.lt_succ_self _)
  rw [hx]
  unfold evalTerm evaluateTerm at hx
  exact (evaluateTermBody_mono L A (evaluateFactor_mono L A (evaluatePower_mono L A
    (evaluateUnary_mono L A (evaluatePrimary_mono L A (evalTerm_ge L A _))))) r p x hx).symm

theorem evaluateFactorLoop_fuel {F : Type} (L : Locale) (A : Arith F) {f : Eval F}
    (h : ∀ m, EvalTotal m f) {k k' : Nat} (r t : Option F) (p : ExpressionParser F)
    (hk : inputLeft p < k) (hk' : inputLeft p < k') :
    evaluateFactorLoop L A f k r t p = evaluateFactorLoop L A f k' r t p := by
  obtain ⟨x, hx, _⟩ := evaluateFactorLoop_total L A (h (inputLeft p + 1)) k r t p
    (Nat.lt_succ_self _) hk
  obtain ⟨y, hy, _⟩ := evaluateFactorLoop_total L A (h (inputLeft p + 1)) k' r t p
    (Nat.lt_succ_self _) hk'
  have h1 := evaluateFactorLoop_mono L A (fun _ _ _ a => a) k (max k k') r t p x
    (Nat.le_max_left _ _) hx
  have h2 := evaluateFactorLoop_mono L A (fun _ _ _ a => a) k' (max k k') r t p y
    (Nat.le_max_right _ _) hy
  rw [hx, hy, ← h1, ← h2]

theorem evaluateTermLoop_fuel {F : Type} (L : Locale) (A : Arith F) {f : Eval F}
    (h : ∀ m, EvalTotal m f) {k k' : Nat} (r t : Option F) (p : ExpressionParser F)
    (hk : inputLeft p < k) (hk' : inputLeft p < k') :
    evaluateTermLoop L A f k r t p = evaluateTermLoop L A f k' r t p := by
  obtain ⟨x, hx, _⟩ := evaluateTermLoop_total L A (h (inputLeft p + 1)) k r t p
    (Nat.lt_succ_self _) hk
  obtain ⟨y, hy, _⟩ := evaluateTermLoop_total L A (h (inputLeft p + 1)) k' r t p
    (Nat.lt_succ_self _) hk'
  have h1 := evaluateTermLoop_mono L A (fun _ _ _ a => a) k (max k k') r t p x
    (Nat.le_max_left _ _) hx
  have h2 := evaluateTermLoop_mono L A (fun _ _ _ a => a) k' (max k k') r t p y
    (Nat.le_max_right _ _) hy
  rw [hx, hy, ← h1, ← h2]

theorem inputLeft_lt_length_add_two {F : Type} (p : ExpressionParser F) :
    inputLeft p < p.expressionPointer.length + 2 := by
  simp only [inputLeft]; split_ifs <;> omega

/-- `evaluateFactor`, fuel-free: the first operand, then the loop. -/
theorem evalFactor_eq {F : Type} (L : Locale) (A : Arith F) (r : Option F)
    (p : ExpressionParser F) :
    evalFactor L A r p =
      match evalPower L A r p with
      | none => none
      | some (r1, p1) => evalFactorLoop L A r1 none p1 := by
  unfold evalFactor evaluateFactor
  cases evalPower L A r p with
  | none => rfl
  | some x =>
    exact evaluateFactorLoop_fuel L A (evalPower_total L A) _ _ _
      (inputLeft_lt_length_add_two _) (Nat.lt_succ_self _)

/-- One turn of the loop of `evaluateFactor`, fuel-free. -/
theorem evalFactorLoop_eq {F : Type} (L : Locale) (A : Arith F) (r t : Option F)
    (p : ExpressionParser F) :
    evalFactorLoop L A r t p =
      if deref p.currentToken = 42 ∨ deref p.currentToken = 47 ∨ deref p.currentToken = 37 then
        match evalPower L A t (parseToken L p) with
        | none => none
        | some (t1, p2) => evalFactorLoop L A (factorOp A (deref p.currentToken) r t1) t1 p2
      else some (r, p) := by
  unfold evalFactorLoop
  rw [evaluateFactorLoop]
  split_ifs with h1
  · have hne : deref p.currentToken ≠ 0 := by omega
    have e1 := inputLeft_of_deref hne
    have e2 := parseToken_inputLeft L p
    obtain ⟨y, hy, hle⟩ := evalPower_total L A _ t (parseToken L p) (Nat.lt_succ_self _)
    rw [hy]
    exact evaluateFactorLoop_fuel L A (evalPower_total L A) _ _ _ (by omega) (Nat.lt_succ_self _)
  · rfl

/-- `evaluateTerm`, fuel-free: the first operand, then the loop. -/
theorem evalTerm_eq_loop {F : Type} (L : Locale) (A : Arith F) (r : Option F)
    (p : ExpressionParser F) :
    evalTerm L A r p =
      match evalFactor L A r p with
      | none => none
      | some (r1, p1) => evalTermLoop L A r1 none p1 := by
  rw [evalTerm_eq]
  unfold evaluateTermBody
  cases evalFactor L A r p with
  | none => rfl
  | some x =>
    exact evaluateTermLoop_fuel L A (evalFactor_total L A) _ _ _
      (inputLeft_lt_length_add_two _) (Nat.lt_succ_self _)

/-- One turn of the loop of `evaluateTerm`, fuel-free. -/
theorem evalTermLoop_eq {F : Type} (L : Locale) (A : Arith F) (r t : Option F)
    (p : ExpressionParser F) :
    evalTermLoop L A r t p =
      if deref p.currentToken = 43 ∨ deref p.currentToken = 45 then
        match evalFactor L A t (parseToken L p) with
        | none => none
        | some (t1, p2) => evalTermLoop L A (termOp A (deref p.currentToken) r t1) t1 p2
      else some (r, p) := by
  unfold evalTermLoop
  rw [evaluateTermLoop]
  split_ifs with h1
  · have hne : deref p.currentToken ≠ 0 := by omega
    have e1 := inputLeft_of_deref hne
    have e2 := parseToken_inputLeft L p
    obtain ⟨y, hy, hle⟩ := evalFactor_total L A _ t (parseToken L p) (Nat.lt_succ_self _)
    rw [hy]
    exact evaluateTermLoop_fuel L A (evalFactor_total L A) _ _ _ (by omega) (Nat.lt_succ_self _)
  · rfl

/-- `evaluateExpression`, fuel-free. -/
theorem evaluateExpression_eq {F : Type} (L : Locale) (A : Arith F) (this : ExpressionParser F)
    (expression : List Nat) :
    evaluateExpression L A this expression =
      if deref (parseToken L { this with expressionPointer := expression }).currentToken = 0 then
        some (some A.zero, syntaxError 2 (parseToken L { this with expressionPointer := expression }))
      else
        match evalTerm L A none (parseToken L { this with expressionPointer := expression }) with
        | none => none
        | some (result, p1) =>
          some (result, if deref p1.currentToken ≠ 0 then syntaxError 0 p1 else p1) := by
  unfold evaluateExpression
  simp only []
  have e := parseToken_inputLeft L { this with expressionPointer := expression }
  rw [evaluateTerm_eq_evalTerm L A none _ (Nat.lt_succ_of_le e)]

/-! ### The tokenizer on well-formed input -/

theorem isBlank_cons {c : Nat} {ws : List Nat} (h : isBlank (c :: ws) = true) :
    (c = 32 ∨ c = 9 ∨ c = 13) ∧ isBlank ws = true := by
  simpa [isBlank, or_assoc] using h

theorem isBlank_append {a b : List Nat} (ha : isBlank a = true) (hb : isBlank b = true) :
    isBlank (a ++ b) = true := by
  simp only [isBlank, List.all_append, Bool.and_eq_true] at *
  exact ⟨ha, hb⟩

theorem isDelimiter_blank {c : Nat} (h : c = 32 ∨ c = 9 ∨ c = 13) : isDelimiter c = true := by
  rcases h with h | h | h <;> subst h <;> decide

theorem isDelimiter_of_mem {c : Nat} (h : c ∈ delimiterChars) : isDelimiter c = true := by
  simp only [delimiterChars, List.mem_cons, List.mem_singleton, List.not_mem_nil, or_false] at h
  rcases h with h | h | h | h | h | h | h | h | h <;> subst h <;> decide

theorem isDelimiter_iff (c : Nat) :
    isDelimiter c = true ↔ c ∈ [0, 32, 9, 13, 43, 45, 42, 47, 37, 94, 61, 40, 41] := by
  simp only [isDelimiter, wcschr, isDelimiterChars, List.contains_eq_any_beq, List.any_cons,
    List.any_nil, Bool.or_false, Bool.or_eq_true, beq_iff_eq, List.mem_cons, List.mem_singleton,
    List.not_mem_nil, or_false]
  constructor <;> intro h <;> omega

theorem wcschr_delimiterChars (c : Nat) :
    wcschr delimiterChars c = true ↔ c = 0 ∨ c ∈ delimiterChars := by
  simp [wcschr, List.contains_eq_any_beq, delimiterChars]

theorem skipSpace_blank (L : Locale) {ws : List Nat} (rest : List Nat) (h : isBlank ws = true) :
    skipSpace L (ws ++ rest) = skipSpace L rest := by
  induction ws with
  | nil => rfl
  | cons c cs ih =>
    obtain ⟨hc, hcs⟩ := isBlank_cons h
    have : L.iswspace c = true := L.space_ascii c (by omega)
    simp [skipSpace, this, ih hcs]

theorem skipSpace_of_not_space (L : Locale) {c : Nat} (rest : List Nat)
    (h : L.iswspace c = false) : skipSpace L (c :: rest) = c :: rest := by
  simp [skipSpace, h]

theorem scanToken_run (cs : List Nat) (rest : List Nat)
    (h : cs.all (fun d => !isDelimiter d) = true) (hr : isDelimiter (deref rest) = true) :
    scanToken (cs ++ rest) = (cs, rest) := by
  induction cs with
  | nil =>
    cases rest with
    | nil => rfl
    | cons c r => simp only [deref] at hr; simp [scanToken, hr]
  | cons c cs ih =>
    simp only [List.all_cons, Bool.and_eq_true, Bool.not_eq_true'] at h
    simp [scanToken, h.1, ih h.2]

theorem deref_append_ne_zero {ws : List Nat} {c : Nat} (rest : List Nat)
    (h : isBlank ws = true) (hc : c ≠ 0) : deref (ws ++ c :: rest) ≠ 0 := by
  cases ws with
  | nil => simpa [deref] using hc
  | cons d ds =>
    obtain ⟨hd, _⟩ := isBlank_cons h
    simp only [List.cons_append, deref]; omega

/-- `parseToken` overwrites the token it finds in the state. -/
theorem parseToken_congr {F : Type} (L : Locale) (p q : ExpressionParser F)
    (h1 : p.expressionPointer = q.expressionPointer) (h2 : p.varTable = q.varTable)
    (h3 : p.output = q.output) : parseToken L p = parseToken L q := by
  cases p; cases q
  simp only at h1 h2 h3
  subst h1 h2 h3
  simp only [parseToken]

theorem parseToken_eq_lookAt {F : Type} (L : Locale) (p q : ExpressionParser F)
    (h2 : q.varTable = p.varTable) (h3 : q.output = p.output) :
    parseToken L q = lookAt L p q.expressionPointer :=
  parseToken_congr L _ _ rfl h2 h3

theorem lookAt_delimiter {F : Type} (L : Locale) (p : ExpressionParser F) {ws : List Nat}
    {c : Nat} (rest : List Nat) (h : isBlank ws = true) (hc : c ∈ delimiterChars) :
    lookAt L p (ws ++ c :: rest) =
      { p with tokenType := DELIMITER, currentToken := [c], expressionPointer := rest } := by
  have hc0 : c ≠ 0 := by intro h0; subst h0; simp [delimiterChars] at hc
  have hsp : L.iswspace c = false := L.space_not_punct c hc
  have h1 := deref_append_ne_zero rest h hc0
  simp only [lookAt, parseToken]
  rw [if_neg h1]
  simp only [skipSpace_blank L _ h, skipSpace_of_not_space L _ hsp, deref,
    (wcschr_delimiterChars c).mpr (Or.inr hc), if_true, oneChar, hc0, if_false, List.tail_cons]

theorem lookAt_number {F : Type} (L : Locale) (p : ExpressionParser F) {ws lit : List Nat}
    (rest : List Nat) (h : isBlank ws = true) (hl : isNumberLiteral L lit = true)
    (hr : isDelimiter (deref rest) = true) :
    lookAt L p (ws ++ (lit ++ rest)) =
      { p with tokenType := NUMBER, currentToken := lit, expressionPointer := rest } := by
  cases lit with
  | nil => simp [isNumberLiteral] at hl
  | cons c cs =>
    simp only [isNumberLiteral, Bool.and_eq_true] at hl
    have hnd := L.digit_not_delim c hl.1
    have hc0 : c ≠ 0 := by intro h0; subst h0; simp at hnd
    have hsp : L.iswspace c = false := L.space_not_digit c hl.1
    have hal : L.iswalpha c = false := by
      cases ha : L.iswalpha c with
      | false => rfl
      | true => have := L.alpha_not_digit c ha; simp [hl.1] at this
    have hw : wcschr delimiterChars c = false := by
      cases hw : wcschr delimiterChars c with
      | false => rfl
      | true =>
        rcases (wcschr_delimiterChars c).mp hw with h0 | h0
        · exact absurd h0 hc0
        · simp only [delimiterChars, List.mem_cons, List.mem_singleton, List.not_mem_nil,
            or_false] at h0 hnd
          omega
    have hnc : isDelimiter c = false := by
      cases hd : isDelimiter c with
      | false => rfl
      | true => exact absurd ((isDelimiter_iff c).mp hd) hnd
    have h1 := deref_append_ne_zero (cs ++ rest) h hc0
    have hs : scanToken (c :: cs ++ rest) = (c :: cs, rest) :=
      scanToken_run (c :: cs) rest (by simp [hnc, hl.2]) hr
    simp only [lookAt, parseToken, List.cons_append]
    rw [if_neg h1]
    simp only [skipSpace_blank L _ h, skipSpace_of_not_space L _ hsp, deref, hw, hal, hl.1,
      if_true, Bool.false_eq_true, if_false]
    rw [show c :: (cs ++ rest) = c :: cs ++ rest from rfl, hs]

theorem lookAt_name {F : Type} (L : Locale) (p : ExpressionParser F) {ws v : List Nat}
    (rest : List Nat) (h : isBlank ws = true) (hl : isVariableName L v = true)
    (hr : isDelimiter (deref rest) = true) :
    lookAt L p (ws ++ (v ++ rest)) =
      { p with tokenType := VARIABLE, currentToken := v, expressionPointer := rest } := by
  cases v with
  | nil => simp [isVariableName] at hl
  | cons c cs =>
    simp only [isVariableName, Bool.and_eq_true] at hl
    have hnd := L.alpha_not_delim c hl.1
    have hc0 : c ≠ 0 := by intro h0; subst h0; simp at hnd
    have hsp : L.iswspace c = false := L.space_not_alpha c hl.1
    have hw : wcschr delimiterChars c = false := by
      cases hw : wcschr delimiterChars c with
      | false => rfl
      | true =>
        rcases (wcschr_delimiterChars c).mp hw with h0 | h0
        · exact absurd h0 hc0
        · simp only [delimiterChars, List.mem_cons, List.mem_singleton, List.not_mem_nil,
            or_false] at h0 hnd
          omega
    have hnc : isDelimiter c = false := by
      cases hd : isDelimiter c with
      | false => rfl
      | true => exact absurd ((isDelimiter_iff c).mp hd) hnd
    have h1 := deref_append_ne_zero (cs ++ rest) h hc0
    have hs : scanToken (c :: cs ++ rest) = (c :: cs, rest) :=
      scanToken_run (c :: cs) rest (by simp [hnc, hl.2]) hr
    simp only [lookAt, parseToken, List.cons_append]
    rw [if_neg h1]
    simp only [skipSpace_blank L _ h, skipSpace_of_not_space L _ hsp, deref, hw, hl.1,
      if_true, Bool.false_eq_true, if_false]
    rw [show c :: (cs ++ rest) = c :: cs ++ rest from rfl, hs]

/-- At the end of the text the token is empty, whether or not blanks precede
the terminating NUL. -/
theorem lookAt_end {F : Type} (L : Locale) (p : ExpressionParser F) {ws : List Nat}
    (after : List Nat) (h : isBlank ws = true) :
    (lookAt L p (ws ++ 0 :: after)).currentToken = [] ∧
    (lookAt L p (ws ++ 0 :: after)).varTable = p.varTable ∧
    (lookAt L p (ws ++ 0 :: after)).output = p.output := by
  refine ⟨?_, by simp [lookAt], by simp [lookAt]⟩
  cases ws with
  | nil => simp [lookAt, parseToken, deref]
  | cons c cs =>
    obtain ⟨hc, _⟩ := isBlank_cons h
    have h1 : deref (c :: cs ++ 0 :: after) ≠ 0 := by simp only [List.cons_append, deref]; omega
    simp only [lookAt, parseToken]
    rw [if_neg h1]
    simp only [skipSpace_blank L _ h, skipSpace_of_not_space L _ L.space_not_nul, deref]
    simp [wcschr, oneChar]

/-! ### The evaluator on well-formed input -/

theorem deref_blank_cons {ws : List Nat} (c : Nat) (rest : List Nat) (h : isBlank ws = true)
    (hc : isDelimiter c = true) : isDelimiter (deref (ws ++ c :: rest)) = true := by
  cases ws with
  | nil => simpa [deref] using hc
  | cons d ds =>
    obtain ⟨hd, _⟩ := isBlank_cons h
    simpa [deref] using isDelimiter_blank hd

theorem parseToken_lookAt_delimiter {F : Type} (L : Locale) (p : ExpressionParser F)
    {ws : List Nat} {c : Nat} (rest : List Nat) (h : isBlank ws = true)
    (hc : c ∈ delimiterChars) :
    parseToken L (lookAt L p (ws ++ c :: rest)) = lookAt L p rest := by
  rw [lookAt_delimiter L p rest h hc]
  rfl

theorem nextNot_delimiter {F : Type} (L : Locale) (p : ExpressionParser F) {ws : List Nat}
    {c : Nat} (rest : List Nat) (cs : List Nat) (h : isBlank ws = true)
    (hc : c ∈ delimiterChars) (hcs : c ∉ cs) : NextNot L p (ws ++ c :: rest) cs := by
  refine ⟨deref_blank_cons c rest h (isDelimiter_of_mem hc), ?_⟩
  intro d hd
  rw [lookAt_delimiter L p rest h hc]
  simp only [deref]
  intro h1; subst h1; exact hcs hd

theorem nextNot_end {F : Type} (L : Locale) (p : ExpressionParser F) {ws : List Nat}
    (after : List Nat) (cs : List Nat) (h : isBlank ws = true) (hcs : 0 ∉ cs) :
    NextNot L p (ws ++ 0 :: after) cs := by
  refine ⟨deref_blank_cons 0 after h (by decide), ?_⟩
  intro d hd
  rw [(lookAt_end L p after h).1]
  simp only [deref]
  intro h1; subst h1; exact hcs hd

theorem NextNot.mono {F : Type} {L : Locale} {p : ExpressionParser F} {rest cs cs' : List Nat}
    (h : NextNot L p rest cs) (hsub : ∀ c ∈ cs', c ∈ cs) : NextNot L p rest cs' :=
  ⟨h.1, fun c hc => h.2 c (hsub c hc)⟩

theorem evalSpec_number {F : Type} (L : Locale) (A : Arith F) (env : List Nat → F)
    (p : ExpressionParser F) (ws lit : List Nat)
    (h : isBlank ws = true) (hl : isNumberLiteral L lit = true) :
    EvalSpec L A env p .primary (.num lit) (ws ++ lit) := by
  intro rest r hr
  rw [List.append_assoc, lookAt_number L p rest h hl hr.1]
  cases lit with
  | nil => simp [isNumberLiteral] at hl
  | cons c cs =>
    simp only [isNumberLiteral, Bool.and_eq_true] at hl
    have hnd := L.digit_not_delim c hl.1
    simp only [List.mem_cons, List.mem_singleton, List.not_mem_nil, or_false] at hnd
    refine ⟨?_, ?_, ?_⟩
    · unfold evalPrimary evaluatePrimary
      have h40 : deref (c :: cs) ≠ 40 := by simp only [deref]; omega
      simp only [h40, if_false]
      rfl
    · simp only [deref]; omega
    · simp

theorem findVariable_bound {F : Type} (A : Arith F) (name : List Nat) (x : F)
    (p : ExpressionParser F) (h : lookupVariable name p.varTable = some (some x)) :
    findVariable A name p = (some x, p) := by
  simp [findVariable, h]

theorem evalSpec_variable {F : Type} (L : Locale) (A : Arith F) (env : List Nat → F)
    (p : ExpressionParser F) (ws name : List Nat)
    (h : isBlank ws = true) (hl : isVariableName L name = true)
    (hb : lookupVariable name p.varTable = some (some (env name))) :
    EvalSpec L A env p .primary (.var name) (ws ++ name) := by
  intro rest r hr
  have h61 := hr.2 61 (by simp)
  have hst := lookAt_name L p rest h hl hr.1
  have hp : parseToken L (lookAt L p (ws ++ (name ++ rest))) = lookAt L p rest := by
    rw [hst]; rfl
  rw [List.append_assoc]
  cases name with
  | nil => simp [isVariableName] at hl
  | cons c cs =>
    simp only [isVariableName, Bool.and_eq_true] at hl
    have hnd := L.alpha_not_delim c hl.1
    simp only [List.mem_cons, List.mem_singleton, List.not_mem_nil, or_false] at hnd
    have h40 : deref (c :: cs) ≠ 40 := by simp only [deref]; omega
    refine ⟨?_, ?_, ?_⟩
    · unfold evalPrimary evaluatePrimary
      simp only []
      rw [hp, if_neg h61, hst]
      simp only [h40, if_false]
      rw [findVariable_bound A (c :: cs) (env (c :: cs)) _ (by simpa [lookAt] using hb)]
      rfl
    · rw [hst]; simp only [deref]; omega
    · rw [hst]; simp

theorem evalSpec_paren {F : Type} (L : Locale) (A : Arith F) (env : List Nat → F)
    (p : ExpressionParser F) (ws1 ws2 : List Nat) (e : Expr)
    (s : List Nat) (h1 : isBlank ws1 = true) (h2 : isBlank ws2 = true)
    (ih : EvalSpec L A env p .term e s) :
    EvalSpec L A env p .primary e (ws1 ++ 40 :: (s ++ (ws2 ++ [41]))) := by
  intro rest r _
  have e1 : ws1 ++ 40 :: (s ++ (ws2 ++ [41])) ++ rest = ws1 ++ 40 :: (s ++ (ws2 ++ 41 :: rest)) := by
    simp
  have hm40 : 40 ∈ delimiterChars := by decide
  have hm41 : 41 ∈ delimiterChars := by decide
  have htok := lookAt_delimiter L p rest h2 hm41
  obtain ⟨⟨t, ht⟩, _⟩ := ih (ws2 ++ 41 :: rest) r
    (nextNot_delimiter L p rest _ h2 hm41 (by decide))
  rw [e1]
  refine ⟨?_, ?_, ?_⟩
  · unfold evalPrimary evaluatePrimary
    rw [parseToken_lookAt_delimiter L p _ h1 hm40, ht, evalTermLoop_eq]
    rw [lookAt_delimiter L p _ h1 hm40]
    simp only [deref, if_true]
    rw [htok]
    simp only [deref, Nat.reduceEqDiff, or_self, if_false, ne_eq, not_true_eq_false]
    rw [← htok, parseToken_lookAt_delimiter L p _ h2 hm41]
  · rw [lookAt_delimiter L p _ h1 hm40]; simp [deref]
  · rw [lookAt_delimiter L p _ h1 hm40]; simp [deref]

theorem evalSpec_primary {F : Type} (L : Locale) (A : Arith F) (env : List Nat → F)
    (p : ExpressionParser F) (e : Expr) (s : List Nat)
    (ih : EvalSpec L A env p .primary e s) : EvalSpec L A env p .unary e s := by
  intro rest r hr
  obtain ⟨h1, h2, h3⟩ := ih rest r hr
  refine ⟨?_, h2⟩
  unfold evalUnary evaluateUnary
  rw [if_neg h3]
  exact h1

theorem evalSpec_sign {F : Type} (L : Locale) (A : Arith F) (env : List Nat → F)
    (p : ExpressionParser F) (ws : List Nat) (c : Nat) (e : Expr)
    (s : List Nat) (h : isBlank ws = true) (hc : c = 43 ∨ c = 45)
    (ih : EvalSpec L A env p .primary e s) (rest : List Nat) (r : Option F)
    (hr : NextNot L p rest [61]) :
    evalUnary L A r (lookAt L p (ws ++ c :: s ++ rest)) =
      some (if c = 45 then some (A.neg (refEval A env e)) else some (refEval A env e),
        lookAt L p rest) ∧
    deref (lookAt L p (ws ++ c :: s ++ rest)).currentToken ≠ 0 := by
  have hm : c ∈ delimiterChars := by rcases hc with hc | hc <;> subst hc <;> decide
  obtain ⟨h1, _, _⟩ := ih rest r hr
  have e1 : ws ++ c :: s ++ rest = ws ++ c :: (s ++ rest) := by simp
  rw [e1]
  constructor
  · unfold evalUnary evaluateUnary
    rw [parseToken_lookAt_delimiter L p _ h hm]
    rw [lookAt_delimiter L p _ h hm]
    simp only [deref, hc, and_self, if_true]
    rw [h1]
    split_ifs <;> rfl
  · rw [lookAt_delimiter L p _ h hm]
    simp only [deref]; omega

theorem evalSpec_plus {F : Type} (L : Locale) (A : Arith F) (env : List Nat → F)
    (p : ExpressionParser F) (ws : List Nat) (e : Expr)
    (s : List Nat) (h : isBlank ws = true) (ih : EvalSpec L A env p .primary e s) :
    EvalSpec L A env p .unary e (ws ++ 43 :: s) := by
  intro rest r hr
  simpa using evalSpec_sign L A env p ws 43 e s h (Or.inl rfl) ih rest r hr

theorem evalSpec_minus {F : Type} (L : Locale) (A : Arith F) (env : List Nat → F)
    (p : ExpressionParser F) (ws : List Nat) (e : Expr)
    (s : List Nat) (h : isBlank ws = true) (ih : EvalSpec L A env p .primary e s) :
    EvalSpec L A env p .unary (.neg e) (ws ++ 45 :: s) := by
  intro rest r hr
  simpa [refEval] using evalSpec_sign L A env p ws 45 e s h (Or.inr rfl) ih rest r hr

theorem evalSpec_unary {F : Type} (L : Locale) (A : Arith F) (env : List Nat → F)
    (p : ExpressionParser F) (e : Expr) (s : List Nat)
    (ih : EvalSpec L A env p .unary e s) : EvalSpec L A env p .power e s := by
  intro rest r hr
  have h94 := hr.2 94 (by simp)
  obtain ⟨h1, h2⟩ := ih rest r (hr.mono (by simp))
  refine ⟨?_, h2⟩
  unfold evalPower evaluatePower
  rw [h1]
  simp only [h94, if_false]

theorem evalSpec_pow {F : Type} (L : Locale) (A : Arith F) (env : List Nat → F)
    (p : ExpressionParser F) (ws : List Nat) (b x : Expr)
    (s1 s2 : List Nat) (h : isBlank ws = true) (ihb : EvalSpec L A env p .unary b s1)
    (ihx : EvalSpec L A env p .unary x s2) :
    EvalSpec L A env p .power (.pow b x) (s1 ++ (ws ++ 94 :: s2)) := by
  intro rest r hr
  have hm : 94 ∈ delimiterChars := by decide
  have e1 : s1 ++ (ws ++ 94 :: s2) ++ rest = s1 ++ (ws ++ 94 :: (s2 ++ rest)) := by simp
  obtain ⟨h1, h2⟩ := ihb (ws ++ 94 :: (s2 ++ rest)) r
    (nextNot_delimiter L p _ _ h hm (by decide))
  obtain ⟨h3, _⟩ := ihx rest none (hr.mono (by simp))
  rw [e1]
  refine ⟨?_, h2⟩
  unfold evalPower evaluatePower
  rw [h1]
  simp only []
  rw [parseToken_lookAt_delimiter L p _ h hm, h3]
  rw [lookAt_delimiter L p _ h hm]
  simp only [deref, if_true, powerValue, refEval, Option.map_some']
  split_ifs <;> rfl

theorem evalSpec_power {F : Type} (L : Locale) (A : Arith F) (env : List Nat → F)
    (p : ExpressionParser F) (e : Expr) (s : List Nat)
    (ih : EvalSpec L A env p .power e s) : EvalSpec L A env p .factor e s := by
  intro rest r hr
  obtain ⟨h1, h2⟩ := ih rest r hr
  refine ⟨⟨none, ?_⟩, h2⟩
  rw [evalFactor_eq, h1]

theorem factorOp_code {F : Type} (A : Arith F) (env : List Nat → F) (op : MulOp) (l r : Expr) :
    factorOp A op.code (some (refEval A env l)) (some (refEval A env r)) =
      some (refEval A env (.mulop op l r)) := by
  cases op <;> simp [factorOp, MulOp.code, lift2, refEval]

theorem termOp_code {F : Type} (A : Arith F) (env : List Nat → F) (op : AddOp) (l r : Expr) :
    termOp A op.code (some (refEval A env l)) (some (refEval A env r)) =
      some (refEval A env (.addop op l r)) := by
  cases op <;> simp [termOp, AddOp.code, lift2, refEval]

theorem evalSpec_mulop {F : Type} (L : Locale) (A : Arith F) (env : List Nat → F)
    (p : ExpressionParser F) (ws : List Nat) (op : MulOp)
    (l r : Expr) (s1 s2 : List Nat) (h : isBlank ws = true)
    (ihl : EvalSpec L A env p .factor l s1) (ihr : EvalSpec L A env p .power r s2) :
    EvalSpec L A env p .factor (.mulop op l r) (s1 ++ (ws ++ op.code :: s2)) := by
  intro rest r0 hr
  have hm : op.code ∈ delimiterChars := by cases op <;> decide
  have hop : op.code = 42 ∨ op.code = 47 ∨ op.code = 37 := by cases op <;> simp [MulOp.code]
  have e1 : s1 ++ (ws ++ op.code :: s2) ++ rest = s1 ++ (ws ++ op.code :: (s2 ++ rest)) := by
    simp
  have htok := lookAt_delimiter L p (s2 ++ rest) h hm
  obtain ⟨⟨t, h1⟩, h2⟩ := ihl (ws ++ op.code :: (s2 ++ rest)) r0
    (nextNot_delimiter L p _ _ h hm (by cases op <;> decide))
  obtain ⟨h3, _⟩ := ihr rest t hr
  rw [e1]
  refine ⟨⟨some (refEval A env r), ?_⟩, h2⟩
  rw [h1, evalFactorLoop_eq, parseToken_lookAt_delimiter L p _ h hm, h3]
  rw [htok]
  simp only [deref, hop, if_true, factorOp_code]

theorem evalSpec_factor {F : Type} (L : Locale) (A : Arith F) (env : List Nat → F)
    (p : ExpressionParser F) (e : Expr) (s : List Nat)
    (ih : EvalSpec L A env p .factor e s) : EvalSpec L A env p .term e s := by
  intro rest r hr
  have h42 := hr.2 42 (by simp)
  have h47 := hr.2 47 (by simp)
  have h37 := hr.2 37 (by simp)
  obtain ⟨⟨t, h1⟩, h2⟩ := ih rest r (hr.mono (by simp))
  refine ⟨⟨none, ?_⟩, h2⟩
  rw [evalTerm_eq_loop, h1, evalFactorLoop_eq]
  simp only [h42, h47, h37, or_self, if_false]

theorem evalSpec_addop {F : Type} (L : Locale) (A : Arith F) (env : List Nat → F)
    (p : ExpressionParser F) (ws : List Nat) (op : AddOp)
    (l r : Expr) (s1 s2 : List Nat) (h : isBlank ws = true)
    (ihl : EvalSpec L A env p .term l s1) (ihr : EvalSpec L A env p .factor r s2) :
    EvalSpec L A env p .term (.addop op l r) (s1 ++ (ws ++ op.code :: s2)) := by
  intro rest r0 hr
  have h42 := hr.2 42 (by simp)
  have h47 := hr.2 47 (by simp)
  have h37 := hr.2 37 (by simp)
  have hm : op.code ∈ delimiterChars := by cases op <;> decide
  have hop : op.code = 43 ∨ op.code = 45 := by cases op <;> simp [AddOp.code]
  have e1 : s1 ++ (ws ++ op.code :: s2) ++ rest = s1 ++ (ws ++ op.code :: (s2 ++ rest)) := by
    simp
  have htok := lookAt_delimiter L p (s2 ++ rest) h hm
  obtain ⟨⟨t, h1⟩, h2⟩ := ihl (ws ++ op.code :: (s2 ++ rest)) r0
    (nextNot_delimiter L p _ _ h hm (by cases op <;> decide))
  obtain ⟨⟨t2, h3⟩, _⟩ := ihr rest t (hr.mono (by simp))
  rw [e1]
  refine ⟨⟨some (refEval A env r), ?_⟩, h2⟩
  rw [h1, evalTermLoop_eq, parseToken_lookAt_delimiter L p _ h hm, h3, evalFactorLoop_eq]
  have hno : ¬(deref (lookAt L p rest).currentToken = 42 ∨
      deref (lookAt L p rest).currentToken = 47 ∨ deref (lookAt L p rest).currentToken = 37) := by
    simp only [h42, h47, h37, or_self, not_false_eq_true]
  rw [if_neg hno]
  rw [htok]
  simp only [deref, hop, if_true, termOp_code]

/-- The evaluator follows the grammar: on a phrase of any level, its variables
bound, it computes the reference value of the expression the phrase denotes. -/
theorem evalSpec_of_renders {F : Type} (L : Locale) (A : Arith F) (env : List Nat → F)
    (p : ExpressionParser F) {V : List Nat → Prop} (hb : Binds V env p.varTable)
    {lv : Level} {e : Expr} {s : List Nat} (h : Renders L V lv e s) :
    EvalSpec L A env p lv e s := by
  induction h with
  | number ws lit h hl => exact evalSpec_number L A env p ws lit h hl
  | var ws name h hl hv => exact evalSpec_variable L A env p ws name h hl (hb name hv)
  | paren ws1 ws2 e s h1 h2 _ ih => exact evalSpec_paren L A env p ws1 ws2 e s h1 h2 ih
  | primary e s _ ih => exact evalSpec_primary L A env p e s ih
  | plus ws e s h _ ih => exact evalSpec_plus L A env p ws e s h ih
  | minus ws e s h _ ih => exact evalSpec_minus L A env p ws e s h ih
  | unary e s _ ih => exact evalSpec_unary L A env p e s ih
  | pow ws b x s1 s2 h _ _ ihb ihx => exact evalSpec_pow L A env p ws b x s1 s2 h ihb ihx
  | power e s _ ih => exact evalSpec_power L A env p e s ih
  | mulop ws op l r s1 s2 h _ _ ihl ihr => exact evalSpec_mulop L A env p ws op l r s1 s2 h ihl ihr
  | factor e s _ ih => exact evalSpec_factor L A env p e s ih
  | addop ws op l r s1 s2 h _ _ ihl ihr => exact evalSpec_addop L A env p ws op l r s1 s2 h ihl ihr

/-- What `evaluateExpression` does on a `Term` followed by blanks and the end
of the text: the reference value, nothing printed, the table untouched. -/
theorem evaluateExpression_term {F : Type} (L : Locale) (A : Arith F) (env : List Nat → F)
    (this : ExpressionParser F) {V : List Nat → Prop} (hb : Binds V env this.varTable)
    (e : Expr) (s trail after : List Nat)
    (h : Renders L V .term e s) (ht : isBlank trail = true) :
    evaluateExpression L A this (cString (s ++ trail) after) =
      some (some (refEval A env e), lookAt L this (trail ++ 0 :: after)) := by
  have hend := lookAt_end L this after ht
  have htok : deref (lookAt L this (trail ++ 0 :: after)).currentToken = 0 := by
    rw [hend.1]; rfl
  obtain ⟨⟨t, h1⟩, h2⟩ := evalSpec_of_renders L A env this hb h (trail ++ 0 :: after) none
    (nextNot_end L this after _ ht (by decide))
  have e1 : cString (s ++ trail) after = s ++ (trail ++ 0 :: after) := by simp [cString]
  rw [evaluateExpression_eq, e1]
  rw [show parseToken L { this with expressionPointer := s ++ (trail ++ 0 :: after) } =
    lookAt L this (s ++ (trail ++ 0 :: after)) from rfl]
  rw [if_neg h2, h1, evalTermLoop_eq]
  have hno : ¬(deref (lookAt L this (trail ++ 0 :: after)).currentToken = 43 ∨
      deref (lookAt L this (trail ++ 0 :: after)).currentToken = 45) := by
    rw [htok]; decide
  rw [if_neg hno]
  simp only [htok, ne_eq, not_true_eq_false, if_false]

theorem binds_noVariable {F : Type} (env : List Nat → F) (table : List (List Nat × Option F)) :
    Binds noVariable env table :=
  fun _ h => h.elim

/-- A number literal standing alone is a phrase of every level. -/
theorem Renders.literal (L : Locale) (V : List Nat → Prop) (lv : Level) (ws lit : List Nat)
    (h : isBlank ws = true) (hl : isNumberLiteral L lit = true) :
    Renders L V lv (.num lit) (ws ++ lit) := by
  have h0 := Renders.number (L := L) (V := V) ws lit h hl
  have h1 := Renders.primary _ _ h0
  have h2 := Renders.unary _ _ h1
  have h3 := Renders.power _ _ h2
  cases lv
  · exact h0
  · exact h1
  · exact h2
  · exact h3
  · exact Renders.factor _ _ h3

/-! ### C1: evaluation of well-formed variable-free expressions -/

/-- C1. For every well-formed variable-free expression of the grammar of
section 4.2 (a `Term` built from number literals, the operators, unary signs
and parentheses, with blanks between the tokens and after the last one, the
number tokens being of at most 79 characters as `currentToken[80]` holds
them), `evaluateExpression` prints no error, leaves the Variable Table as it
was and returns the reference value: groups first, then the sign, then at most
one `^` with exponent 0 giving 1, then the left folds of `* / %` and of `+ -`. -/
theorem evaluateExpression_wellFormed {F : Type} (L : Locale) (A : Arith F)
    (env : List Nat → F) (this : ExpressionParser F) (e : Expr) (s trail after : List Nat)
    (h : WellFormed L e s) (ht : isBlank trail = true) :
    ∃ q, evaluateExpression L A this (cString (s ++ trail) after) =
        some (some (refEval A env e), q) ∧
      q.output = this.output ∧ q.varTable = this.varTable :=
  ⟨_, evaluateExpression_term L A env this (binds_noVariable env _) e s trail after h.1 ht,
    (lookAt_end L this after ht).2.2, (lookAt_end L this after ht).2.1⟩

/-- Witness of C1: `2+3*4` is 14 and `10-4-3` is 3 over the integers. -/
theorem evaluateExpression_wellFormed_witness :
    (WellFormed cLocale
        (.addop .add (.num [50]) (.mulop .mul (.num [51]) (.num [52]))) (wstr "2+3*4") ∧
      isBlank [] = true ∧
      ∃ q, evaluateExpression cLocale intArith (newParser Int) (cString (wstr "2+3*4" ++ []) [])
          = some (some 14, q) ∧
        q.output = [] ∧ q.varTable = []) ∧
    (WellFormed cLocale
        (.addop .sub (.addop .sub (.num [49, 48]) (.num [52])) (.num [51])) (wstr "10-4-3") ∧
      isBlank [] = true ∧
      ∃ q, evaluateExpression cLocale intArith (newParser Int) (cString (wstr "10-4-3" ++ []) [])
          = some (some 3, q) ∧
        q.output = [] ∧ q.varTable = []) :=
  have d1 : WellFormed cLocale
      (.addop .add (.num [50]) (.mulop .mul (.num [51]) (.num [52]))) (wstr "2+3*4") :=
    ⟨Renders.addop [] .add _ _ ([] ++ [50]) ([] ++ [51] ++ ([] ++ 42 :: ([] ++ [52]))) rfl
      (Renders.literal cLocale _ .term [] [50] rfl rfl)
      (Renders.mulop [] .mul _ _ ([] ++ [51]) ([] ++ [52]) rfl
        (Renders.literal cLocale _ .factor [] [51] rfl rfl)
        (Renders.literal cLocale _ .power [] [52] rfl rfl)), rfl⟩
  have d2 : WellFormed cLocale
      (.addop .sub (.addop .sub (.num [49, 48]) (.num [52])) (.num [51])) (wstr "10-4-3") :=
    ⟨Renders.addop [] .sub _ _ (([] ++ [49, 48]) ++ ([] ++ 45 :: ([] ++ [52]))) ([] ++ [51]) rfl
      (Renders.addop [] .sub _ _ ([] ++ [49, 48]) ([] ++ [52]) rfl
        (Renders.literal cLocale _ .term [] [49, 48] rfl rfl)
        (Renders.literal cLocale _ .factor [] [52] rfl rfl))
      (Renders.literal cLocale _ .factor [] [51] rfl rfl), rfl⟩
  ⟨⟨d1, rfl, evaluateExpression_wellFormed cLocale intArith (fun _ => 0) (newParser Int)
      _ _ [] [] d1 rfl⟩,
   ⟨d2, rfl, evaluateExpression_wellFormed cLocale intArith (fun _ => 0) (newParser Int)
      _ _ [] [] d2 rfl⟩⟩

/-! ### C2: assignment -/

/-- A `Primary` that is not followed by an operator is the whole `Term`. -/
theorem evalTerm_of_evalPrimary {F : Type} (L : Locale) (A : Arith F) (r : Option F)
    (p : ExpressionParser F) (x : Option F) (q : ExpressionParser F)
    (hp : ¬(p.tokenType = DELIMITER ∧ (deref p.currentToken = 43 ∨ deref p.currentToken = 45)))
    (h : evalPrimary L A r p = some (x, q))
    (hq : ∀ c ∈ [94, 42, 47, 37, 43, 45], deref q.currentToken ≠ c) :
    evalTerm L A r p = some (x, q) := by
  have h94 := hq 94 (by simp)
  have h42 := hq 42 (by simp)
  have h47 := hq 47 (by simp)
  have h37 := hq 37 (by simp)
  have h43 := hq 43 (by simp)
  have h45 := hq 45 (by simp)
  have hu : evalUnary L A r p = some (x, q) := by
    unfold evalUnary evaluateUnary
    rw [if_neg hp]; exact h
  have hw : evalPower L A r p = some (x, q) := by
    unfold evalPower evaluatePower
    rw [hu]; simp only [h94, if_false]
  rw [evalTerm_eq_loop, evalFactor_eq, hw]
  simp only []
  rw [evalFactorLoop_eq]
  simp only [h42, h47, h37, or_self, if_false]
  rw [evalTermLoop_eq]
  simp only [h43, h45, or_self, if_false]

theorem lookupVariable_store_same {F : Type} (v : List Nat) (x : Option F)
    (table : List (List Nat × Option F)) :
    lookupVariable v (storeVariable v x table) = some x := by
  induction table with
  | nil => simp [storeVariable, lookupVariable]
  | cons kv rest ih =>
    obtain ⟨k, w⟩ := kv
    by_cases hk : k = v
    · simp [storeVariable, lookupVariable, hk]
    · simp [storeVariable, lookupVariable, hk, ih]

theorem lookupVariable_store_other {F : Type} (u v : List Nat) (x : Option F)
    (table : List (List Nat × Option F)) (h : u ≠ v) :
    lookupVariable u (storeVariable v x table) = lookupVariable u table := by
  induction table with
  | nil => simp [storeVariable, lookupVariable, Ne.symm h]
  | cons kv rest ih =>
    obtain ⟨k, w⟩ := kv
    by_cases hk : k = v
    · subst hk
      simp [storeVariable, lookupVariable, Ne.symm h]
    · by_cases hu : k = u
      · subst hu
        simp [storeVariable, lookupVariable, hk]
      · simp [storeVariable, lookupVariable, hk, hu, ih]

/-- The assignment `v = Term` as a `Primary`: the value of the `Term` is
returned and stored under `v`. -/
theorem evalPrimary_assign {F : Type} (L : Locale) (A : Arith F) (env : List Nat → F)
    (p : ExpressionParser F) {V : List Nat → Prop} (hb : Binds V env p.varTable)
    (ws0 v ws1 : List Nat) (e : Expr) (s rest : List Nat) (r : Option F)
    (h0 : isBlank ws0 = true) (hv : isVariableName L v = true) (h1 : isBlank ws1 = true)
    (h : Renders L V .term e s)
    (hr : NextNot L p rest [61, 94, 42, 47, 37, 43, 45]) :
    evalPrimary L A r (lookAt L p (ws0 ++ (v ++ (ws1 ++ 61 :: (s ++ rest))))) =
      some (some (refEval A env e), assignVariable v (some (refEval A env e)) (lookAt L p rest)) ∧
    (lookAt L p (ws0 ++ (v ++ (ws1 ++ 61 :: (s ++ rest))))).tokenType = VARIABLE ∧
    deref (lookAt L p (ws0 ++ (v ++ (ws1 ++ 61 :: (s ++ rest))))).currentToken ≠ 0 := by
  have hm : 61 ∈ delimiterChars := by decide
  have hst := lookAt_name L p (ws1 ++ 61 :: (s ++ rest)) h0 hv
    (deref_blank_cons 61 _ h1 (by decide))
  have hp1 : parseToken L (lookAt L p (ws0 ++ (v ++ (ws1 ++ 61 :: (s ++ rest))))) =
      lookAt L p (ws1 ++ 61 :: (s ++ rest)) := by
    rw [hst]; rfl
  have hp2 := parseToken_lookAt_delimiter L p (s ++ rest) h1 hm
  have h61 : deref (lookAt L p (ws1 ++ 61 :: (s ++ rest))).currentToken = 61 := by
    rw [lookAt_delimiter L p _ h1 hm]; rfl
  obtain ⟨⟨t, ht⟩, _⟩ := evalSpec_of_renders L A env p hb h rest r (hr.mono (by simp))
  have h43 := hr.2 43 (by simp)
  have h45 := hr.2 45 (by simp)
  cases v with
  | nil => simp [isVariableName] at hv
  | cons c cs =>
    simp only [isVariableName, Bool.and_eq_true] at hv
    have hnd := L.alpha_not_delim c hv.1
    simp only [List.mem_cons, List.mem_singleton, List.not_mem_nil, or_false] at hnd
    have h40 : deref (c :: cs) ≠ 40 := by simp only [deref]; omega
    refine ⟨?_, by rw [hst], by rw [hst]; simp only [deref]; omega⟩
    unfold evalPrimary evaluatePrimary
    simp only []
    rw [hp1, hp2, if_pos h61, ht, evalTermLoop_eq]
    simp only [h43, h45, or_self, if_false]
    rw [hst]
    simp only [h40, if_false]

/-- What `evaluateExpression` does on `v = Term`. -/
theorem evaluateExpression_assign {F : Type} (L : Locale) (A : Arith F) (env : List Nat → F)
    (this : ExpressionParser F) {V : List Nat → Prop} (hb : Binds V env this.varTable)
    (v ws1 : List Nat) (e : Expr) (s trail after : List Nat)
    (hv : isVariableName L v = true) (h1 : isBlank ws1 = true)
    (h : Renders L V .term e s) (ht : isBlank trail = true) :
    evaluateExpression L A this (cString (v ++ (ws1 ++ 61 :: (s ++ trail))) after) =
      some (some (refEval A env e),
        assignVariable v (some (refEval A env e)) (lookAt L this (trail ++ 0 :: after))) := by
  have hend := lookAt_end L this after ht
  have htok : deref (lookAt L this (trail ++ 0 :: after)).currentToken = 0 := by
    rw [hend.1]; rfl
  obtain ⟨h2, h3, h4⟩ := evalPrimary_assign L A env this hb [] v ws1 e s (trail ++ 0 :: after)
    none rfl hv h1 h (nextNot_end L this after _ ht (by decide))
  have e1 : cString (v ++ (ws1 ++ 61 :: (s ++ trail))) after =
      [] ++ (v ++ (ws1 ++ 61 :: (s ++ (trail ++ 0 :: after)))) := by simp [cString]
  have hq : ∀ c ∈ [94, 42, 47, 37, 43, 45],
      deref (assignVariable v (some (refEval A env e))
        (lookAt L this (trail ++ 0 :: after))).currentToken ≠ c := by
    intro c hc
    rw [show (assignVariable v (some (refEval A env e))
        (lookAt L this (trail ++ 0 :: after))).currentToken =
        (lookAt L this (trail ++ 0 :: after)).currentToken from rfl, htok]
    intro h0; subst h0; simp at hc
  have h5 := evalTerm_of_evalPrimary L A none _ _ _ (by rw [h3]; simp) h2 hq
  rw [evaluateExpression_eq, e1]
  rw [show parseToken L { this with expressionPointer :=
    [] ++ (v ++ (ws1 ++ 61 :: (s ++ (trail ++ 0 :: after)))) } =
    lookAt L this ([] ++ (v ++ (ws1 ++ 61 :: (s ++ (trail ++ 0 :: after))))) from rfl]
  rw [if_neg h4, h5]
  simp only []
  rw [if_neg]
  rw [show (assignVariable v (some (refEval A env e))
      (lookAt L this (trail ++ 0 :: after))).currentToken =
      (lookAt L this (trail ++ 0 :: after)).currentToken from rfl, htok]
  simp

/-- C2. For every variable name `v` and number literal `n` (tokens of at most
79 characters, as `currentToken[80]` holds them), `evaluateExpression` on
`v = n` prints no error, returns the value of `n` and leaves the Variable
Table mapping `v` to that value, every other entry as it was; a later
`evaluateExpression` on the same engine reads the stored value: `v + m`
returns the sum of the two values, with no error and the table unchanged. -/
theorem evaluateExpression_assignment {F : Type} (L : Locale) (A : Arith F)
    (this : ExpressionParser F) (v n m ws1 ws2 trail after ws3 ws4 trail2 after2 : List Nat)
    (hvt : isVariableToken L v = true) (hnt : isNumberToken L n = true)
    (hmt : isNumberToken L m = true)
    (h1 : isBlank ws1 = true) (h2 : isBlank ws2 = true) (ht : isBlank trail = true)
    (h3 : isBlank ws3 = true) (h4 : isBlank ws4 = true) (ht2 : isBlank trail2 = true) :
    ∃ q, evaluateExpression L A this (cString (v ++ (ws1 ++ 61 :: (ws2 ++ n ++ trail))) after) =
        some (some (A.wcstod n), q) ∧
      q.output = this.output ∧
      lookupVariable v q.varTable = some (some (A.wcstod n)) ∧
      (∀ u, u ≠ v → lookupVariable u q.varTable = lookupVariable u this.varTable) ∧
      ∃ q2, evaluateExpression L A q
          (cString (v ++ (ws3 ++ 43 :: (ws4 ++ m)) ++ trail2) after2) =
          some (some (A.add (A.wcstod n) (A.wcstod m)), q2) ∧
        q2.output = q.output ∧ q2.varTable = q.varTable := by
  have hv : isVariableName L v = true := by
    simp only [isVariableToken, Bool.and_eq_true] at hvt; exact hvt.1
  have hn : isNumberLiteral L n = true := by
    simp only [isNumberToken, Bool.and_eq_true] at hnt; exact hnt.1
  have hm : isNumberLiteral L m = true := by
    simp only [isNumberToken, Bool.and_eq_true] at hmt; exact hmt.1
  have hend := lookAt_end L this after ht
  have hr := Renders.literal L noVariable .term ws2 n h2 hn
  have hcall := evaluateExpression_assign L A (fun _ => A.zero) this
    (binds_noVariable _ _) v ws1 (.num n) (ws2 ++ n) trail after hv h1 hr ht
  simp only [refEval] at hcall
  refine ⟨_, hcall, ?_, ?_, ?_, ?_⟩
  · exact hend.2.2
  · exact lookupVariable_store_same v _ _
  · intro u hu
    rw [show (assignVariable v (some (A.wcstod n))
      (lookAt L this (trail ++ 0 :: after))).varTable =
      storeVariable v (some (A.wcstod n)) (lookAt L this (trail ++ 0 :: after)).varTable from rfl,
      lookupVariable_store_other u v _ _ hu, hend.2.1]
  · have hb : Binds (fun u => u = v) (fun _ => A.wcstod n)
        (assignVariable v (some (A.wcstod n)) (lookAt L this (trail ++ 0 :: after))).varTable := by
      intro u hu
      subst hu
      exact lookupVariable_store_same u _ _
    have hsum : Renders L (fun u => u = v) .term (.addop .add (.var v) (.num m))
        (([] ++ v) ++ (ws3 ++ AddOp.add.code :: (ws4 ++ m))) :=
      Renders.addop ws3 .add _ _ _ _ h3
        (Renders.factor _ _ (Renders.power _ _ (Renders.unary _ _ (Renders.primary _ _
          (Renders.var [] v rfl hv rfl)))))
        (Renders.literal L _ .factor ws4 m h4 hm)
    have hcall2 := evaluateExpression_term L A (fun _ => A.wcstod n) _ hb _ _ trail2 after2
      hsum ht2
    have hend2 := lookAt_end L (assignVariable v (some (A.wcstod n))
      (lookAt L this (trail ++ 0 :: after))) after2 ht2
    exact ⟨_, hcall2, hend2.2.2, hend2.2.1⟩

/-- Witness of C2: after `x = 5` returns 5, `x + 1` returns 6. -/
theorem evaluateExpression_assignment_witness :
    (isVariableToken cLocale (wstr "x") = true ∧ isNumberToken cLocale (wstr "5") = true ∧
      isNumberToken cLocale (wstr "1") = true ∧ isBlank (wstr " ") = true ∧
      isBlank [] = true) ∧
    ∃ q, evaluateExpression cLocale intArith (newParser Int) (cString (wstr "x = 5") []) =
        some (some 5, q) ∧
      q.output = [] ∧
      lookupVariable (wstr "x") q.varTable = some (some 5) ∧
      (∀ u, u ≠ wstr "x" → lookupVariable u q.varTable = lookupVariable u []) ∧
      ∃ q2, evaluateExpression cLocale intArith q (cString (wstr "x + 1") []) =
          some (some 6, q2) ∧
        q2.output = q.output ∧ q2.varTable = q.varTable :=
  ⟨⟨rfl, rfl, rfl, rfl, rfl⟩,
    evaluateExpression_assignment cLocale intArith (newParser Int) (wstr "x") (wstr "5")
      (wstr "1") (wstr " ") (wstr " ") [] [] (wstr " ") (wstr " ") [] [] rfl rfl rfl rfl rfl rfl
      rfl rfl rfl⟩

/-! ### The two symbolic modes are instances of the shared walk -/

theorem differentiatePrimary_eq {F : Type} (L : Locale) (term : Sym F) :
    differentiatePrimary L term = symPrimary differentiateRules L term := rfl

theorem differentiateUnary_eq {F : Type} (L : Locale) (f : Sym F) :
    differentiateUnary L f = symUnary L f := rfl

theorem differentiatePower_eq {F : Type} (L : Locale) (f : Sym F) :
    differentiatePower L f = symPower differentiateRules L f := rfl

theorem differentiateFactorLoop_eq {F : Type} (L : Locale) (f : Sym F) (k : Nat) :
    ∀ (r : List Nat) (p : ExpressionParser F),
    differentiateFactorLoop L f k r p = symFactorLoop differentiateRules L f k r p := by
  induction k with
  | zero => intro r p; rfl
  | succ k ih =>
    intro r p
    unfold differentiateFactorLoop symFactorLoop
    by_cases h1 : deref p.currentToken = 42 ∨ deref p.currentToken = 47 ∨ deref p.currentToken = 37
    · rw [if_pos h1, if_pos h1]
      cases f (parseToken L p) with
      | none => rfl
      | some x =>
        simp only [ih, symFactorStep, differentiateRules]
    · rw [if_neg h1, if_neg h1]

theorem differentiateFactor_eq {F : Type} (L : Locale) (f : Sym F) :
    differentiateFactor L f = symFactor differentiateRules L f := by
  funext p
  unfold differentiateFactor symFactor
  cases f p with
  | none => rfl
  | some x => exact differentiateFactorLoop_eq L f _ _ _

theorem differentiateTermLoop_eq {F : Type} (L : Locale) (f : Sym F) (k : Nat) :
    ∀ (r : List Nat) (p : ExpressionParser F),
    differentiateTermLoop L f k r p = symTermLoop L f k r p := by
  induction k with
  | zero => intro r p; rfl
  | succ k ih =>
    intro r p
    unfold differentiateTermLoop symTermLoop
    split_ifs with h1
    · cases f (parseToken L p) with
      | none => rfl
      | some x => exact ih _ _
    · rfl

theorem differentiateTermBody_eq {F : Type} (L : Locale) (f : Sym F) :
    differentiateTermBody L f = symTermBody L f := by
  funext p
  unfold differentiateTermBody symTermBody
  cases f p with
  | none => rfl
  | some x => exact differentiateTermLoop_eq L f _ _ _

theorem differentiateTerm_eq {F : Type} (L : Locale) (n : Nat) :
    (differentiateTerm L n : Sym F) = symTerm differentiateRules L n := by
  induction n with
  | zero => rfl
  | succ n ih =>
    unfold differentiateTerm symTerm
    rw [ih, differentiatePrimary_eq, differentiateUnary_eq, differentiatePower_eq,
      differentiateFactor_eq, differentiateTermBody_eq]

theorem integratePrimary_eq {F : Type} (L : Locale) (term : Sym F) :
    integratePrimary L term = symPrimary integrateRules L term := rfl

theorem integrateUnary_eq {F : Type} (L : Locale) (f : Sym F) :
    integrateUnary L f = symUnary L f := rfl

theorem integratePower_eq {F : Type} (L : Locale) (f : Sym F) :
    integratePower L f = symPower integrateRules L f := rfl

theorem integrateFactorLoop_eq {F : Type} (L : Locale) (f : Sym F) (k : Nat) :
    ∀ (r : List Nat) (p : ExpressionParser F),
    integrateFactorLoop L f k r p = symFactorLoop integrateRules L f k r p := by
  induction k with
  | zero => intro r p; rfl
  | succ k ih =>
    intro r p
    unfold integrateFactorLoop symFactorLoop
    by_cases h1 : deref p.currentToken = 42 ∨ deref p.currentToken = 47 ∨ deref p.currentToken = 37
    · rw [if_pos h1, if_pos h1]
      cases f (parseToken L p) with
      | none => rfl
      | some x =>
        simp only [ih, symFactorStep, integrateRules]
        by_cases h2 : deref p.currentToken = 42
        · simp only [h2, if_true]
        · simp only [h2, if_false]
    · rw [if_neg h1, if_neg h1]

theorem integrateFactor_eq {F : Type} (L : Locale) (f : Sym F) :
    integrateFactor L f = symFactor integrateRules L f := by
  funext p
  unfold integrateFactor symFactor
  cases f p with
  | none => rfl
  | some x => exact integrateFactorLoop_eq L f _ _ _

theorem integrateTermLoop_eq {F : Type} (L : Locale) (f : Sym F) (k : Nat) :
    ∀ (r : List Nat) (p : ExpressionParser F),
    integrateTermLoop L f k r p = symTermLoop L f k r p := by
  induction k with
  | zero => intro r p; rfl
  | succ k ih =>
    intro r p
    unfold integrateTermLoop symTermLoop
    split_ifs with h1
    · cases f (parseToken L p) with
      | none => rfl
      | some x => exact ih _ _
    · rfl

theorem integrateTermBody_eq {F : Type} (L : Locale) (f : Sym F) :
    integrateTermBody L f = symTermBody L f := by
  funext p
  unfold integrateTermBody symTermBody
  cases f p with
  | none => rfl
  | some x => exact integrateTermLoop_eq L f _ _ _

theorem integrateTerm_eq {F : Type} (L : Locale) (n : Nat) :
    (integrateTerm L n : Sym F) = symTerm integrateRules L n := by
  induction n with
  | zero => rfl
  | succ n ih =>
    unfold integrateTerm symTerm
    rw [ih, integratePrimary_eq, integrateUnary_eq, integratePower_eq,
      integrateFactor_eq, integrateTermBody_eq]

/-! ### Fuel of the shared walk -/

theorem symPrimary_mono {F : Type} (R : SymRules) (L : Locale) {t t' : Sym F}
    (h : SymLe t t') : SymLe (symPrimary R L t) (symPrimary R L t') := by
  intro p x hx
  unfold symPrimary at hx ⊢
  split_ifs at hx ⊢ with h1
  · cases ht : t (parseToken L p) with
    | none => simp [ht] at hx
    | some y => rw [h _ _ ht]; rw [ht] at hx; exact hx
  · exact hx

theorem symPrimary_total {F : Type} (R : SymRules) (L : Locale) {t : Sym F} {m : Nat}
    (h : SymTotal m t) : SymTotal (m + 1) (symPrimary R L t) := by
  intro p hp
  unfold symPrimary
  split_ifs with h1
  · have hne : deref p.currentToken ≠ 0 := by omega
    have e1 := inputLeft_of_deref hne
    have e2 := parseToken_inputLeft L p
    obtain ⟨x, hx, hle⟩ := h (parseToken L p) (by omega)
    rw [hx]
    refine ⟨_, rfl, ?_⟩
    have e3 := parseToken_inputLeft L (if deref x.2.currentToken ≠ 41 then syntaxError 1 x.2 else x.2)
    have e4 : (if deref x.2.currentToken ≠ 41 then syntaxError 1 x.2 else x.2).expressionPointer
        = x.2.expressionPointer := by split_ifs <;> rfl
    have e5 := inputLeft_le x.2
    rw [e4] at e3
    simp only [] at e3 ⊢
    omega
  · have e2 := parseToken_inputLeft L p
    have e0 := inputLeft_le p
    split
    · exact ⟨_, rfl, by simp only []; omega⟩
    · exact ⟨_, rfl, by simp only []; omega⟩
    · exact ⟨_, rfl, by simp⟩

theorem symUnary_mono {F : Type} (L : Locale) {f f' : Sym F}
    (h : SymLe f f') : SymLe (symUnary L f) (symUnary L f') := by
  intro p x hx
  unfold symUnary at hx ⊢
  by_cases h1 : p.tokenType = DELIMITER ∧ (deref p.currentToken = 43 ∨ deref p.currentToken = 45)
  · rw [if_pos h1] at hx ⊢
    cases ht : f (parseToken L p) with
    | none => simp [ht] at hx
    | some y => rw [h _ _ ht]; rw [ht] at hx; exact hx
  · rw [if_neg h1] at hx ⊢; exact h _ _ hx

theorem symUnary_total {F : Type} (L : Locale) {f : Sym F} {m : Nat}
    (h : SymTotal m f) : SymTotal m (symUnary L f) := by
  intro p hp
  unfold symUnary
  by_cases h1 : p.tokenType = DELIMITER ∧ (deref p.currentToken = 43 ∨ deref p.currentToken = 45)
  · rw [if_pos h1]
    have e2 := parseToken_inputLeft L p
    have e0 := inputLeft_le p
    obtain ⟨x, hx, hle⟩ := h (parseToken L p) (by omega)
    rw [hx]
    exact ⟨_, rfl, by simp only []; omega⟩
  · rw [if_neg h1]; exact h p hp

theorem symPower_mono {F : Type} (R : SymRules) (L : Locale) {f f' : Sym F}
    (h : SymLe f f') : SymLe (symPower R L f) (symPower R L f') := by
  intro p x hx
  unfold symPower at hx ⊢
  cases ht : f p with
  | none => simp [ht] at hx
  | some y =>
    rw [h _ _ ht]; rw [ht] at hx
    simp only [] at hx ⊢
    split_ifs at hx ⊢ with h1
    · cases ht2 : f (parseToken L y.2) with
      | none => simp [ht2] at hx
      | some z => rw [h _ _ ht2]; rw [ht2] at hx; exact hx
    · exact hx

theorem symPower_total {F : Type} (R : SymRules) (L : Locale) {f : Sym F} {m : Nat}
    (h : SymTotal m f) : SymTotal m (symPower R L f) := by
  intro p hp
  unfold symPower
  obtain ⟨x, hx, hle⟩ := h p hp
  rw [hx]
  simp only []
  split_ifs with h1
  · have e2 := parseToken_inputLeft L x.2
    have e0 := inputLeft_le x.2
    obtain ⟨y, hy, hle2⟩ := h (parseToken L x.2) (by omega)
    rw [hy]
    exact ⟨_, rfl, by simp only []; omega⟩
  · exact ⟨_, rfl, hle⟩

theorem symFactorLoop_mono {F : Type} (R : SymRules) (L : Locale) {f f' : Sym F}
    (h : SymLe f f') (k : Nat) : ∀ (k' : Nat) (r : List Nat) (p : ExpressionParser F)
    (x : List Nat × ExpressionParser F), k ≤ k' →
    symFactorLoop R L f k r p = some x → symFactorLoop R L f' k' r p = some x := by
  induction k with
  | zero => intro k' r p x _ hx; simp [symFactorLoop] at hx
  | succ k ih =>
    intro k' r p x hk hx
    obtain ⟨j, rfl⟩ : ∃ j, k' = j + 1 := ⟨k' - 1, by omega⟩
    unfold symFactorLoop at hx ⊢
    split_ifs at hx ⊢ with h1
    · cases ht : f (parseToken L p) with
      | none => simp [ht] at hx
      | some y =>
        rw [h _ _ ht]; rw [ht] at hx
        exact ih j _ _ _ (by omega) hx
    · exact hx

theorem symFactorLoop_total {F : Type} (R : SymRules) (L : Locale) {f : Sym F} {m : Nat}
    (h : SymTotal m f) (k : Nat) : ∀ (r : List Nat) (p : ExpressionParser F),
    inputLeft p < m → inputLeft p < k →
    ∃ x, symFactorLoop R L f k r p = some x ∧ inputLeft x.2 ≤ inputLeft p := by
  induction k with
  | zero => intro r p _ hk; omega
  | succ k ih =>
    intro r p hm hk
    unfold symFactorLoop
    split_ifs with h1
    · have hne : deref p.currentToken ≠ 0 := by omega
      have e1 := inputLeft_of_deref hne
      have e2 := parseToken_inputLeft L p
      obtain ⟨y, hy, hle⟩ := h (parseToken L p) (by omega)
      rw [hy]
      obtain ⟨x, hx, hle2⟩ := ih (symFactorStep R (deref p.currentToken) r y.1) y.2
        (by omega) (by omega)
      exact ⟨x, hx, by omega⟩
    · exact ⟨_, rfl, le_refl _⟩

theorem symFactor_mono {F : Type} (R : SymRules) (L : Locale) {f f' : Sym F}
    (h : SymLe f f') : SymLe (symFactor R L f) (symFactor R L f') := by
  intro p x hx
  unfold symFactor at hx ⊢
  cases ht : f p with
  | none => simp [ht] at hx
  | some y =>
    rw [h _ _ ht]; rw [ht] at hx
    exact symFactorLoop_mono R L h _ _ _ _ _ (le_refl _) hx

theorem symFactor_total {F : Type} (R : SymRules) (L : Locale) {f : Sym F} {m : Nat}
    (h : SymTotal m f) : SymTotal m (symFactor R L f) := by
  intro p hp
  unfold symFactor
  obtain ⟨x, hx, hle⟩ := h p hp
  rw [hx]
  have e1 := inputLeft_lt_length_add_two x.2
  obtain ⟨y, hy, hle2⟩ := symFactorLoop_total R L h (x.2.expressionPointer.length + 2)
    x.1 x.2 (by omega) (by omega)
  exact ⟨y, hy, by omega⟩

theorem symTermLoop_mono {F : Type} (L : Locale) {f f' : Sym F}
    (h : SymLe f f') (k : Nat) : ∀ (k' : Nat) (r : List Nat) (p : ExpressionParser F)
    (x : List Nat × ExpressionParser F), k ≤ k' →
    symTermLoop L f k r p = some x → symTermLoop L f' k' r p = some x := by
  induction k with
  | zero => intro k' r p x _ hx; simp [symTermLoop] at hx
  | succ k ih =>
    intro k' r p x hk hx
    obtain ⟨j, rfl⟩ : ∃ j, k' = j + 1 := ⟨k' - 1, by omega⟩
    unfold symTermLoop at hx ⊢
    split_ifs at hx ⊢ with h1
    · cases ht : f (parseToken L p) with
      | none => simp [ht] at hx
      | some y =>
        rw [h _ _ ht]; rw [ht] at hx
        exact ih j _ _ _ (by omega) hx
    · exact hx

theorem symTermLoop_total {F : Type} (L : Locale) {f : Sym F} {m : Nat}
    (h : SymTotal m f) (k : Nat) : ∀ (r : List Nat) (p : ExpressionParser F),
    inputLeft p < m → inputLeft p < k →
    ∃ x, symTermLoop L f k r p = some x ∧ inputLeft x.2 ≤ inputLeft p := by
  induction k with
  | zero => intro r p _ hk; omega
  | succ k ih =>
    intro r p hm hk
    unfold symTermLoop
    split_ifs with h1
    · have hne : deref p.currentToken ≠ 0 := by omega
      have e1 := inputLeft_of_deref hne
      have e2 := parseToken_inputLeft L p
      obtain ⟨y, hy, hle⟩ := h (parseToken L p) (by omega)
      rw [hy]
      obtain ⟨x, hx, hle2⟩ := ih (r ++ [deref p.currentToken] ++ y.1) y.2 (by omega) (by omega)
      exact ⟨x, hx, by omega⟩
    · exact ⟨_, rfl, le_refl _⟩

theorem symTermBody_mono {F : Type} (L : Locale) {f f' : Sym F}
    (h : SymLe f f') : SymLe (symTermBody L f) (symTermBody L f') := by
  intro p x hx
  unfold symTermBody at hx ⊢
  cases ht : f p with
  | none => simp [ht] at hx
  | some y =>
    rw [h _ _ ht]; rw [ht] at hx
    exact symTermLoop_mono L h _ _ _ _ _ (le_refl _) hx

theorem symTermBody_total {F : Type} (L : Locale) {f : Sym F} {m : Nat}
    (h : SymTotal m f) : SymTotal m (symTermBody L f) := by
  intro p hp
  unfold symTermBody
  obtain ⟨x, hx, hle⟩ := h p hp
  rw [hx]
  have e1 := inputLeft_lt_length_add_two x.2
  obtain ⟨y, hy, hle2⟩ := symTermLoop_total L h (x.2.expressionPointer.length + 2)
    x.1 x.2 (by omega) (by omega)
  exact ⟨y, hy, by omega⟩

theorem symTerm_mono_succ {F : Type} (R : SymRules) (L : Locale) (n : Nat) :
    SymLe (symTerm R L n : Sym F) (symTerm R L (n + 1)) := by
  induction n with
  | zero => intro p x hx; simp [symTerm] at hx
  | succ n ih =>
    intro p x hx
    unfold symTerm at hx ⊢
    exact symTermBody_mono L (symFactor_mono R L (symPower_mono R L
      (symUnary_mono L (symPrimary_mono R L ih)))) p x hx

theorem symTerm_mono {F : Type} (R : SymRules) (L : Locale) {n n' : Nat} (h : n ≤ n') :
    SymLe (symTerm R L n : Sym F) (symTerm R L n') := by
  induction h with
  | refl => intro p x hx; exact hx
  | step _ ih => intro p x hx; exact symTerm_mono_succ R L _ p x (ih p x hx)

theorem symTerm_total {F : Type} (R : SymRules) (L : Locale) (n : Nat) :
    SymTotal n (symTerm R L n : Sym F) := by
  induction n with
  | zero => intro p hp; omega
  | succ n ih =>
    unfold symTerm
    exact symTermBody_total L (symFactor_total R L (symPower_total R L
      (symUnary_total L (symPrimary_total R L ih))))

/-- With enough fuel the result of the walk does not depend on the fuel. -/
theorem symTerm_fuel {F : Type} (R : SymRules) (L : Locale) {n n' : Nat}
    (p : ExpressionParser F) (h : inputLeft p < n) (h' : inputLeft p < n') :
    symTerm R L n p = symTerm R L n' p := by
  obtain ⟨x, hx, _⟩ := symTerm_total R L n p h
  obtain ⟨y, hy, _⟩ := symTerm_total R L n' p h'
  have h1 := symTerm_mono R L (Nat.le_max_left n n') p x hx
  have h2 := symTerm_mono R L (Nat.le_max_right n n') p y hy
  rw [hx, hy, ← h1, ← h2]

/-! ### The shared walk with its fuel supplied: unfolding equations -/

theorem symTerm_eq_walkTerm {F : Type} (R : SymRules) (L : Locale) {n : Nat}
    (p : ExpressionParser F) (h : inputLeft p < n) :
    symTerm R L n p = walkTerm R L p :=
  symTerm_fuel R L p h (Nat.lt_succ_self _)

theorem walkTerm_total {F : Type} (R : SymRules) (L : Locale) (m : Nat) :
    SymTotal m (walkTerm R L : Sym F) := by
  intro p _
  exact symTerm_total R L (inputLeft p + 1) p (Nat.lt_succ_self _)

theorem walkTerm_ge {F : Type} (R : SymRules) (L : Locale) (n : Nat) :
    SymLe (symTerm R L n : Sym F) (walkTerm R L) := by
  intro p x hx
  obtain ⟨y, hy, _⟩ := walkTerm_total R L (inputLeft p + 1) p (Nat.lt_succ_self _)
  have h1 := symTerm_mono R L (Nat.le_max_left n (inputLeft p + 1)) p x hx
  have h2 := symTerm_mono R L (Nat.le_max_right n (inputLeft p + 1)) p y hy
  rw [hy, ← h1, ← h2]

theorem walkPrimary_total {F : Type} (R : SymRules) (L : Locale) (m : Nat) :
    SymTotal m (walkPrimary R L : Sym F) := by
  intro p h
  exact symPrimary_total R L (walkTerm_total R L m) p (Nat.lt_succ_of_lt h)

theorem walkUnary_total {F : Type} (R : SymRules) (L : Locale) (m : Nat) :
    SymTotal m (walkUnary R L : Sym F) :=
  symUnary_total L (walkPrimary_total R L m)

theorem walkPower_total {F : Type} (R : SymRules) (L : Locale) (m : Nat) :
    SymTotal m (walkPower R L : Sym F) :=
  symPower_total R L (walkUnary_total R L m)

theorem walkFactor_total {F : Type} (R : SymRules) (L : Locale) (m : Nat) :
    SymTotal m (walkFactor R L : Sym F) :=
  symFactor_total R L (walkPower_total R L m)

theorem walkTerm_eq_body {F : Type} (R : SymRules) (L : Locale) (p : ExpressionParser F) :
    walkTerm R L p = symTermBody L (walkFactor R L) p := by
  obtain ⟨x, hx, _⟩ := walkTerm_total R L (inputLeft p + 1) p (Nat.lt_succ_self _)
  rw [hx]
  unfold walkTerm symTerm at hx
  exact (symTermBody_mono L (symFactor_mono R L (symPower_mono R L
    (symUnary_mono L (symPrimary_mono R L (walkTerm_ge R L _))))) p x hx).symm

theorem symFactorLoop_fuel {F : Type} (R : SymRules) (L : Locale) {f : Sym F}
    (h : ∀ m, SymTotal m f) {k k' : Nat} (r : List Nat) (p : ExpressionParser F)
    (hk : inputLeft p < k) (hk' : inputLeft p < k') :
    symFactorLoop R L f k r p = symFactorLoop R L f k' r p := by
  obtain ⟨x, hx, _⟩ := symFactorLoop_total R L (h (inputLeft p + 1)) k r p
    (Nat.lt_succ_self _) hk
  obtain ⟨y, hy, _⟩ := symFactorLoop_total R L (h (inputLeft p + 1)) k' r p
    (Nat.lt_succ_self _) hk'
  have h1 := symFactorLoop_mono R L (fun _ _ a => a) k (max k k') r p x (Nat.le_max_left _ _) hx
  have h2 := symFactorLoop_mono R L (fun _ _ a => a) k' (max k k') r p y (Nat.le_max_right _ _) hy
  rw [hx, hy, ← h1, ← h2]

theorem symTermLoop_fuel {F : Type} (L : Locale) {f : Sym F}
    (h : ∀ m, SymTotal m f) {k k' : Nat} (r : List Nat) (p : ExpressionParser F)
    (hk : inputLeft p < k) (hk' : inputLeft p < k') :
    symTermLoop L f k r p = symTermLoop L f k' r p := by
  obtain ⟨x, hx, _⟩ := symTermLoop_total L (h (inputLeft p + 1)) k r p (Nat.lt_succ_self _) hk
  obtain ⟨y, hy, _⟩ := symTermLoop_total L (h (inputLeft p + 1)) k' r p (Nat.lt_succ_self _) hk'
  have h1 := symTermLoop_mono L (fun _ _ a => a) k (max k k') r p x (Nat.le_max_left _ _) hx
  have h2 := symTermLoop_mono L (fun _ _ a => a) k' (max k k') r p y (Nat.le_max_right _ _) hy
  rw [hx, hy, ← h1, ← h2]

/-- The walk of `Factor`, fuel-free: the first operand, then the loop. -/
theorem walkFactor_eq {F : Type} (R : SymRules) (L : Locale) (p : ExpressionParser F) :
    walkFactor R L p =
      match walkPower R L p with
      | none => none
      | some (r1, p1) => walkFactorLoop R L r1 p1 := by
  unfold walkFactor symFactor
  cases walkPower R L p with
  | none => rfl
  | some x =>
    exact symFactorLoop_fuel R L (walkPower_total R L) _ _
      (inputLeft_lt_length_add_two _) (Nat.lt_succ_self _)

/-- One turn of the loop of the walk of `Factor`, fuel-free. -/
theorem walkFactorLoop_eq {F : Type} (R : SymRules) (L : Locale) (r : List Nat)
    (p : ExpressionParser F) :
    walkFactorLoop R L r p =
      if deref p.currentToken = 42 ∨ deref p.currentToken = 47 ∨ deref p.currentToken = 37 then
        match walkPower R L (parseToken L p) with
        | none => none
        | some (t1, p2) => walkFactorLoop R L (symFactorStep R (deref p.currentToken) r t1) p2
      else some (r, p) := by
  unfold walkFactorLoop
  rw [symFactorLoop]
  split_ifs with h1
  · have hne : deref p.currentToken ≠ 0 := by omega
    have e1 := inputLeft_of_deref hne
    have e2 := parseToken_inputLeft L p
    obtain ⟨y, hy, hle⟩ := walkPower_total R L _ (parseToken L p) (Nat.lt_succ_self _)
    rw [hy]
    exact symFactorLoop_fuel R L (walkPower_total R L) _ _ (by omega) (Nat.lt_succ_self _)
  · rfl

/-- The walk of `Term`, fuel-free: the first operand, then the loop. -/
theorem walkTerm_eq {F : Type} (R : SymRules) (L : Locale) (p : ExpressionParser F) :
    walkTerm R L p =
      match walkFactor R L p with
      | none => none
      | some (r1, p1) => walkTermLoop R L r1 p1 := by
  rw [walkTerm_eq_body]
  unfold symTermBody
  cases walkFactor R L p with
  | none => rfl
  | some x =>
    exact symTermLoop_fuel L (walkFactor_total R L) _ _
      (inputLeft_lt_length_add_two _) (Nat.lt_succ_self _)

/-- One turn of the loop of the walk of `Term`, fuel-free. -/
theorem walkTermLoop_eq {F : Type} (R : SymRules) (L : Locale) (r : List Nat)
    (p : ExpressionParser F) :
    walkTermLoop R L r p =
      if deref p.currentToken = 43 ∨ deref p.currentToken = 45 then
        match walkFactor R L (parseToken L p) with
        | none => none
        | some (t1, p2) => walkTermLoop R L (r ++ [deref p.currentToken] ++ t1) p2
      else some (r, p) := by
  unfold walkTermLoop
  rw [symTermLoop]
  split_ifs with h1
  · have hne : deref p.currentToken ≠ 0 := by omega
    have e1 := inputLeft_of_deref hne
    have e2 := parseToken_inputLeft L p
    obtain ⟨y, hy, hle⟩ := walkFactor_total R L _ (parseToken L p) (Nat.lt_succ_self _)
    rw [hy]
    exact symTermLoop_fuel L (walkFactor_total R L) _ _ (by omega) (Nat.lt_succ_self _)
  · rfl

/-- `differentiate`, fuel-free. -/
theorem differentiate_eq {F : Type} (L : Locale) (this : ExpressionParser F)
    (expression var : List Nat) :
    differentiate L this expression var =
      walkTerm differentiateRules L (lookAt L this expression) := by
  unfold differentiate
  rw [differentiateTerm_eq]
  exact symTerm_eq_walkTerm _ L _ (Nat.lt_succ_of_le (parseToken_inputLeft L _))

/-- `integrate`, fuel-free. -/
theorem integrate_eq {F : Type} (L : Locale) (this : ExpressionParser F)
    (expression var : List Nat) :
    integrate L this expression var =
      walkTerm integrateRules L (lookAt L this expression) := by
  unfold integrate
  rw [integrateTerm_eq]
  exact symTerm_eq_walkTerm _ L _ (Nat.lt_succ_of_le (parseToken_inputLeft L _))

/-! ### The symbolic modes on atoms and chains of atoms -/

theorem isSpace_cons {L : Locale} {c : Nat} {ws : List Nat} (h : isSpace L (c :: ws) = true) :
    L.iswspace c = true ∧ isSpace L ws = true := by
  simpa [isSpace] using h

theorem isSpace_of_isGap {L : Locale} {ws : List Nat} (h : isGap L ws = true) :
    isSpace L ws = true := by
  simp only [isGap, Bool.and_eq_true] at h
  exact h.1

theorem skipSpace_isSpace (L : Locale) {ws : List Nat} (rest : List Nat)
    (h : isSpace L ws = true) : skipSpace L (ws ++ rest) = skipSpace L rest := by
  induction ws with
  | nil => rfl
  | cons c cs ih =>
    obtain ⟨hc, hcs⟩ := isSpace_cons h
    rw [List.cons_append, skipSpace, if_pos hc]
    exact ih hcs

/-- White space before a token is skipped: the token read is the one read
without it. -/
theorem lookAt_skip {F : Type} (L : Locale) (p : ExpressionParser F) {ws : List Nat}
    (rest : List Nat) (h : isSpace L ws = true) (hr : deref rest ≠ 0) :
    lookAt L p (ws ++ rest) = lookAt L p rest := by
  cases ws with
  | nil => rfl
  | cons c cs =>
    obtain ⟨hc, _⟩ := isSpace_cons h
    have h1 : deref (c :: cs ++ rest) ≠ 0 := by
      simp only [List.cons_append, deref]
      intro h0; subst h0
      rw [L.space_not_nul] at hc; cases hc
    simp only [lookAt, parseToken]
    rw [if_neg h1, if_neg hr, skipSpace_isSpace L rest h]

theorem deref_gap_cons {L : Locale} {ws : List Nat} (c : Nat) (rest : List Nat)
    (h : isGap L ws = true) (hc : isDelimiter c = true) :
    isDelimiter (deref (ws ++ c :: rest)) = true := by
  cases ws with
  | nil => simpa [deref] using hc
  | cons d ds =>
    simp only [isGap, Bool.and_eq_true] at h
    simpa [deref] using h.2

theorem lookAt_delimiter_space {F : Type} (L : Locale) (p : ExpressionParser F)
    {ws : List Nat} {c : Nat} (rest : List Nat) (h : isSpace L ws = true)
    (hc : c ∈ delimiterChars) :
    lookAt L p (ws ++ c :: rest) =
      { p with tokenType := DELIMITER, currentToken := [c], expressionPointer := rest } := by
  have hc0 : deref (c :: rest) ≠ 0 := by
    simp only [deref]; intro h0; subst h0; simp [delimiterChars] at hc
  rw [lookAt_skip L p _ h hc0]
  exact @lookAt_delimiter F L p [] c rest rfl hc

theorem parseToken_lookAt_delimiter_space {F : Type} (L : Locale) (p : ExpressionParser F)
    {ws : List Nat} {c : Nat} (rest : List Nat) (h : isSpace L ws = true)
    (hc : c ∈ delimiterChars) :
    parseToken L (lookAt L p (ws ++ c :: rest)) = lookAt L p rest := by
  rw [lookAt_delimiter_space L p rest h hc]
  rfl

theorem nextNot_delimiter_gap {F : Type} (L : Locale) (p : ExpressionParser F)
    {ws : List Nat} {c : Nat} (rest : List Nat) (cs : List Nat) (h : isGap L ws = true)
    (hc : c ∈ delimiterChars) (hcs : c ∉ cs) : NextNot L p (ws ++ c :: rest) cs := by
  refine ⟨deref_gap_cons c rest h (isDelimiter_of_mem hc), ?_⟩
  intro d hd
  rw [lookAt_delimiter_space L p rest (isSpace_of_isGap h) hc]
  simp only [deref]
  intro h1; subst h1; exact hcs hd

/-- After white space and the end of the text no token is held. -/
theorem lookAt_space_end {F : Type} (L : Locale) (p : ExpressionParser F) {ws : List Nat}
    (after : List Nat) (h : isSpace L ws = true) :
    (lookAt L p (ws ++ 0 :: after)).currentToken = [] := by
  cases ws with
  | nil => simp [lookAt, parseToken, deref]
  | cons c cs =>
    obtain ⟨hc, _⟩ := isSpace_cons h
    have h1 : deref (c :: cs ++ 0 :: after) ≠ 0 := by
      simp only [List.cons_append, deref]
      intro h0; subst h0
      rw [L.space_not_nul] at hc; cases hc
    simp only [lookAt, parseToken]
    rw [if_neg h1, skipSpace_isSpace L _ h, skipSpace_of_not_space L _ L.space_not_nul]
    simp [deref, wcschr, oneChar]

theorem nextNot_end_gap {F : Type} (L : Locale) (p : ExpressionParser F) {ws : List Nat}
    (after : List Nat) (cs : List Nat) (h : isGap L ws = true) (hcs : 0 ∉ cs) :
    NextNot L p (ws ++ 0 :: after) cs := by
  refine ⟨deref_gap_cons 0 after h (by decide), ?_⟩
  intro d hd
  rw [lookAt_space_end L p after (isSpace_of_isGap h)]
  simp only [deref]
  intro h1; subst h1; exact hcs hd

theorem lookAt_atom_blank {F : Type} (L : Locale) (p : ExpressionParser F) {ws a : List Nat}
    (rest : List Nat) (h : isBlank ws = true) (ha : isAtom L a = true)
    (hr : isDelimiter (deref rest) = true) :
    lookAt L p (ws ++ (a ++ rest)) =
      { p with tokenType := if isNumberLiteral L a then NUMBER else VARIABLE,
               currentToken := a, expressionPointer := rest } ∧
    deref a ≠ 0 ∧ deref a ≠ 40 := by
  simp only [isAtom, Bool.or_eq_true] at ha
  by_cases hn : isNumberLiteral L a = true
  · rw [lookAt_number L p rest h hn hr]
    simp only [hn, if_true, true_and]
    cases a with
    | nil => simp [isNumberLiteral] at hn
    | cons c cs =>
      simp only [isNumberLiteral, Bool.and_eq_true] at hn
      have hnd := L.digit_not_delim c hn.1
      simp only [List.mem_cons, List.mem_singleton, List.not_mem_nil, or_false] at hnd
      simp only [deref]; omega
  · have hv : isVariableName L a = true := by
      rcases ha with ha | ha
      · exact absurd ha hn
      · exact ha
    rw [lookAt_name L p rest h hv hr]
    simp only [hn, Bool.false_eq_true, if_false, true_and]
    cases a with
    | nil => simp [isVariableName] at hv
    | cons c cs =>
      simp only [isVariableName, Bool.and_eq_true] at hv
      have hnd := L.alpha_not_delim c hv.1
      simp only [List.mem_cons, List.mem_singleton, List.not_mem_nil, or_false] at hnd
      simp only [deref]; omega

/-- The token read where an atom stands after white space. -/
theorem lookAt_atom {F : Type} (L : Locale) (p : ExpressionParser F) {ws a : List Nat}
    (rest : List Nat) (h : isSpace L ws = true) (ha : isAtom L a = true)
    (hr : isDelimiter (deref rest) = true) :
    lookAt L p (ws ++ (a ++ rest)) =
      { p with tokenType := if isNumberLiteral L a then NUMBER else VARIABLE,
               currentToken := a, expressionPointer := rest } ∧
    deref a ≠ 0 ∧ deref a ≠ 40 := by
  obtain ⟨hst, h0, h40⟩ := @lookAt_atom_blank F L p [] a rest rfl ha hr
  have hne : deref (a ++ rest) ≠ 0 := by
    cases a with
    | nil => exact absurd rfl h0
    | cons c cs => simpa [deref] using h0
  rw [lookAt_skip L p _ h hne]
  exact ⟨by simpa using hst, h0, h40⟩

/-- The walk of `Power` on an atom that no `^` follows. -/
theorem walkPower_atom {F : Type} (R : SymRules) (L : Locale) (p : ExpressionParser F)
    {ws a : List Nat} (rest : List Nat) (h : isSpace L ws = true) (ha : isAtom L a = true)
    (hr : NextNot L p rest [94]) :
    walkPower R L (lookAt L p (ws ++ (a ++ rest))) = some (atomText R L a, lookAt L p rest) ∧
    deref (lookAt L p (ws ++ (a ++ rest))).currentToken ≠ 0 := by
  obtain ⟨hst, h0, h40⟩ := lookAt_atom L p rest h ha hr.1
  have hp : parseToken L (lookAt L p (ws ++ (a ++ rest))) = lookAt L p rest := by
    rw [hst]; rfl
  have h94 := hr.2 94 (by simp)
  have hprim : walkPrimary R L (lookAt L p (ws ++ (a ++ rest))) =
      some (atomText R L a, lookAt L p rest) := by
    unfold walkPrimary symPrimary
    rw [hp, hst]
    simp only [h40, if_false, atomText]
    by_cases hn : isNumberLiteral L a = true
    · simp only [hn, if_true]
    · simp only [hn, Bool.false_eq_true, if_false]
  have hun : walkUnary R L (lookAt L p (ws ++ (a ++ rest))) =
      some (atomText R L a, lookAt L p rest) := by
    unfold walkUnary symUnary
    rw [if_neg, hprim]
    rw [hst]
    by_cases hn : isNumberLiteral L a = true
    · simp [hn]
    · simp [hn]
  refine ⟨?_, by rw [hst]; exact h0⟩
  unfold walkPower symPower
  rw [hun]
  simp only [h94, if_false]

theorem isChain_cons {L : Locale} {ops : List Nat} {l : Link} {ls : List Link}
    (h : isChain L ops (l :: ls) = true) :
    isGap L l.before = true ∧ l.op ∈ ops ∧ isSpace L l.after = true ∧ isAtom L l.atom = true ∧
    isChain L ops ls = true := by
  simp only [isChain, isToken, List.all_cons, Bool.and_eq_true, List.contains_eq_any_beq,
    List.any_eq_true, beq_iff_eq] at h
  obtain ⟨⟨⟨⟨h1, x, hx, hxe⟩, h3⟩, h4, _⟩, h5⟩ := h
  refine ⟨h1, ?_, h3, h4, ?_⟩
  · rw [hxe]; exact hx
  · simpa [isChain, isToken] using h5

/-- After a chain comes a delimiter: an operator of the chain, or what follows
the chain. -/
theorem nextNot_chain {F : Type} (L : Locale) (p : ExpressionParser F) (ops cs : List Nat)
    (ls : List Link) (rest : List Nat) (h : isChain L ops ls = true)
    (hops : ∀ c ∈ ops, c ∈ delimiterChars ∧ c ∉ cs) (hr : NextNot L p rest cs) :
    NextNot L p (chainText ls ++ rest) cs := by
  cases ls with
  | nil => simpa [chainText] using hr
  | cons l ls =>
    obtain ⟨h1, h2, _, _, _⟩ := isChain_cons h
    simp only [chainText, List.append_assoc, List.cons_append]
    exact nextNot_delimiter_gap L p _ cs h1 (hops _ h2).1 (hops _ h2).2

/-- The loop of the walk of `Factor` along a chain of `* / %`. -/
theorem walkFactorLoop_chain {F : Type} (R : SymRules) (L : Locale) (p : ExpressionParser F)
    (rest : List Nat) (hr : NextNot L p rest [94, 42, 47, 37]) (ls : List Link) :
    ∀ (r : List Nat), isChain L [42, 47, 37] ls = true →
    walkFactorLoop R L r (lookAt L p (chainText ls ++ rest)) =
      some (ls.foldl (fun r l => symFactorStep R l.op r (atomText R L l.atom)) r,
        lookAt L p rest) := by
  induction ls with
  | nil =>
    intro r _
    have h42 := hr.2 42 (by simp)
    have h47 := hr.2 47 (by simp)
    have h37 := hr.2 37 (by simp)
    simp only [chainText, List.nil_append, List.foldl_nil]
    rw [walkFactorLoop_eq, if_neg]
    simp only [h42, h47, h37, or_self, not_false_eq_true]
  | cons l ls ih =>
    intro r h
    obtain ⟨h1, h2, h3, h4, h5⟩ := isChain_cons h
    have hm : l.op ∈ delimiterChars := by
      simp only [List.mem_cons, List.mem_singleton, List.not_mem_nil, or_false] at h2
      rcases h2 with h2 | h2 | h2 <;> rw [h2] <;> decide
    have hop : l.op = 42 ∨ l.op = 47 ∨ l.op = 37 := by simpa using h2
    have hnext := nextNot_chain L p [42, 47, 37] [94] ls rest h5
      (by intro c hc; simp only [List.mem_cons, List.mem_singleton, List.not_mem_nil,
            or_false] at hc; rcases hc with hc | hc | hc <;> subst hc <;> decide)
      (hr.mono (by simp))
    obtain ⟨h6, _⟩ := walkPower_atom R L p (chainText ls ++ rest) h3 h4 hnext
    have e1 : chainText (l :: ls) ++ rest =
        l.before ++ l.op :: (l.after ++ (l.atom ++ (chainText ls ++ rest))) := by
      simp [chainText]
    rw [e1, walkFactorLoop_eq, parseToken_lookAt_delimiter_space L p _ (isSpace_of_isGap h1) hm,
      h6]
    rw [lookAt_delimiter_space L p _ (isSpace_of_isGap h1) hm]
    simp only [deref, hop, if_true, List.foldl_cons]
    exact ih _ h5

theorem atomText_differentiate (L : Locale) {a : List Nat} (_ha : isAtom L a = true) :
    atomText differentiateRules L a = atomDerivative a := by
  unfold atomText atomDerivative differentiateRules differentiateVariable
  by_cases hn : isNumberLiteral L a = true
  · have hx : a ≠ [120] := by
      intro hx; subst hx
      simp only [isNumberLiteral, List.all_nil, Bool.and_true] at hn
      have := L.alpha_not_digit 120 (L.alpha_ascii 120 (by omega))
      simp [hn] at this
    simp only [hn, if_true, hx, if_false]
  · simp only [hn, Bool.false_eq_true, if_false]

theorem foldl_productFold (L : Locale) (ls : List Link) :
    ∀ (r : List Nat), isChain L [42, 47, 37] ls = true →
    ls.foldl (fun r l => symFactorStep differentiateRules l.op r
      (atomText differentiateRules L l.atom)) r = productFold r ls := by
  induction ls with
  | nil => intro r _; rfl
  | cons l ls ih =>
    intro r h
    obtain ⟨_, _, _, h4, h5⟩ := isChain_cons h
    simp only [List.foldl_cons, productFold]
    rw [atomText_differentiate L h4, ih _ h5]
    rfl

/-- The walk of `Term` on an atom followed by a chain of `* / %`. -/
theorem walkTerm_productChain {F : Type} (R : SymRules) (L : Locale) (this : ExpressionParser F)
    (ws0 a : List Nat) (ls : List Link) (trail after : List Nat)
    (h0 : isSpace L ws0 = true) (ha : isAtom L a = true) (hls : isChain L [42, 47, 37] ls = true)
    (ht : isGap L trail = true) :
    walkTerm R L (lookAt L this (cString (ws0 ++ (a ++ (chainText ls ++ trail))) after)) =
      some (ls.foldl (fun r l => symFactorStep R l.op r (atomText R L l.atom)) (atomText R L a),
        lookAt L this (trail ++ 0 :: after)) := by
  have hend : NextNot L this (trail ++ 0 :: after) [94, 42, 47, 37, 43, 45] :=
    nextNot_end_gap L this after _ ht (by decide)
  have hnext := nextNot_chain L this [42, 47, 37] [94] ls (trail ++ 0 :: after) hls
    (by intro c hc; simp only [List.mem_cons, List.mem_singleton, List.not_mem_nil,
          or_false] at hc; rcases hc with hc | hc | hc <;> subst hc <;> decide)
    (hend.mono (by simp))
  obtain ⟨h1, _⟩ := walkPower_atom R L this (chainText ls ++ (trail ++ 0 :: after)) h0 ha hnext
  have e1 : cString (ws0 ++ (a ++ (chainText ls ++ trail))) after =
      ws0 ++ (a ++ (chainText ls ++ (trail ++ 0 :: after))) := by simp [cString]
  rw [e1, walkTerm_eq, walkFactor_eq, h1]
  simp only []
  rw [walkFactorLoop_chain R L this _ (hend.mono (by simp)) ls _ hls]
  simp only []
  rw [walkTermLoop_eq, if_neg]
  have h43 := hend.2 43 (by simp)
  have h45 := hend.2 45 (by simp)
  simp only [h43, h45, or_self, not_false_eq_true]

theorem isAtom_of_isToken {L : Locale} {a : List Nat} (h : isToken L a = true) :
    isAtom L a = true := by
  simp only [isToken, Bool.and_eq_true] at h
  exact h.1

/-- C4. For every sequence of atoms (number or variable tokens, of at most 79
characters as `currentToken[80]` holds them) joined by `*`, `/` or `%`, white
space allowed around the tokens, `differentiate` prints no error and returns
the left fold that starts from the derivative of the first atom and maps the
running text `r` to `(r*d)` for `*` and to `r/d`, `r%d` for `/`, `%`, where
`d` is `1` for the variable `x` and `0` for any other atom. -/
theorem differentiate_productChain {F : Type} (L : Locale) (this : ExpressionParser F)
    (ws0 a : List Nat) (ls : List Link) (trail after var : List Nat)
    (h0 : isSpace L ws0 = true) (ha : isToken L a = true)
    (hls : isChain L [42, 47, 37] ls = true) (ht : isGap L trail = true) :
    ∃ q, differentiate L this (cString (ws0 ++ (a ++ (chainText ls ++ trail))) after) var =
        some (productFold (atomDerivative a) ls, q) ∧
      q.output = this.output := by
  refine ⟨lookAt L this (trail ++ 0 :: after), ?_, by simp [lookAt]⟩
  rw [differentiate_eq, walkTerm_productChain differentiateRules L this ws0 a ls trail after
    h0 (isAtom_of_isToken ha) hls ht, foldl_productFold L ls _ hls,
    atomText_differentiate L (isAtom_of_isToken ha)]

/-- Witness of C4: `x * x` gives `(1*1)` and `x*x*x` gives `((1*1)*1)`. -/
theorem differentiate_productChain_witness :
    (isSpace cLocale [] = true ∧ isGap cLocale [] = true ∧
      isToken cLocale (wstr "x") = true ∧
      isChain cLocale [42, 47, 37] [⟨wstr " ", 42, wstr " ", wstr "x"⟩] = true ∧
      isChain cLocale [42, 47, 37] [⟨[], 42, [], wstr "x"⟩, ⟨[], 42, [], wstr "x"⟩] = true) ∧
    (∃ q, differentiate cLocale (newParser Int) (cString (wstr "x * x") []) (wstr "x") =
        some (wstr "(1*1)", q) ∧ q.output = []) ∧
    (∃ q, differentiate cLocale (newParser Int) (cString (wstr "x*x*x") []) (wstr "x") =
        some (wstr "((1*1)*1)", q) ∧ q.output = []) :=
  ⟨⟨rfl, rfl, rfl, rfl, rfl⟩,
    differentiate_productChain cLocale (newParser Int) [] (wstr "x")
      [⟨wstr " ", 42, wstr " ", wstr "x"⟩] [] [] (wstr "x") rfl rfl rfl rfl,
    differentiate_productChain cLocale (newParser Int) [] (wstr "x")
      [⟨[], 42, [], wstr "x"⟩, ⟨[], 42, [], wstr "x"⟩] [] [] (wstr "x") rfl rfl rfl rfl⟩

/-- C8. For every variable name `v` (a token of at most 79 characters, as
`currentToken[80]` holds it) without an entry in the Variable Table,
`evaluateExpression` on `v` prints the generic syntax error (code 0) once and
nothing else, returns 0.0 and leaves the Variable Table as it was. -/
theorem evaluateExpression_unknownVariable {F : Type} (L : Locale) (A : Arith F)
    (this : ExpressionParser F) (ws0 v trail after : List Nat)
    (h0 : isBlank ws0 = true) (hvt : isVariableToken L v = true) (ht : isBlank trail = true)
    (hu : lookupVariable v this.varTable = none) :
    ∃ q, evaluateExpression L A this (cString (ws0 ++ (v ++ trail)) after) =
        some (some A.zero, q) ∧
      q.output = this.output ++ [0] ∧ q.varTable = this.varTable := by
  have hv : isVariableName L v = true := by
    simp only [isVariableToken, Bool.and_eq_true] at hvt; exact hvt.1
  have hend := lookAt_end L this after ht
  have htok : deref (lookAt L this (trail ++ 0 :: after)).currentToken = 0 := by
    rw [hend.1]; rfl
  have hst := lookAt_name L this (trail ++ 0 :: after) h0 hv (deref_blank_cons 0 after ht (by decide))
  have hp : parseToken L (lookAt L this (ws0 ++ (v ++ (trail ++ 0 :: after)))) =
      lookAt L this (trail ++ 0 :: after) := by
    rw [hst]; rfl
  have e1 : cString (ws0 ++ (v ++ trail)) after = ws0 ++ (v ++ (trail ++ 0 :: after)) := by
    simp [cString]
  have hfind : findVariable A v (lookAt L this (trail ++ 0 :: after)) =
      (some A.zero, syntaxError 0 (lookAt L this (trail ++ 0 :: after))) := by
    unfold findVariable
    rw [hend.2.1, hu]
  cases v with
  | nil => simp [isVariableName] at hv
  | cons c cs =>
    simp only [isVariableName, Bool.and_eq_true] at hv
    have hnd := L.alpha_not_delim c hv.1
    simp only [List.mem_cons, List.mem_singleton, List.not_mem_nil, or_false] at hnd
    have h40 : deref (c :: cs) ≠ 40 := by simp only [deref]; omega
    have hc0 : deref (c :: cs) ≠ 0 := by simp only [deref]; omega
    have hprim : evalPrimary L A none (lookAt L this (ws0 ++ (c :: cs ++ (trail ++ 0 :: after)))) =
        some (some A.zero, syntaxError 0 (lookAt L this (trail ++ 0 :: after))) := by
      unfold evalPrimary evaluatePrimary
      simp only []
      rw [hp, hst]
      simp only [h40, if_false]
      rw [if_neg (by rw [htok]; decide), hfind]
    have hterm := evalTerm_of_evalPrimary L A none _ _ _ (by rw [hst]; simp) hprim
      (by
        intro d hd
        rw [syntaxError_token, htok]
        intro h0'; subst h0'; simp at hd)
    refine ⟨syntaxError 0 (lookAt L this (trail ++ 0 :: after)), ?_, ?_, ?_⟩
    · rw [evaluateExpression_eq, e1]
      rw [show parseToken L { this with expressionPointer :=
        ws0 ++ (c :: cs ++ (trail ++ 0 :: after)) } =
        lookAt L this (ws0 ++ (c :: cs ++ (trail ++ 0 :: after))) from rfl]
      rw [if_neg (by rw [hst]; exact hc0), hterm]
      simp only [syntaxError_token, htok, ne_eq, not_true_eq_false, if_false]
    · simp only [syntaxError, hend.2.2]
    · simp only [syntaxError, hend.2.1]

/-- Witness of C8: `y` on a fresh engine. -/
theorem evaluateExpression_unknownVariable_witness :
    (isBlank [] = true ∧ isVariableToken cLocale (wstr "y") = true ∧
      lookupVariable (wstr "y") (newParser Int).varTable = none) ∧
    ∃ q, evaluateExpression cLocale intArith (newParser Int) (cString (wstr "y") []) =
        some (some 0, q) ∧
      q.output = [0] ∧ q.varTable = [] :=
  ⟨⟨rfl, rfl, rfl⟩,
    evaluateExpression_unknownVariable cLocale intArith (newParser Int) [] (wstr "y") [] []
      rfl rfl rfl rfl⟩

/-! ### C9: no first token -/

theorem skipSpace_spaces (L : Locale) {ws : List Nat} (rest : List Nat)
    (h : ∀ d ∈ ws, L.iswspace d = true) : skipSpace L (ws ++ rest) = skipSpace L rest := by
  induction ws with
  | nil => rfl
  | cons c cs ih =>
    have hc : L.iswspace c = true := h c (List.mem_cons_self _ _)
    simp only [List.cons_append, skipSpace, hc, if_true]
    exact ih (fun d hd => h d (List.mem_cons_of_mem _ hd))

/-- The first token is empty when, after white space, the text ends or goes on
with a character that starts no token. -/
theorem lookAt_noToken {F : Type} (L : Locale) (this : ExpressionParser F)
    (ws : List Nat) (c : Nat) (tail : List Nat) (hws : ∀ d ∈ ws, L.iswspace d = true)
    (hc : c = 0 ∨ (c ∉ delimiterChars ∧ L.iswalpha c = false ∧ L.iswdigit c = false ∧
      L.iswspace c = false)) :
    (lookAt L this (ws ++ c :: tail)).currentToken = [] := by
  have hsp : L.iswspace c = false := by
    rcases hc with hc | hc
    · subst hc; exact L.space_not_nul
    · exact hc.2.2.2
  simp only [lookAt, parseToken]
  split_ifs with h1 h2 h3 h4
  · rfl
  · rw [skipSpace_spaces L _ hws, skipSpace_of_not_space L _ hsp] at h2 ⊢
    simp only [deref] at h2 ⊢
    rcases hc with hc | hc
    · subst hc; rfl
    · rcases (wcschr_delimiterChars c).mp h2 with h0 | h0
      · subst h0; rfl
      · exact absurd h0 hc.1
  · rw [skipSpace_spaces L _ hws, skipSpace_of_not_space L _ hsp] at h2 h3
    simp only [deref] at h2 h3
    rcases hc with hc | hc
    · subst hc; simp [wcschr] at h2
    · simp [hc.2.1] at h3
  · rw [skipSpace_spaces L _ hws, skipSpace_of_not_space L _ hsp] at h2 h4
    simp only [deref] at h2 h4
    rcases hc with hc | hc
    · subst hc; simp [wcschr] at h2
    · simp [hc.2.2.1] at h4
  · rfl

/-- C9. For every input whose first token is empty (the empty text, white
space only, or white space followed by a character that is neither one of the
nine delimiters, a letter nor a digit), `evaluateExpression` prints the
empty-expression error (code 2) once and nothing else, returns 0.0 and leaves
the Variable Table as it was. -/
theorem evaluateExpression_empty {F : Type} (L : Locale) (A : Arith F)
    (this : ExpressionParser F) (ws : List Nat) (c : Nat) (tail : List Nat)
    (hws : ∀ d ∈ ws, L.iswspace d = true)
    (hc : c = 0 ∨ (c ∉ delimiterChars ∧ L.iswalpha c = false ∧ L.iswdigit c = false ∧
      L.iswspace c = false)) :
    ∃ q, evaluateExpression L A this (ws ++ c :: tail) = some (some A.zero, q) ∧
      q.output = this.output ++ [2] ∧ q.varTable = this.varTable := by
  have htok := lookAt_noToken L this ws c tail hws hc
  refine ⟨syntaxError 2 (lookAt L this (ws ++ c :: tail)), ?_, ?_, ?_⟩
  · rw [evaluateExpression_eq]
    rw [show parseToken L { this with expressionPointer := ws ++ c :: tail } =
      lookAt L this (ws ++ c :: tail) from rfl, htok]
    simp [deref]
  · simp [syntaxError, lookAt]
  · simp [syntaxError, lookAt]

/-- Witness of C9: the empty text, three blanks, and `#`. -/
theorem evaluateExpression_empty_witness :
    ((∀ d ∈ ([] : List Nat), cLocale.iswspace d = true) ∧
      (∀ d ∈ wstr "   ", cLocale.iswspace d = true)) ∧
    (∃ q, evaluateExpression cLocale intArith (newParser Int) (cString (wstr "") []) =
        some (some 0, q) ∧ q.output = [2] ∧ q.varTable = []) ∧
    (∃ q, evaluateExpression cLocale intArith (newParser Int) (cString (wstr "   ") []) =
        some (some 0, q) ∧ q.output = [2] ∧ q.varTable = []) ∧
    (∃ q, evaluateExpression cLocale intArith (newParser Int)
        (wstr " " ++ 35 :: cString (wstr "1") []) =
        some (some 0, q) ∧ q.output = [2] ∧ q.varTable = []) :=
  ⟨⟨by decide, by decide⟩,
    evaluateExpression_empty cLocale intArith (newParser Int) [] 0 [] (by decide) (Or.inl rfl),
    evaluateExpression_empty cLocale intArith (newParser Int) (wstr "   ") 0 []
      (by decide) (Or.inl rfl),
    evaluateExpression_empty cLocale intArith (newParser Int) (wstr " ") 35 (cString (wstr "1") [])
      (by decide) (Or.inr (by decide))⟩

/-! ### What the evaluator prints only grows -/

theorem findVariable_output {F : Type} (A : Arith F) (v : List Nat) (p : ExpressionParser F) :
    ∃ l, (findVariable A v p).2.output = p.output ++ l := by
  unfold findVariable
  split
  · exact ⟨[0], rfl⟩
  · exact ⟨[], by simp⟩

theorem evaluatePrimary_grows {F : Type} (L : Locale) (A : Arith F) {t : Eval F}
    (h : EvalGrows t) : EvalGrows (evaluatePrimary L A t) := by
  intro r p x hx
  unfold evaluatePrimary at hx
  split_ifs at hx with h1
  · cases ht : t r (parseToken L p) with
    | none => simp [ht] at hx
    | some y =>
      rw [ht] at hx
      obtain ⟨l, hl⟩ := h _ _ _ ht
      simp only [Option.some.injEq] at hx
      subst hx
      simp only [parseToken_output] at hl ⊢
      split_ifs
      · exact ⟨l ++ [1], by simp [syntaxError, hl]⟩
      · exact ⟨l, hl⟩
  · split at hx
    · simp only [Option.some.injEq] at hx; subst hx; exact ⟨[], by simp⟩
    · simp only [] at hx
      split_ifs at hx with h2
      · cases ht : t r (parseToken L (parseToken L p)) with
        | none => simp [ht] at hx
        | some y =>
          rw [ht] at hx
          obtain ⟨l, hl⟩ := h _ _ _ ht
          simp only [Option.some.injEq] at hx
          subst hx
          simp only [parseToken_output] at hl
          exact ⟨l, by simp [assignVariable, hl]⟩
      · simp only [Option.some.injEq] at hx; subst hx
        simpa using findVariable_output A p.currentToken (parseToken L p)
    · simp only [Option.some.injEq] at hx; subst hx; exact ⟨[0], rfl⟩

theorem evaluateUnary_grows {F : Type} (L : Locale) (A : Arith F) {f : Eval F}
    (h : EvalGrows f) : EvalGrows (evaluateUnary L A f) := by
  intro r p x hx
  unfold evaluateUnary at hx
  by_cases h1 : p.tokenType = DELIMITER ∧ (deref p.currentToken = 43 ∨ deref p.currentToken = 45)
  · rw [if_pos h1] at hx
    cases ht : f r (parseToken L p) with
    | none => simp [ht] at hx
    | some y =>
      rw [ht] at hx
      obtain ⟨l, hl⟩ := h _ _ _ ht
      simp only [Option.some.injEq] at hx
      subst hx
      exact ⟨l, by simpa using hl⟩
  · rw [if_neg h1] at hx; exact h _ _ _ hx

theorem evaluatePower_grows {F : Type} (L : Locale) (A : Arith F) {f : Eval F}
    (h : EvalGrows f) : EvalGrows (evaluatePower L A f) := by
  intro r p x hx
  unfold evaluatePower at hx
  cases ht : f r p with
  | none => simp [ht] at hx
  | some y =>
    rw [ht] at hx
    obtain ⟨l, hl⟩ := h _ _ _ ht
    simp only [] at hx
    split_ifs at hx with h1
    · cases ht2 : f none (parseToken L y.2) with
      | none => simp [ht2] at hx
      | some z =>
        rw [ht2] at hx
        obtain ⟨l2, hl2⟩ := h _ _ _ ht2
        simp only [Option.some.injEq] at hx
        subst hx
        exact ⟨l ++ l2, by simp only [parseToken_output] at hl2; simp [hl2, hl]⟩
    · simp only [Option.some.injEq] at hx; subst hx; exact ⟨l, hl⟩

theorem evaluateFactorLoop_grows {F : Type} (L : Locale) (A : Arith F) {f : Eval F}
    (h : EvalGrows f) (k : Nat) : ∀ (r t : Option F) (p : ExpressionParser F)
    (x : Option F × ExpressionParser F),
    evaluateFactorLoop L A f k r t p = some x → ∃ l, x.2.output = p.output ++ l := by
  induction k with
  | zero => intro r t p x hx; simp [evaluateFactorLoop] at hx
  | succ k ih =>
    intro r t p x hx
    unfold evaluateFactorLoop at hx
    split_ifs at hx with h1
    · cases ht : f t (parseToken L p) with
      | none => simp [ht] at hx
      | some y =>
        rw [ht] at hx
        obtain ⟨l, hl⟩ := h _ _ _ ht
        obtain ⟨l2, hl2⟩ := ih _ _ _ _ hx
        exact ⟨l ++ l2, by simp only [parseToken_output] at hl; simp [hl2, hl]⟩
    · simp only [Option.some.injEq] at hx; subst hx; exact ⟨[], by simp⟩

theorem evaluateFactor_grows {F : Type} (L : Locale) (A : Arith F) {f : Eval F}
    (h : EvalGrows f) : EvalGrows (evaluateFactor L A f) := by
  intro r p x hx
  unfold evaluateFactor at hx
  cases ht : f r p with
  | none => simp [ht] at hx
  | some y =>
    rw [ht] at hx
    obtain ⟨l, hl⟩ := h _ _ _ ht
    obtain ⟨l2, hl2⟩ := evaluateFactorLoop_grows L A h _ _ _ _ _ hx
    exact ⟨l ++ l2, by simp [hl2, hl]⟩

theorem evaluateTermLoop_grows {F : Type} (L : Locale) (A : Arith F) {f : Eval F}
    (h : EvalGrows f) (k : Nat) : ∀ (r t : Option F) (p : ExpressionParser F)
    (x : Option F × ExpressionParser F),
    evaluateTermLoop L A f k r t p = some x → ∃ l, x.2.output = p.output ++ l := by
  induction k with
  | zero => intro r t p x hx; simp [evaluateTermLoop] at hx
  | succ k ih =>
    intro r t p x hx
    unfold evaluateTermLoop at hx
    split_ifs at hx with h1
    · cases ht : f t (parseToken L p) with
      | none => simp [ht] at hx
      | some y =>
        rw [ht] at hx
        obtain ⟨l, hl⟩ := h _ _ _ ht
        obtain ⟨l2, hl2⟩ := ih _ _ _ _ hx
        exact ⟨l ++ l2, by simp only [parseToken_output] at hl; simp [hl2, hl]⟩
    · simp only [Option.some.injEq] at hx; subst hx; exact ⟨[], by simp⟩

theorem evaluateTermBody_grows {F : Type} (L : Locale) (A : Arith F) {f : Eval F}
    (h : EvalGrows f) : EvalGrows (evaluateTermBody L A f) := by
  intro r p x hx
  unfold evaluateTermBody at hx
  cases ht : f r p with
  | none => simp [ht] at hx
  | some y =>
    rw [ht] at hx
    obtain ⟨l, hl⟩ := h _ _ _ ht
    obtain ⟨l2, hl2⟩ := evaluateTermLoop_grows L A h _ _ _ _ _ hx
    exact ⟨l ++ l2, by simp [hl2, hl]⟩

theorem evaluateTerm_grows {F : Type} (L : Locale) (A : Arith F) (n : Nat) :
    EvalGrows (evaluateTerm L A n) := by
  induction n with
  | zero => intro r p x hx; simp [evaluateTerm] at hx
  | succ n ih =>
    unfold evaluateTerm
    exact evaluateTermBody_grows L A (evaluateFactor_grows L A (evaluatePower_grows L A
      (evaluateUnary_grows L A (evaluatePrimary_grows L A ih))))

theorem evalTerm_grows {F : Type} (L : Locale) (A : Arith F) : EvalGrows (evalTerm L A) :=
  fun r p x hx => evaluateTerm_grows L A _ r p x hx

theorem symPrimary_grows {F : Type} (R : SymRules) (L : Locale) {t : Sym F}
    (h : SymGrows t) : SymGrows (symPrimary R L t) := by
  intro p x hx
  unfold symPrimary at hx
  split_ifs at hx with h1
  · cases ht : t (parseToken L p) with
    | none => simp [ht] at hx
    | some y =>
      rw [ht] at hx
      obtain ⟨⟨l, hl⟩, hv⟩ := h _ _ ht
      simp only [Option.some.injEq] at hx
      subst hx
      simp only [parseToken_output, parseToken_varTable] at hl hv ⊢
      split_ifs
      · exact ⟨⟨l ++ [1], by simp [syntaxError, hl]⟩, by simp [syntaxError, hv]⟩
      · exact ⟨⟨l, hl⟩, hv⟩
  · split at hx
    · simp only [Option.some.injEq] at hx; subst hx; exact ⟨⟨[], by simp⟩, by simp⟩
    · simp only [Option.some.injEq] at hx; subst hx; exact ⟨⟨[], by simp⟩, by simp⟩
    · simp only [Option.some.injEq] at hx; subst hx; exact ⟨⟨[0], rfl⟩, rfl⟩

theorem symUnary_grows {F : Type} (L : Locale) {f : Sym F}
    (h : SymGrows f) : SymGrows (symUnary L f) := by
  intro p x hx
  unfold symUnary at hx
  by_cases h1 : p.tokenType = DELIMITER ∧ (deref p.currentToken = 43 ∨ deref p.currentToken = 45)
  · rw [if_pos h1] at hx
    cases ht : f (parseToken L p) with
    | none => simp [ht] at hx
    | some y =>
      rw [ht] at hx
      obtain ⟨⟨l, hl⟩, hv⟩ := h _ _ ht
      simp only [Option.some.injEq] at hx
      subst hx
      exact ⟨⟨l, by simpa using hl⟩, by simpa using hv⟩
  · rw [if_neg h1] at hx; exact h _ _ hx

theorem symPower_grows {F : Type} (R : SymRules) (L : Locale) {f : Sym F}
    (h : SymGrows f) : SymGrows (symPower R L f) := by
  intro p x hx
  unfold symPower at hx
  cases ht : f p with
  | none => simp [ht] at hx
  | some y =>
    rw [ht] at hx
    obtain ⟨⟨l, hl⟩, hv⟩ := h _ _ ht
    simp only [] at hx
    split_ifs at hx with h1
    · cases ht2 : f (parseToken L y.2) with
      | none => simp [ht2] at hx
      | some z =>
        rw [ht2] at hx
        obtain ⟨⟨l2, hl2⟩, hv2⟩ := h _ _ ht2
        simp only [Option.some.injEq] at hx
        subst hx
        simp only [parseToken_output, parseToken_varTable] at hl2 hv2
        exact ⟨⟨l ++ l2, by simp [hl2, hl]⟩, by simp [hv2, hv]⟩
    · simp only [Option.some.injEq] at hx; subst hx; exact ⟨⟨l, hl⟩, hv⟩

theorem symFactorLoop_grows {F : Type} (R : SymRules) (L : Locale) {f : Sym F}
    (h : SymGrows f) (k : Nat) : ∀ (r : List Nat) (p : ExpressionParser F)
    (x : List Nat × ExpressionParser F),
    symFactorLoop R L f k r p = some x →
    (∃ l, x.2.output = p.output ++ l) ∧ x.2.varTable = p.varTable := by
  induction k with
  | zero => intro r p x hx; simp [symFactorLoop] at hx
  | succ k ih =>
    intro r p x hx
    unfold symFactorLoop at hx
    split_ifs at hx with h1
    · cases ht : f (parseToken L p) with
      | none => simp [ht] at hx
      | some y =>
        rw [ht] at hx
        obtain ⟨⟨l, hl⟩, hv⟩ := h _ _ ht
        obtain ⟨⟨l2, hl2⟩, hv2⟩ := ih _ _ _ hx
        simp only [parseToken_output, parseToken_varTable] at hl hv
        exact ⟨⟨l ++ l2, by simp [hl2, hl]⟩, by simp [hv2, hv]⟩
    · simp only [Option.some.injEq] at hx; subst hx; exact ⟨⟨[], by simp⟩, rfl⟩

theorem symFactor_grows {F : Type} (R : SymRules) (L : Locale) {f : Sym F}
    (h : SymGrows f) : SymGrows (symFactor R L f) := by
  intro p x hx
  unfold symFactor at hx
  cases ht : f p with
  | none => simp [ht] at hx
  | some y =>
    rw [ht] at hx
    obtain ⟨⟨l, hl⟩, hv⟩ := h _ _ ht
    obtain ⟨⟨l2, hl2⟩, hv2⟩ := symFactorLoop_grows R L h _ _ _ _ hx
    exact ⟨⟨l ++ l2, by simp [hl2, hl]⟩, by simp [hv2, hv]⟩

theorem symTermLoop_grows {F : Type} (L : Locale) {f : Sym F}
    (h : SymGrows f) (k : Nat) : ∀ (r : List Nat) (p : ExpressionParser F)
    (x : List Nat × ExpressionParser F),
    symTermLoop L f k r p = some x →
    (∃ l, x.2.output = p.output ++ l) ∧ x.2.varTable = p.varTable := by
  induction k with
  | zero => intro r p x hx; simp [symTermLoop] at hx
  | succ k ih =>
    intro r p x hx
    unfold symTermLoop at hx
    split_ifs at hx with h1
    · cases ht : f (parseToken L p) with
      | none => simp [ht] at hx
      | some y =>
        rw [ht] at hx
        obtain ⟨⟨l, hl⟩, hv⟩ := h _ _ ht
        obtain ⟨⟨l2, hl2⟩, hv2⟩ := ih _ _ _ hx
        simp only [parseToken_output, parseToken_varTable] at hl hv
        exact ⟨⟨l ++ l2, by simp [hl2, hl]⟩, by simp [hv2, hv]⟩
    · simp only [Option.some.injEq] at hx; subst hx; exact ⟨⟨[], by simp⟩, rfl⟩

theorem symTermBody_grows {F : Type} (L : Locale) {f : Sym F}
    (h : SymGrows f) : SymGrows (symTermBody L f) := by
  intro p x hx
  unfold symTermBody at hx
  cases ht : f p with
  | none => simp [ht] at hx
  | some y =>
    rw [ht] at hx
    obtain ⟨⟨l, hl⟩, hv⟩ := h _ _ ht
    obtain ⟨⟨l2, hl2⟩, hv2⟩ := symTermLoop_grows L h _ _ _ _ hx
    exact ⟨⟨l ++ l2, by simp [hl2, hl]⟩, by simp [hv2, hv]⟩

theorem symTerm_grows {F : Type} (R : SymRules) (L : Locale) (n : Nat) :
    SymGrows (symTerm R L n : Sym F) := by
  induction n with
  | zero => intro p x hx; simp [symTerm] at hx
  | succ n ih =>
    unfold symTerm
    exact symTermBody_grows L (symFactor_grows R L (symPower_grows R L
      (symUnary_grows L (symPrimary_grows R L ih))))

theorem walkTerm_grows {F : Type} (R : SymRules) (L : Locale) :
    SymGrows (walkTerm R L : Sym F) :=
  fun p x hx => symTerm_grows R L _ p x hx

theorem walkPrimary_grows {F : Type} (R : SymRules) (L : Locale) :
    SymGrows (walkPrimary R L : Sym F) :=
  symPrimary_grows R L (walkTerm_grows R L)

theorem walkUnary_grows {F : Type} (R : SymRules) (L : Locale) :
    SymGrows (walkUnary R L : Sym F) :=
  symUnary_grows L (walkPrimary_grows R L)

theorem walkPower_grows {F : Type} (R : SymRules) (L : Locale) :
    SymGrows (walkPower R L : Sym F) :=
  symPower_grows R L (walkUnary_grows R L)

theorem walkFactor_grows {F : Type} (R : SymRules) (L : Locale) :
    SymGrows (walkFactor R L : Sym F) :=
  symFactor_grows R L (walkPower_grows R L)

/-- Nothing was printed at all when nothing more is there at the end. -/
theorem output_eq_of_grows {a l1 l2 : List Nat} (h : a ++ l1 ++ l2 = a) : l1 = [] ∧ l2 = [] := by
  have hlen := congrArg List.length h
  simp only [List.length_append] at hlen
  constructor
  · exact List.length_eq_zero.mp (by omega)
  · exact List.length_eq_zero.mp (by omega)

/-! ### C3: a text followed by `+` or `-` and a second text -/

theorem Printed.trans {F : Type} {p q x : ExpressionParser F} (h : Printed p q)
    (hg : ∃ l, x.output = q.output ++ l) : Printed p x := by
  obtain ⟨l, hl, he⟩ := h
  obtain ⟨l2, he2⟩ := hg
  refine ⟨l ++ l2, by simp [hl], by rw [he2, he, List.append_assoc]⟩

theorem printed_of_grows {F : Type} {p q x : ExpressionParser F}
    (hg : ∃ l, q.output = p.output ++ l) (h : Printed q x) : Printed p x := by
  obtain ⟨l, he⟩ := hg
  obtain ⟨l2, hl2, he2⟩ := h
  refine ⟨l ++ l2, by simp [hl2], by rw [he2, he, List.append_assoc]⟩

/-- From two growths that add up to nothing: nothing was printed in between. -/
theorem output_mid {F : Type} {p q x : ExpressionParser F}
    (h1 : ∃ l, q.output = p.output ++ l) (h2 : ∃ l, x.output = q.output ++ l)
    (h : x.output = p.output) : q.output = p.output ∧ x.output = q.output := by
  obtain ⟨l1, e1⟩ := h1
  obtain ⟨l2, e2⟩ := h2
  have h3 : p.output ++ l1 ++ l2 = p.output := by rw [← e1, ← e2, h]
  obtain ⟨h4, h5⟩ := output_eq_of_grows h3
  subst h4 h5
  simp only [List.append_nil] at e1 e2
  exact ⟨e1, e2⟩

theorem InStep.pre {F : Type} {after1 : List Nat} {op : Nat} {rest2 X : List Nat}
    {p1 p2 : ExpressionParser F} (h : InStep after1 op rest2 X p1 p2) :
    Pre after1 op rest2 X p1 p2 := h.1

/-- `syntaxError` in run 1 breaks the silence. -/
theorem syntaxError_ne {F : Type} (e : Nat) (p : ExpressionParser F) {a : List Nat}
    (hg : ∃ l, p.output = a ++ l) : (syntaxError e p).output ≠ a := by
  obtain ⟨l, hl⟩ := hg
  intro h
  simp only [syntaxError, hl] at h
  have := congrArg List.length h
  simp only [List.length_append, List.length_singleton] at this
  omega

theorem Phrase.toUnary {L : Locale} {V : List Nat → Prop} {s : List Nat}
    (h : Phrase L V .primary s) : Phrase L V .unary s :=
  h.elim fun e he => ⟨e, Renders.primary e s he⟩

theorem Phrase.toFactor {L : Locale} {V : List Nat → Prop} {s : List Nat}
    (h : Phrase L V .unary s) : Phrase L V .factor s :=
  h.elim fun e he => ⟨e, Renders.power e s (Renders.unary e s he)⟩

theorem Phrase.toTerm {L : Locale} {V : List Nat → Prop} {s : List Nat}
    (h : Phrase L V .factor s) : Phrase L V .term s :=
  h.elim fun e he => ⟨e, Renders.factor e s he⟩

theorem Phrase.paren {L : Locale} {V : List Nat → Prop} {s : List Nat}
    (h : Phrase L V .term s) : Phrase L V .primary (40 :: s ++ [41]) :=
  h.elim fun e he => ⟨e, by simpa using Renders.paren [] [] e s rfl rfl he⟩

theorem Phrase.minus {L : Locale} {V : List Nat → Prop} {s : List Nat}
    (h : Phrase L V .primary s) : Phrase L V .unary (45 :: s) :=
  h.elim fun e he => ⟨.neg e, by simpa using Renders.minus [] e s rfl he⟩

theorem Phrase.pow {L : Locale} {V : List Nat → Prop} {s1 s2 : List Nat}
    (h1 : Phrase L V .unary s1) (h2 : Phrase L V .unary s2) :
    Phrase L V .factor (s1 ++ 94 :: s2) :=
  h1.elim fun b hb => h2.elim fun x hx =>
    ⟨.pow b x, Renders.power _ _ (by simpa using Renders.pow [] b x s1 s2 rfl hb hx)⟩

theorem Phrase.addop {L : Locale} {V : List Nat → Prop} {s1 s2 : List Nat} (op : AddOp)
    (h1 : Phrase L V .term s1) (h2 : Phrase L V .factor s2) :
    Phrase L V .term (s1 ++ op.code :: s2) :=
  h1.elim fun l hl => h2.elim fun r hr =>
    ⟨.addop op l r, by simpa using Renders.addop [] op l r s1 s2 rfl hl hr⟩

/-- A `Factor` followed by an operator and a `Factor` is a `Factor`: the second
one is taken apart into its `Power`s. -/
theorem Renders.mulAppend {L : Locale} {V : List Nat → Prop} (op : MulOp) {s1 : List Nat}
    (h1 : Phrase L V .factor s1) {lv : Level} {e : Expr} {s2 : List Nat}
    (h2 : Renders L V lv e s2) : lv = .factor → Phrase L V .factor (s1 ++ op.code :: s2) := by
  induction h2 with
  | number ws lit h hl => intro h; cases h
  | var ws name h hl hv => intro h; cases h
  | paren ws1 ws2 e s h1 h2 _ ih => intro h; cases h
  | primary e s _ ih => intro h; cases h
  | plus ws e s h _ ih => intro h; cases h
  | minus ws e s h _ ih => intro h; cases h
  | unary e s _ ih => intro h; cases h
  | pow ws b x s1 s2 h _ _ ihb ihx => intro h; cases h
  | power e s hp _ =>
    intro _
    obtain ⟨l, hl⟩ := h1
    exact ⟨.mulop op l e, by simpa using Renders.mulop [] op l e s1 s rfl hl hp⟩
  | mulop ws op2 l r t1 t2 h _ hr ihl _ =>
    intro _
    obtain ⟨l2, hl2⟩ := ihl rfl
    exact ⟨.mulop op2 l2 r, by simpa using Renders.mulop ws op2 l2 r _ t2 h hl2 hr⟩
  | factor e s _ ih => intro h; cases h
  | addop ws op2 l r s1 s2 h _ _ ihl ihr => intro h; cases h

theorem Phrase.mulop {L : Locale} {V : List Nat → Prop} {s1 s2 : List Nat} (op : MulOp)
    (h1 : Phrase L V .factor s1) (h2 : Phrase L V .factor s2) :
    Phrase L V .factor (s1 ++ op.code :: s2) :=
  h2.elim fun _ he => Renders.mulAppend op h1 he rfl

theorem Phrase.digit (L : Locale) (V : List Nat → Prop) (c : Nat) (h : 48 ≤ c ∧ c ≤ 57) :
    Phrase L V .primary [c] :=
  ⟨.num [c], by
    simpa using Renders.number [] [c] rfl (by simp [isNumberLiteral, L.digit_ascii c h])⟩

theorem DText.dDigit (L : Locale) (c : Nat) (h : c = 48 ∨ c = 49) : DText L .primary [c] :=
  ⟨Phrase.digit L _ c (by omega), by
    intro d hd
    simp only [List.mem_singleton] at hd
    subst hd
    rcases h with h | h <;> subst h <;> decide⟩

theorem DText.dToUnary {L : Locale} {s : List Nat} (h : DText L .primary s) : DText L .unary s :=
  ⟨h.1.toUnary, h.2⟩

theorem DText.dToFactor {L : Locale} {s : List Nat} (h : DText L .unary s) : DText L .factor s :=
  ⟨h.1.toFactor, h.2⟩

theorem DText.dToTerm {L : Locale} {s : List Nat} (h : DText L .factor s) : DText L .term s :=
  ⟨h.1.toTerm, h.2⟩

theorem DText.dParen {L : Locale} {s : List Nat} (h : DText L .term s) :
    DText L .primary (40 :: s ++ [41]) :=
  ⟨h.1.paren, by
    intro d hd
    simp only [List.cons_append, List.mem_cons, List.mem_append, List.mem_singleton,
      List.not_mem_nil, or_false] at hd
    rcases hd with hd | hd | hd
    · subst hd; decide
    · exact h.2 d hd
    · subst hd; decide⟩

theorem DText.dMinus {L : Locale} {s : List Nat} (h : DText L .primary s) :
    DText L .unary (45 :: s) :=
  ⟨h.1.minus, by
    intro d hd
    simp only [List.mem_cons] at hd
    rcases hd with hd | hd
    · subst hd; decide
    · exact h.2 d hd⟩

theorem DText.dAddop {L : Locale} {s1 s2 : List Nat} {c : Nat} (hc : c = 43 ∨ c = 45)
    (h1 : DText L .term s1) (h2 : DText L .factor s2) : DText L .term (s1 ++ [c] ++ s2) := by
  refine ⟨?_, ?_⟩
  · rcases hc with hc | hc <;> subst hc
    · simpa using Phrase.addop .add h1.1 h2.1
    · simpa using Phrase.addop .sub h1.1 h2.1
  · intro d hd
    simp only [List.mem_append, List.mem_singleton] at hd
    rcases hd with (hd | hd) | hd
    · exact h1.2 d hd
    · subst hd; rcases hc with hc | hc <;> subst hc <;> decide
    · exact h2.2 d hd

theorem DText.dMulop {L : Locale} {s1 s2 : List Nat} {c : Nat} (hc : c = 42 ∨ c = 47 ∨ c = 37)
    (h1 : DText L .factor s1) (h2 : DText L .factor s2) : DText L .factor (s1 ++ [c] ++ s2) := by
  refine ⟨?_, ?_⟩
  · rcases hc with hc | hc | hc <;> subst hc
    · simpa using Phrase.mulop .mul h1.1 h2.1
    · simpa using Phrase.mulop .div h1.1 h2.1
    · simpa using Phrase.mulop .rem h1.1 h2.1
  · intro d hd
    simp only [List.mem_append, List.mem_singleton] at hd
    rcases hd with (hd | hd) | hd
    · exact h1.2 d hd
    · subst hd; rcases hc with hc | hc | hc <;> subst hc <;> decide
    · exact h2.2 d hd

/-- The text of the product rule of the differentiator, `(r*t)`. -/
theorem DText.times {L : Locale} {r t : List Nat}
    (h1 : DText L .factor r) (h2 : DText L .factor t) :
    DText L .factor ([40] ++ r ++ [42] ++ t ++ [41]) := by
  have h := (DText.dMulop (Or.inl rfl) h1 h2).dToTerm.dParen.dToUnary.dToFactor
  simpa using h

/-- The text of the power rule of the differentiator, `x*b^(x-1)`. -/
theorem DText.dPower {L : Locale} {b x : List Nat}
    (hb : DText L .unary b) (hx : DText L .unary x) :
    DText L .factor (x ++ [42] ++ b ++ [94, 40] ++ x ++ [45, 49, 41]) := by
  have h1 : DText L .unary (40 :: (x ++ [45] ++ [49]) ++ [41]) :=
    (DText.dAddop (Or.inr rfl) hx.dToFactor.dToTerm
      (DText.dDigit L 49 (Or.inr rfl)).dToUnary.dToFactor).dParen.dToUnary
  have h2 : DText L .factor (b ++ 94 :: (40 :: (x ++ [45] ++ [49]) ++ [41])) := by
    refine ⟨Phrase.pow hb.1 h1.1, ?_⟩
    intro d hd
    rcases List.mem_append.mp hd with hd | hd
    · exact hb.2 d hd
    · rcases List.mem_cons.mp hd with hd | hd
      · subst hd; decide
      · exact h1.2 d hd
  have h3 := DText.dMulop (Or.inl rfl) hx.dToFactor h2
  simpa using h3

theorem dtext_primary {F : Type} (L : Locale) {t : Sym F}
    (ht : ReturnsDText L .term t) (hg : SymGrows t) :
    ReturnsDText L .primary (symPrimary differentiateRules L t) := by
  intro p x hx hno
  unfold symPrimary at hx
  by_cases h40 : deref p.currentToken = 40
  · rw [if_pos h40] at hx
    cases ht1 : t (parseToken L p) with
    | none => simp [ht1] at hx
    | some y =>
      obtain ⟨s, p1⟩ := y
      rw [ht1] at hx
      simp only [Option.some.injEq] at hx
      subst hx
      have hgrow : ∃ l, p1.output = p.output ++ l := by simpa using (hg _ _ ht1).1
      have h41 : deref p1.currentToken = 41 := by
        by_contra h
        simp only [ne_eq, h, not_false_eq_true, if_true, parseToken_output] at hno
        exact syntaxError_ne 1 p1 hgrow hno
      simp only [h41, ne_eq, not_true_eq_false, if_false, parseToken_output] at hno
      exact (ht _ _ ht1 (by simpa using hno)).dParen
  · rw [if_neg h40] at hx
    cases hty : p.tokenType with
    | NUMBER =>
      simp only [hty, Option.some.injEq] at hx
      subst hx
      exact DText.dDigit L 48 (Or.inl rfl)
    | VARIABLE =>
      simp only [hty, Option.some.injEq] at hx
      subst hx
      simp only [differentiateRules, differentiateVariable]
      split_ifs
      · exact DText.dDigit L 49 (Or.inr rfl)
      · exact DText.dDigit L 48 (Or.inl rfl)
    | DELIMITER =>
      simp only [hty, Option.some.injEq] at hx
      subst hx
      exact absurd hno (syntaxError_ne 0 p ⟨[], by simp⟩)
    | UNKNOWN =>
      simp only [hty, Option.some.injEq] at hx
      subst hx
      exact absurd hno (syntaxError_ne 0 p ⟨[], by simp⟩)

theorem dtext_unary {F : Type} (L : Locale) {f : Sym F}
    (hf : ReturnsDText L .primary f) : ReturnsDText L .unary (symUnary L f) := by
  intro p x hx hno
  unfold symUnary at hx
  by_cases h1 : p.tokenType = DELIMITER ∧ (deref p.currentToken = 43 ∨ deref p.currentToken = 45)
  · rw [if_pos h1] at hx
    cases ht1 : f (parseToken L p) with
    | none => simp [ht1] at hx
    | some y =>
      obtain ⟨s, p1⟩ := y
      rw [ht1] at hx
      simp only [Option.some.injEq] at hx
      subst hx
      have hd := hf _ _ ht1 (by simpa using hno)
      simp only []
      split_ifs
      · exact hd.dMinus
      · exact hd.dToUnary
  · rw [if_neg h1] at hx
    exact (hf p x hx hno).dToUnary

theorem dtext_power {F : Type} (L : Locale) {f : Sym F}
    (hf : ReturnsDText L .unary f) (hg : SymGrows f) :
    ReturnsDText L .factor (symPower differentiateRules L f) := by
  intro p x hx hno
  unfold symPower at hx
  cases ht1 : f p with
  | none => simp [ht1] at hx
  | some y =>
    obtain ⟨base, p1⟩ := y
    rw [ht1] at hx
    simp only [] at hx
    have hg1 := (hg _ _ ht1).1
    by_cases h94 : deref p1.currentToken = 94
    · rw [if_pos h94] at hx
      cases ht2 : f (parseToken L p1) with
      | none => simp [ht2] at hx
      | some z =>
        obtain ⟨ex, p2⟩ := z
        rw [ht2] at hx
        simp only [Option.some.injEq] at hx
        subst hx
        have hg2 : ∃ l, p2.output = p1.output ++ l := by simpa using (hg _ _ ht2).1
        obtain ⟨ho1, ho2⟩ := output_mid hg1 hg2 hno
        exact DText.dPower (hf _ _ ht1 ho1) (hf _ _ ht2 (by simpa using ho2))
    · rw [if_neg h94] at hx
      simp only [Option.some.injEq] at hx
      subst hx
      exact (hf _ _ ht1 hno).dToFactor

theorem dtext_factorLoop {F : Type} (L : Locale) {f : Sym F}
    (hf : ReturnsDText L .factor f) (hg : SymGrows f) (k : Nat) :
    ∀ (r : List Nat) (p : ExpressionParser F) (x : List Nat × ExpressionParser F),
    DText L .factor r → symFactorLoop differentiateRules L f k r p = some x →
    x.2.output = p.output → DText L .factor x.1 := by
  induction k with
  | zero => intro r p x _ hx; simp [symFactorLoop] at hx
  | succ k ih =>
    intro r p x hr hx hno
    unfold symFactorLoop at hx
    by_cases hc : deref p.currentToken = 42 ∨ deref p.currentToken = 47 ∨
        deref p.currentToken = 37
    · rw [if_pos hc] at hx
      cases ht1 : f (parseToken L p) with
      | none => simp [ht1] at hx
      | some y =>
        obtain ⟨t, p1⟩ := y
        rw [ht1] at hx
        simp only [] at hx
        have hg1 : ∃ l, p1.output = p.output ++ l := by simpa using (hg _ _ ht1).1
        have hg2 := (symFactorLoop_grows _ L hg _ _ _ _ hx).1
        obtain ⟨ho1, ho2⟩ := output_mid hg1 hg2 hno
        have hd := hf _ _ ht1 (by simpa using ho1)
        refine ih _ _ _ ?_ hx ho2
        unfold symFactorStep
        split_ifs with h42
        · exact DText.times hr hd
        · exact DText.dMulop hc hr hd
    · rw [if_neg hc] at hx
      simp only [Option.some.injEq] at hx
      subst hx
      exact hr

theorem dtext_factor {F : Type} (L : Locale) {f : Sym F}
    (hf : ReturnsDText L .factor f) (hg : SymGrows f) :
    ReturnsDText L .factor (symFactor differentiateRules L f) := by
  intro p x hx hno
  unfold symFactor at hx
  cases ht1 : f p with
  | none => simp [ht1] at hx
  | some y =>
    obtain ⟨r, p1⟩ := y
    rw [ht1] at hx
    simp only [] at hx
    have hg1 := (hg _ _ ht1).1
    have hg2 := (symFactorLoop_grows _ L hg _ _ _ _ hx).1
    obtain ⟨ho1, ho2⟩ := output_mid hg1 hg2 hno
    exact dtext_factorLoop L hf hg _ _ _ _ (hf _ _ ht1 ho1) hx ho2

theorem dtext_termLoop {F : Type} (L : Locale) {f : Sym F}
    (hf : ReturnsDText L .factor f) (hg : SymGrows f) (k : Nat) :
    ∀ (r : List Nat) (p : ExpressionParser F) (x : List Nat × ExpressionParser F),
    DText L .term r → symTermLoop L f k r p = some x →
    x.2.output = p.output → DText L .term x.1 := by
  induction k with
  | zero => intro r p x _ hx; simp [symTermLoop] at hx
  | succ k ih =>
    intro r p x hr hx hno
    unfold symTermLoop at hx
    by_cases hc : deref p.currentToken = 43 ∨ deref p.currentToken = 45
    · rw [if_pos hc] at hx
      cases ht1 : f (parseToken L p) with
      | none => simp [ht1] at hx
      | some y =>
        obtain ⟨t, p1⟩ := y
        rw [ht1] at hx
        simp only [] at hx
        have hg1 : ∃ l, p1.output = p.output ++ l := by simpa using (hg _ _ ht1).1
        have hg2 := (symTermLoop_grows L hg _ _ _ _ hx).1
        obtain ⟨ho1, ho2⟩ := output_mid hg1 hg2 hno
        have hd := hf _ _ ht1 (by simpa using ho1)
        exact ih _ _ _ (DText.dAddop hc hr hd) hx ho2
    · rw [if_neg hc] at hx
      simp only [Option.some.injEq] at hx
      subst hx
      exact hr

theorem dtext_termBody {F : Type} (L : Locale) {f : Sym F}
    (hf : ReturnsDText L .factor f) (hg : SymGrows f) :
    ReturnsDText L .term (symTermBody L f) := by
  intro p x hx hno
  unfold symTermBody at hx
  cases ht1 : f p with
  | none => simp [ht1] at hx
  | some y =>
    obtain ⟨r, p1⟩ := y
    rw [ht1] at hx
    simp only [] at hx
    have hg1 := (hg _ _ ht1).1
    have hg2 := (symTermLoop_grows L hg _ _ _ _ hx).1
    obtain ⟨ho1, ho2⟩ := output_mid hg1 hg2 hno
    exact dtext_termLoop L hf hg _ _ _ _ (hf _ _ ht1 ho1).dToTerm hx ho2

/-- Whatever the fuel, a `Term` of the differentiator that printed nothing
returned a variable-free phrase of the grammar. -/
theorem dtext_term {F : Type} (L : Locale) (n : Nat) :
    ReturnsDText L .term (symTerm differentiateRules L n : Sym F) := by
  induction n with
  | zero => intro p x hx; simp [symTerm] at hx
  | succ n ih =>
    unfold symTerm
    have g0 := symTerm_grows (F := F) differentiateRules L n
    have d1 := dtext_primary L ih g0
    have g1 := symPrimary_grows differentiateRules L g0
    have d2 := dtext_unary L d1
    have g2 := symUnary_grows L g1
    have d3 := dtext_power L d2 g2
    have g3 := symPower_grows differentiateRules L g2
    have d4 := dtext_factor L d3 g3
    have g4 := symFactor_grows differentiateRules L g3
    exact dtext_termBody L d4 g4

/-- C7. Round trip for differentiation: for every input on which
`differentiate` prints no error, the text it returns consists of the
characters `0 1 + - * / % ^ ( )` only and `evaluateExpression` applied to it
prints no error, whatever the Variable Table holds (an empty one included) and
leaves that table as it was. -/
theorem differentiate_roundTrip {F : Type} (L : Locale) (A : Arith F)
    (this : ExpressionParser F) (expression var s : List Nat) (q : ExpressionParser F)
    (that : ExpressionParser F) (after : List Nat)
    (h : differentiate L this expression var = some (s, q)) (hno : q.output = this.output) :
    (∀ c ∈ s, c ∈ derivativeChars) ∧
    ∃ v q1, evaluateExpression L A that (cString s after) = some (some v, q1) ∧
      q1.output = that.output ∧ q1.varTable = that.varTable := by
  unfold differentiate at h
  rw [differentiateTerm_eq] at h
  obtain ⟨⟨e, he⟩, hchars⟩ := dtext_term L _ _ _ h (by simpa using hno)
  refine ⟨hchars, refEval A (fun _ => A.zero) e, lookAt L that ([] ++ 0 :: after), ?_, ?_, ?_⟩
  · have := evaluateExpression_term L A (fun _ => A.zero) that (binds_noVariable _ _) e s []
      after he rfl
    simpa using this
  · exact (@lookAt_end F L that [] after rfl).2.2
  · exact (@lookAt_end F L that [] after rfl).2.1

/-- Witness of C7: the text `0*-1^(0-1)` returned for `-x^2` evaluates without
error on a fresh engine. -/
theorem differentiate_roundTrip_witness :
    (differentiate cLocale (newParser Int) (cString (wstr "-x^2") []) (wstr "x") =
        some (wstr "0*-1^(0-1)", lookAt cLocale (newParser Int) [0]) ∧
      (lookAt cLocale (newParser Int) [0]).output = (newParser Int).output) ∧
    (∀ c ∈ wstr "0*-1^(0-1)", c ∈ derivativeChars) ∧
    ∃ v q1, evaluateExpression cLocale intArith (newParser Int) (cString (wstr "0*-1^(0-1)") [])
        = some (some v, q1) ∧
      q1.output = (newParser Int).output ∧ q1.varTable = (newParser Int).varTable :=
  ⟨⟨by rfl, by rfl⟩,
    differentiate_roundTrip cLocale intArith (newParser Int) (cString (wstr "-x^2") [])
      (wstr "x") (wstr "0*-1^(0-1)") (lookAt cLocale (newParser Int) [0]) (newParser Int) []
      (by rfl) (by rfl)⟩

/-! ### C6: the text of `integrate`, and when the evaluator accepts it -/

theorem Renders.weaken {L : Locale} {V W : List Nat → Prop} (hVW : ∀ v, V v → W v)
    {lv : Level} {e : Expr} {s : List Nat} (h : Renders L V lv e s) : Renders L W lv e s := by
  induction h with
  | number ws lit h hl => exact Renders.number ws lit h hl
  | var ws name h hl hv => exact Renders.var ws name h hl (hVW _ hv)
  | paren ws1 ws2 e s h1 h2 _ ih => exact Renders.paren ws1 ws2 e s h1 h2 ih
  | primary e s _ ih => exact Renders.primary e s ih
  | plus ws e s h _ ih => exact Renders.plus ws e s h ih
  | minus ws e s h _ ih => exact Renders.minus ws e s h ih
  | unary e s _ ih => exact Renders.unary e s ih
  | pow ws b x s1 s2 h _ _ ihb ihx => exact Renders.pow ws b x s1 s2 h ihb ihx
  | power e s _ ih => exact Renders.power e s ih
  | mulop ws op l r s1 s2 h _ _ ihl ihr => exact Renders.mulop ws op l r s1 s2 h ihl ihr
  | factor e s _ ih => exact Renders.factor e s ih
  | addop ws op l r s1 s2 h _ _ ihl ihr => exact Renders.addop ws op l r s1 s2 h ihl ihr

theorem Phrase.weakenV {L : Locale} {V W : List Nat → Prop} (hVW : ∀ v, V v → W v)
    {lv : Level} {s : List Nat} (h : Phrase L V lv s) : Phrase L W lv s :=
  h.elim fun e he => ⟨e, he.weaken hVW⟩

theorem endsDelim_nil : EndsDelim [] := by
  intro c h; simp at h

theorem endsDelim_append_singleton (a : List Nat) {c : Nat} (hc : isDelimiter c = true) :
    EndsDelim (a ++ [c]) := by
  intro d h
  rw [List.getLast?_append_of_ne_nil _ (by simp)] at h
  simp only [List.getLast?_singleton, Option.some.injEq] at h
  rw [← h]; exact hc

theorem endsDelim_append {a pre : List Nat} (ha : EndsDelim a) (hp : EndsDelim pre) :
    EndsDelim (a ++ pre) := by
  intro c h
  cases pre with
  | nil => exact ha c (by simpa using h)
  | cons d ds =>
    rw [List.getLast?_append_of_ne_nil _ (by simp)] at h
    exact hp c h

theorem deref_append_delim {post b : List Nat} (hp : isDelimiter (deref post) = true)
    (hb : isDelimiter (deref b) = true) : isDelimiter (deref (post ++ b)) = true := by
  cases post with
  | nil => simpa using hb
  | cons d ds => simpa [deref] using hp

/-- A variable that occurs in a text occurs in the text put between a
delimiter before and a delimiter behind. -/
theorem Occurs.embed {L : Locale} {s v : List Nat} (a b : List Nat) (h : Occurs L s v)
    (ha : EndsDelim a) (hb : isDelimiter (deref b) = true) : Occurs L (a ++ (s ++ b)) v := by
  obtain ⟨hv, pre, post, hs, hpre, hpost⟩ := h
  refine ⟨hv, a ++ pre, post ++ b, ?_, endsDelim_append ha hpre, deref_append_delim hpost hb⟩
  rw [hs]; simp

theorem IPhrase.embedded {L : Locale} {lv : Level} {s : List Nat} (a b : List Nat)
    (h : IPhrase L lv s) (ha : EndsDelim a) (hb : isDelimiter (deref b) = true) :
    Phrase L (Occurs L (a ++ (s ++ b))) lv s :=
  Phrase.weakenV (fun _ hv => hv.embed a b ha hb) h

theorem IPhrase.left {L : Locale} {lv : Level} {s : List Nat} (b : List Nat)
    (h : IPhrase L lv s) (hb : isDelimiter (deref b) = true) :
    Phrase L (Occurs L (s ++ b)) lv s := by
  simpa using h.embedded [] b endsDelim_nil hb

theorem IPhrase.right {L : Locale} {lv : Level} {s : List Nat} (a : List Nat)
    (h : IPhrase L lv s) (ha : EndsDelim a) :
    Phrase L (Occurs L (a ++ s)) lv s := by
  simpa using h.embedded a [] ha (by decide)

theorem IPhrase.iToUnary {L : Locale} {s : List Nat} (h : IPhrase L .primary s) :
    IPhrase L .unary s := Phrase.toUnary h

theorem IPhrase.iToFactor {L : Locale} {s : List Nat} (h : IPhrase L .unary s) :
    IPhrase L .factor s := Phrase.toFactor h

theorem IPhrase.iToTerm {L : Locale} {s : List Nat} (h : IPhrase L .factor s) :
    IPhrase L .term s := Phrase.toTerm h

theorem IPhrase.iParen {L : Locale} {s : List Nat} (h : IPhrase L .term s) :
    IPhrase L .primary (40 :: s ++ [41]) := by
  have h1 := h.embedded [40] [41] (endsDelim_append_singleton [] (by decide)) (by decide)
  exact Phrase.paren (by simpa using h1)

theorem IPhrase.iMinus {L : Locale} {s : List Nat} (h : IPhrase L .primary s) :
    IPhrase L .unary (45 :: s) := by
  have h1 := h.right [45] (endsDelim_append_singleton [] (by decide))
  exact Phrase.minus (by simpa using h1)

theorem IPhrase.iAddop {L : Locale} {s1 s2 : List Nat} {c : Nat} (hc : c = 43 ∨ c = 45)
    (h1 : IPhrase L .term s1) (h2 : IPhrase L .factor s2) :
    IPhrase L .term (s1 ++ [c] ++ s2) := by
  have hd : isDelimiter c = true := by rcases hc with hc | hc <;> subst hc <;> decide
  have e1 := h1.left (c :: s2) (by simpa [deref] using hd)
  have e2 := h2.right (s1 ++ [c]) (endsDelim_append_singleton s1 hd)
  have e1' : Phrase L (Occurs L (s1 ++ [c] ++ s2)) .term s1 := by simpa using e1
  unfold IPhrase
  rcases hc with hc | hc <;> subst hc
  · simpa using Phrase.addop .add e1' e2
  · simpa using Phrase.addop .sub e1' e2

theorem IPhrase.iMulop {L : Locale} {s1 s2 : List Nat} {c : Nat}
    (hc : c = 42 ∨ c = 47 ∨ c = 37)
    (h1 : IPhrase L .factor s1) (h2 : IPhrase L .factor s2) :
    IPhrase L .factor (s1 ++ [c] ++ s2) := by
  have hd : isDelimiter c = true := by rcases hc with hc | hc | hc <;> subst hc <;> decide
  have e1 := h1.left (c :: s2) (by simpa [deref] using hd)
  have e2 := h2.right (s1 ++ [c]) (endsDelim_append_singleton s1 hd)
  have e1' : Phrase L (Occurs L (s1 ++ [c] ++ s2)) .factor s1 := by simpa using e1
  unfold IPhrase
  rcases hc with hc | hc | hc <;> subst hc
  · simpa using Phrase.mulop .mul e1' e2
  · simpa using Phrase.mulop .div e1' e2
  · simpa using Phrase.mulop .rem e1' e2

theorem IPhrase.iPow {L : Locale} {s1 s2 : List Nat}
    (h1 : IPhrase L .unary s1) (h2 : IPhrase L .unary s2) :
    IPhrase L .factor (s1 ++ [94] ++ s2) := by
  have e1 := h1.left (94 :: s2) (show isDelimiter 94 = true by decide)
  have e2 := h2.right (s1 ++ [94]) (endsDelim_append_singleton s1 (by decide))
  have e1' : Phrase L (Occurs L (s1 ++ [94] ++ s2)) .unary s1 := by simpa using e1
  unfold IPhrase
  simpa using Phrase.pow e1' e2

theorem IPhrase.ofLiteral {L : Locale} {lit : List Nat} (h : isNumberLiteral L lit = true) :
    IPhrase L .primary lit :=
  ⟨.num lit, by simpa using Renders.number [] lit rfl h⟩

theorem IPhrase.name {L : Locale} {v : List Nat} (h : isVariableName L v = true) :
    IPhrase L .primary v :=
  ⟨.var v, by
    simpa using Renders.var [] v rfl h
      ⟨h, [], [], by simp, endsDelim_nil, by decide⟩⟩

theorem scanToken_all (l : List Nat) :
    (scanToken l).1.all (fun d => !isDelimiter d) = true := by
  induction l with
  | nil => rfl
  | cons c cs ih =>
    unfold scanToken
    by_cases h : isDelimiter c = true
    · rw [if_pos h]; rfl
    · rw [if_neg h]
      simp only [List.all_cons, ih, Bool.and_true]
      simpa using h

theorem scanToken_head {c : Nat} (cs : List Nat) (h : isDelimiter c = false) :
    (scanToken (c :: cs)).1 = c :: (scanToken cs).1 := by
  rw [scanToken, if_neg (by simp [h])]

theorem not_delimiter_of_not_mem {c : Nat}
    (h : c ∉ [0, 32, 9, 13, 43, 45, 42, 47, 37, 94, 61, 40, 41]) : isDelimiter c = false := by
  cases hd : isDelimiter c with
  | false => rfl
  | true =>
    exfalso
    apply h
    simp only [isDelimiter, wcschr, isDelimiterChars, Bool.or_eq_true, beq_iff_eq,
      List.contains_iff_exists_mem_beq, List.mem_cons, List.mem_singleton,
      List.not_mem_nil, or_false] at hd
    simp only [List.mem_cons, List.mem_singleton, List.not_mem_nil, or_false]
    rcases hd with (((hd | ⟨d, hd, rfl⟩) | hd) | hd) | hd
    all_goals omega

/-- Every token read by `parseToken` is what its type says. -/
theorem tokenOk_parseToken {F : Type} (L : Locale) (p : ExpressionParser F) :
    TokenOk L (parseToken L p) := by
  unfold parseToken
  by_cases h0 : deref p.expressionPointer = 0
  · rw [if_pos h0]; exact ⟨fun h => (by cases h), fun h => (by cases h)⟩
  · rw [if_neg h0]
    simp only []
    by_cases hd : wcschr delimiterChars (deref (skipSpace L p.expressionPointer)) = true
    · rw [if_pos hd]; exact ⟨fun h => (by cases h), fun h => (by cases h)⟩
    · rw [if_neg hd]
      by_cases ha : L.iswalpha (deref (skipSpace L p.expressionPointer)) = true
      · rw [if_pos ha]
        refine ⟨fun h => (by cases h), fun _ => ?_⟩
        have hnd := not_delimiter_of_not_mem (L.alpha_not_delim _ ha)
        cases hs : skipSpace L p.expressionPointer with
        | nil => rw [hs] at hnd; simp [deref, isDelimiter, wcschr] at hnd
        | cons c cs =>
          rw [hs] at hnd ha
          simp only [deref] at hnd ha
          show isVariableName L (scanToken (c :: cs)).1 = true
          rw [scanToken_head cs hnd]
          simp only [isVariableName, ha, Bool.true_and]
          exact scanToken_all cs
      · rw [if_neg ha]
        by_cases hg : L.iswdigit (deref (skipSpace L p.expressionPointer)) = true
        · rw [if_pos hg]
          refine ⟨fun _ => ?_, fun h => by cases h⟩
          have hnd := not_delimiter_of_not_mem (L.digit_not_delim _ hg)
          cases hs : skipSpace L p.expressionPointer with
          | nil => rw [hs] at hnd; simp [deref, isDelimiter, wcschr] at hnd
          | cons c cs =>
            rw [hs] at hnd hg
            simp only [deref] at hnd hg
            show isNumberLiteral L (scanToken (c :: cs)).1 = true
            rw [scanToken_head cs hnd]
            simp only [isNumberLiteral, hg, Bool.true_and]
            exact scanToken_all cs
        · rw [if_neg hg]; exact ⟨fun h => (by cases h), fun h => (by cases h)⟩

theorem tokenOk_syntaxError {F : Type} (L : Locale) (e : Nat) {p : ExpressionParser F}
    (h : TokenOk L p) : TokenOk L (syntaxError e p) := h

theorem doublePower_embed {s : List Nat} (a b : List Nat) (h : doublePower <:+: s) :
    doublePower <:+: a ++ (s ++ b) := by
  obtain ⟨u, v, rfl⟩ := h
  exact ⟨a ++ u, v ++ b, by simp⟩

theorem IGood.gParen {L : Locale} {s : List Nat} (h : IGood L .term s) :
    IPrimary L (40 :: s ++ [41]) := by
  rcases h with h | h
  · exact Or.inl h.iParen
  · exact Or.inr (Or.inr (Or.inr (by simpa using doublePower_embed [40] [41] h)))

theorem isVariableName_x (L : Locale) : isVariableName L [120] = true := by
  simp [isVariableName, L.alpha_ascii 120 (Or.inr (by decide))]

theorem isNumberLiteral_half (L : Locale) : isNumberLiteral L [48, 46, 53] = true := by
  simp only [isNumberLiteral, L.digit_ascii 48 (by decide), Bool.true_and]
  decide

theorem isNumberLiteral_digit (L : Locale) (c : Nat) (h : 48 ≤ c ∧ c ≤ 57) :
    isNumberLiteral L [c] = true := by
  simp [isNumberLiteral, L.digit_ascii c h]

theorem IPhrase.iSigned {L : Locale} {sign s : List Nat} (hs : isSign sign)
    (h : IPhrase L .primary s) : IPhrase L .unary (sign ++ s) := by
  rcases hs with hs | hs <;> subst hs
  · exact h.iToUnary
  · exact h.iMinus

/-- The text `sign v*x` is a `Factor`. -/
theorem IPhrase.timesX {L : Locale} {sign v : List Nat} (hs : isSign sign)
    (hv : isVariableName L v = true) : IPhrase L .factor (sign ++ (v ++ [42, 120])) := by
  have h := IPhrase.iMulop (c := 42) (Or.inl rfl)
    (IPhrase.iSigned hs (IPhrase.name hv)).iToFactor
    (IPhrase.name (isVariableName_x L)).iToUnary.iToFactor
  simpa using h

/-- The text `sign 0.5*x^2` is a `Factor`. -/
theorem IPhrase.halfSquare {L : Locale} {sign : List Nat} (hs : isSign sign) :
    IPhrase L .factor (sign ++ halfSquare) := by
  have h2 := IPhrase.iPow (IPhrase.name (isVariableName_x L)).iToUnary
    (IPhrase.ofLiteral (isNumberLiteral_digit L 50 (by decide))).iToUnary
  have h := IPhrase.iMulop (c := 42) (Or.inl rfl)
    (IPhrase.iSigned hs (IPhrase.ofLiteral (isNumberLiteral_half L))).iToFactor h2
  simpa [halfSquare] using h

theorem IUnary.uToFactor {L : Locale} {s : List Nat} (h : IUnary L s) : IGood L .factor s := by
  rcases h with h | ⟨sign, v, hs, hv, rfl⟩ | ⟨sign, hs, rfl⟩ | h
  · exact Or.inl h.iToFactor
  · exact Or.inl (IPhrase.timesX hs hv)
  · exact Or.inl (IPhrase.halfSquare hs)
  · exact Or.inr h

theorem IPrimary.signed {L : Locale} {sign s : List Nat} (hs : isSign sign)
    (h : IPrimary L s) : IUnary L (sign ++ s) := by
  rcases h with h | ⟨v, hv, rfl⟩ | rfl | h
  · exact Or.inl (IPhrase.iSigned hs h)
  · exact Or.inr (Or.inl ⟨sign, v, hs, hv, rfl⟩)
  · exact Or.inr (Or.inr (Or.inl ⟨sign, hs, rfl⟩))
  · exact Or.inr (Or.inr (Or.inr (by simpa using doublePower_embed sign [] h)))

theorem IGood.gToTerm {L : Locale} {s : List Nat} (h : IGood L .factor s) : IGood L .term s :=
  h.imp IPhrase.iToTerm id

theorem IGood.gMulop {L : Locale} {s1 s2 : List Nat} {c : Nat}
    (hc : c = 42 ∨ c = 47 ∨ c = 37) (h1 : IGood L .factor s1) (h2 : IGood L .factor s2) :
    IGood L .factor (s1 ++ [c] ++ s2) := by
  rcases h1 with h1 | h1
  · rcases h2 with h2 | h2
    · exact Or.inl (IPhrase.iMulop hc h1 h2)
    · exact Or.inr (by simpa using doublePower_embed (s1 ++ [c]) [] h2)
  · exact Or.inr (by simpa using doublePower_embed [] ([c] ++ s2) h1)

theorem IGood.gAddop {L : Locale} {s1 s2 : List Nat} {c : Nat}
    (hc : c = 43 ∨ c = 45) (h1 : IGood L .term s1) (h2 : IGood L .factor s2) :
    IGood L .term (s1 ++ [c] ++ s2) := by
  rcases h1 with h1 | h1
  · rcases h2 with h2 | h2
    · exact Or.inl (IPhrase.iAddop hc h1 h2)
    · exact Or.inr (by simpa using doublePower_embed (s1 ++ [c]) [] h2)
  · exact Or.inr (by simpa using doublePower_embed [] ([c] ++ s2) h1)

/-- The text of a power is a `Factor` as soon as `base^(exponent+1)` is one. -/
theorem IPhrase.powerText {L : Locale} {b x : List Nat} (hx : IPhrase L .factor x)
    (hb : IPhrase L .primary (40 :: (x ++ [43] ++ [49]) ++ [41]) →
      IPhrase L .factor (b ++ [94] ++ (40 :: (x ++ [43] ++ [49]) ++ [41]))) :
    IPhrase L .factor (integrateRules.power b x) := by
  have t1 : IPhrase L .term (x ++ [43] ++ [49]) :=
    IPhrase.iAddop (Or.inl rfl) hx.iToTerm
      (IPhrase.ofLiteral (isNumberLiteral_digit L 49 (by decide))).iToUnary.iToFactor
  have t2 := t1.iParen
  have t3 := (hb t2).iToTerm.iParen
  have h := IPhrase.iMulop (c := 47) (Or.inr (Or.inl rfl)) t3.iToUnary.iToFactor t2.iToUnary.iToFactor
  simpa [integrateRules] using h

/-- The text of a power is a `Factor`, unless it contains `^2^`. -/
theorem IUnary.uPower {L : Locale} {b x : List Nat} (hb : IUnary L b) (hx : IUnary L x) :
    IGood L .factor (integrateRules.power b x) := by
  have e : integrateRules.power b x =
      [40] ++ (b ++ ([94, 40] ++ (x ++ ([43, 49, 41, 41, 47, 40] ++ (x ++ [43, 49, 41]))))) := by
    simp [integrateRules]
  rcases hx.uToFactor with hx | hx
  · rcases hb with hb | ⟨sign, v, hs, hv, rfl⟩ | ⟨sign, hs, rfl⟩ | hb
    · exact Or.inl (IPhrase.powerText hx (fun t2 => IPhrase.iPow hb t2.iToUnary))
    · refine Or.inl (IPhrase.powerText hx (fun t2 => ?_))
      have h := IPhrase.iMulop (c := 42) (Or.inl rfl)
        (IPhrase.iSigned hs (IPhrase.name hv)).iToFactor
        (IPhrase.iPow (IPhrase.name (isVariableName_x L)).iToUnary t2.iToUnary)
      simpa using h
    · refine Or.inr ?_
      rw [e]
      exact ⟨[40] ++ sign ++ [48, 46, 53, 42, 120],
        [40] ++ (x ++ ([43, 49, 41, 41, 47, 40] ++ (x ++ [43, 49, 41]))),
        by simp [doublePower, halfSquare]⟩
    · refine Or.inr ?_
      rw [e]
      exact doublePower_embed [40] _ hb
  · refine Or.inr ?_
    rw [e]
    have := doublePower_embed ([40] ++ (b ++ [94, 40]))
      ([43, 49, 41, 41, 47, 40] ++ (x ++ [43, 49, 41])) hx
    simpa using this

theorem itext_primary {F : Type} (L : Locale) {t : Sym F}
    (ht : ReturnsText L (IGood L .term) t) (hg : SymGrows t) :
    ReturnsText L (IPrimary L) (symPrimary integrateRules L t) := by
  intro p x hok hx
  unfold symPrimary at hx
  by_cases h40 : deref p.currentToken = 40
  · rw [if_pos h40] at hx
    cases ht1 : t (parseToken L p) with
    | none => simp [ht1] at hx
    | some y =>
      obtain ⟨s, p1⟩ := y
      rw [ht1] at hx
      simp only [Option.some.injEq] at hx
      subst hx
      refine ⟨tokenOk_parseToken L _, fun hno => ?_⟩
      have hgrow : ∃ l, p1.output = p.output ++ l := by simpa using (hg _ _ ht1).1
      have h41 : deref p1.currentToken = 41 := by
        by_contra h
        simp only [ne_eq, h, not_false_eq_true, if_true, parseToken_output] at hno
        exact syntaxError_ne 1 p1 hgrow hno
      simp only [h41, ne_eq, not_true_eq_false, if_false, parseToken_output] at hno
      exact ((ht _ _ (tokenOk_parseToken L p) ht1).2 (by simpa using hno)).gParen
  · rw [if_neg h40] at hx
    cases hty : p.tokenType with
    | NUMBER =>
      simp only [hty, Option.some.injEq] at hx
      subst hx
      exact ⟨tokenOk_parseToken L _, fun _ => Or.inl (IPhrase.ofLiteral (hok.1 hty))⟩
    | VARIABLE =>
      simp only [hty, Option.some.injEq] at hx
      subst hx
      refine ⟨tokenOk_parseToken L _, fun _ => ?_⟩
      simp only [integrateRules, integrateVariable]
      split_ifs
      · exact Or.inr (Or.inr (Or.inl rfl))
      · exact Or.inr (Or.inl ⟨_, hok.2 hty, by simp⟩)
    | DELIMITER =>
      simp only [hty, Option.some.injEq] at hx
      subst hx
      exact ⟨hok, fun hno => absurd hno (syntaxError_ne 0 p ⟨[], by simp⟩)⟩
    | UNKNOWN =>
      simp only [hty, Option.some.injEq] at hx
      subst hx
      exact ⟨hok, fun hno => absurd hno (syntaxError_ne 0 p ⟨[], by simp⟩)⟩

theorem itext_unary {F : Type} (L : Locale) {f : Sym F}
    (hf : ReturnsText L (IPrimary L) f) : ReturnsText L (IUnary L) (symUnary L f) := by
  intro p x hok hx
  unfold symUnary at hx
  by_cases h1 : p.tokenType = DELIMITER ∧ (deref p.currentToken = 43 ∨ deref p.currentToken = 45)
  · rw [if_pos h1] at hx
    cases ht1 : f (parseToken L p) with
    | none => simp [ht1] at hx
    | some y =>
      obtain ⟨s, p1⟩ := y
      rw [ht1] at hx
      simp only [Option.some.injEq] at hx
      subst hx
      have hd := hf _ _ (tokenOk_parseToken L p) ht1
      refine ⟨hd.1, fun hno => ?_⟩
      have hs := hd.2 (by simpa using hno)
      simp only []
      split_ifs
      · exact @IPrimary.signed L [45] _ (Or.inr rfl) hs
      · exact @IPrimary.signed L [] _ (Or.inl rfl) hs
  · rw [if_neg h1] at hx
    have hd := hf _ _ hok hx
    exact ⟨hd.1, fun hno => @IPrimary.signed L [] _ (Or.inl rfl) (hd.2 hno)⟩

theorem itext_power {F : Type} (L : Locale) {f : Sym F}
    (hf : ReturnsText L (IUnary L) f) (hg : SymGrows f) :
    ReturnsText L (IGood L .factor) (symPower integrateRules L f) := by
  intro p x hok hx
  unfold symPower at hx
  cases ht1 : f p with
  | none => simp [ht1] at hx
  | some y =>
    obtain ⟨base, p1⟩ := y
    rw [ht1] at hx
    simp only [] at hx
    have hg1 := (hg _ _ ht1).1
    have hd1 := hf _ _ hok ht1
    by_cases h94 : deref p1.currentToken = 94
    · rw [if_pos h94] at hx
      cases ht2 : f (parseToken L p1) with
      | none => simp [ht2] at hx
      | some z =>
        obtain ⟨ex, p2⟩ := z
        rw [ht2] at hx
        simp only [Option.some.injEq] at hx
        subst hx
        have hd2 := hf _ _ (tokenOk_parseToken L p1) ht2
        refine ⟨hd2.1, fun hno => ?_⟩
        have hg2 : ∃ l, p2.output = p1.output ++ l := by simpa using (hg _ _ ht2).1
        obtain ⟨ho1, ho2⟩ := output_mid hg1 hg2 hno
        exact IUnary.uPower (hd1.2 ho1) (hd2.2 (by simpa using ho2))
    · rw [if_neg h94] at hx
      simp only [Option.some.injEq] at hx
      subst hx
      exact ⟨hd1.1, fun hno => (hd1.2 hno).uToFactor⟩

theorem itext_factorLoop {F : Type} (L : Locale) {f : Sym F}
    (hf : ReturnsText L (IGood L .factor) f) (hg : SymGrows f) (k : Nat) :
    ∀ (r : List Nat) (p : ExpressionParser F) (x : List Nat × ExpressionParser F),
    TokenOk L p → symFactorLoop integrateRules L f k r p = some x →
    TokenOk L x.2 ∧ (x.2.output = p.output → IGood L .factor r → IGood L .factor x.1) := by
  induction k with
  | zero => intro r p x _ hx; simp [symFactorLoop] at hx
  | succ k ih =>
    intro r p x hok hx
    unfold symFactorLoop at hx
    by_cases hc : deref p.currentToken = 42 ∨ deref p.currentToken = 47 ∨
        deref p.currentToken = 37
    · rw [if_pos hc] at hx
      cases ht1 : f (parseToken L p) with
      | none => simp [ht1] at hx
      | some y =>
        obtain ⟨t, p1⟩ := y
        rw [ht1] at hx
        simp only [] at hx
        have hd := hf _ _ (tokenOk_parseToken L p) ht1
        have hi := ih _ _ _ hd.1 hx
        refine ⟨hi.1, fun hno hr => ?_⟩
        have hg1 : ∃ l, p1.output = p.output ++ l := by simpa using (hg _ _ ht1).1
        have hg2 := (symFactorLoop_grows _ L hg _ _ _ _ hx).1
        obtain ⟨ho1, ho2⟩ := output_mid hg1 hg2 hno
        refine hi.2 ho2 ?_
        unfold symFactorStep
        split_ifs with h42
        · exact IGood.gMulop (c := 42) (Or.inl rfl) hr (hd.2 (by simpa using ho1))
        · exact IGood.gMulop hc hr (hd.2 (by simpa using ho1))
    · rw [if_neg hc] at hx
      simp only [Option.some.injEq] at hx
      subst hx
      exact ⟨hok, fun _ hr => hr⟩

theorem itext_factor {F : Type} (L : Locale) {f : Sym F}
    (hf : ReturnsText L (IGood L .factor) f) (hg : SymGrows f) :
    ReturnsText L (IGood L .factor) (symFactor integrateRules L f) := by
  intro p x hok hx
  unfold symFactor at hx
  cases ht1 : f p with
  | none => simp [ht1] at hx
  | some y =>
    obtain ⟨r, p1⟩ := y
    rw [ht1] at hx
    simp only [] at hx
    have hd := hf _ _ hok ht1
    have hi := itext_factorLoop L hf hg _ _ _ _ hd.1 hx
    refine ⟨hi.1, fun hno => ?_⟩
    have hg1 := (hg _ _ ht1).1
    have hg2 := (symFactorLoop_grows _ L hg _ _ _ _ hx).1
    obtain ⟨ho1, ho2⟩ := output_mid hg1 hg2 hno
    exact hi.2 ho2 (hd.2 ho1)

theorem itext_termLoop {F : Type} (L : Locale) {f : Sym F}
    (hf : ReturnsText L (IGood L .factor) f) (hg : SymGrows f) (k : Nat) :
    ∀ (r : List Nat) (p : ExpressionParser F) (x : List Nat × ExpressionParser F),
    TokenOk L p → symTermLoop L f k r p = some x →
    TokenOk L x.2 ∧ (x.2.output = p.output → IGood L .term r → IGood L .term x.1) := by
  induction k with
  | zero => intro r p x _ hx; simp [symTermLoop] at hx
  | succ k ih =>
    intro r p x hok hx
    unfold symTermLoop at hx
    by_cases hc : deref p.currentToken = 43 ∨ deref p.currentToken = 45
    · rw [if_pos hc] at hx
      cases ht1 : f (parseToken L p) with
      | none => simp [ht1] at hx
      | some y =>
        obtain ⟨t, p1⟩ := y
        rw [ht1] at hx
        simp only [] at hx
        have hd := hf _ _ (tokenOk_parseToken L p) ht1
        have hi := ih _ _ _ hd.1 hx
        refine ⟨hi.1, fun hno hr => ?_⟩
        have hg1 : ∃ l, p1.output = p.output ++ l := by simpa using (hg _ _ ht1).1
        have hg2 := (symTermLoop_grows L hg _ _ _ _ hx).1
        obtain ⟨ho1, ho2⟩ := output_mid hg1 hg2 hno
        exact hi.2 ho2 (IGood.gAddop hc hr (hd.2 (by simpa using ho1)))
    · rw [if_neg hc] at hx
      simp only [Option.some.injEq] at hx
      subst hx
      exact ⟨hok, fun _ hr => hr⟩

theorem itext_termBody {F : Type} (L : Locale) {f : Sym F}
    (hf : ReturnsText L (IGood L .factor) f) (hg : SymGrows f) :
    ReturnsText L (IGood L .term) (symTermBody L f) := by
  intro p x hok hx
  unfold symTermBody at hx
  cases ht1 : f p with
  | none => simp [ht1] at hx
  | some y =>
    obtain ⟨r, p1⟩ := y
    rw [ht1] at hx
    simp only [] at hx
    have hd := hf _ _ hok ht1
    have hi := itext_termLoop L hf hg _ _ _ _ hd.1 hx
    refine ⟨hi.1, fun hno => ?_⟩
    have hg1 := (hg _ _ ht1).1
    have hg2 := (symTermLoop_grows L hg _ _ _ _ hx).1
    obtain ⟨ho1, ho2⟩ := output_mid hg1 hg2 hno
    exact hi.2 ho2 (hd.2 ho1).gToTerm

/-- Whatever the fuel, a `Term` of the integrator that printed nothing returned
a phrase of the grammar over the variables that occur in it, or a text that
contains `^2^`. -/
theorem itext_term {F : Type} (L : Locale) (n : Nat) :
    ReturnsText L (IGood L .term) (symTerm integrateRules L n : Sym F) := by
  induction n with
  | zero => intro p x _ hx; simp [symTerm] at hx
  | succ n ih =>
    unfold symTerm
    have g0 := symTerm_grows (F := F) integrateRules L n
    have d1 := itext_primary L ih g0
    have g1 := symPrimary_grows integrateRules L g0
    have d2 := itext_unary L d1
    have g2 := symUnary_grows L g1
    have d3 := itext_power L d2 g2
    have g3 := symPower_grows integrateRules L g2
    have d4 := itext_factor L d3 g3
    have g4 := symFactor_grows integrateRules L g3
    exact itext_termBody L d4 g4

theorem words_run (v post : List Nat) (hv : v.all (fun d => !isDelimiter d) = true)
    (hp : isDelimiter (deref post) = true) : ∃ ws, words (v ++ post) = v :: ws := by
  induction v with
  | nil =>
    cases post with
    | nil => exact ⟨[], rfl⟩
    | cons d ps =>
      have hd : isDelimiter d = true := by simpa [deref] using hp
      exact ⟨words ps, by simp [words, hd]⟩
  | cons c v ih =>
    simp only [List.all_cons, Bool.and_eq_true, Bool.not_eq_true', Bool.not_eq_eq_eq_not,
      Bool.not_true] at hv
    obtain ⟨ws, hw⟩ := ih (by simpa using hv.2)
    refine ⟨ws, ?_⟩
    rw [List.cons_append, words, if_neg (by simp [hv.1]), hw]

theorem words_after (pre rest : List Nat) (hne : pre ≠ []) (hpre : EndsDelim pre) :
    ∃ ws, words (pre ++ rest) = ws ++ words rest ∧ ws ≠ [] := by
  induction pre with
  | nil => exact absurd rfl hne
  | cons c pre ih =>
    by_cases hn : pre = []
    · subst hn
      have hc : isDelimiter c = true := hpre c rfl
      exact ⟨[[]], by simp [words, hc], by simp⟩
    · have hpre1 : EndsDelim pre := by
        intro d hd
        apply hpre d
        obtain ⟨e, es, he⟩ := List.exists_cons_of_ne_nil hn
        rw [he, List.getLast?_cons_cons, ← he]
        exact hd
      obtain ⟨ws, hw, hws⟩ := ih hn hpre1
      by_cases hc : isDelimiter c = true
      · exact ⟨[] :: ws, by simp [words, hc, hw], by simp⟩
      · cases ws with
        | nil => exact absurd rfl hws
        | cons w ws1 =>
          refine ⟨(c :: w) :: ws1, ?_, by simp⟩
          rw [List.cons_append, words, if_neg hc, hw]
          rfl

/-- A variable that occurs in a text is one of its `variablesOf`. -/
theorem Occurs.mem_variablesOf {L : Locale} {s v : List Nat} (h : Occurs L s v) :
    v ∈ variablesOf L s := by
  obtain ⟨hv, pre, post, rfl, hpre, hpost⟩ := h
  have hall : v.all (fun d => !isDelimiter d) = true := by
    cases v with
    | nil => rfl
    | cons c cs =>
      simp only [isVariableName, Bool.and_eq_true] at hv
      have hc := not_delimiter_of_not_mem (L.alpha_not_delim c hv.1)
      simp only [List.all_cons, hc, Bool.not_false, Bool.true_and]
      exact hv.2
  obtain ⟨ws, hw⟩ := words_run v post hall hpost
  have hmem : v ∈ words (pre ++ (v ++ post)) := by
    by_cases hn : pre = []
    · subst hn
      rw [List.nil_append, hw]
      exact List.mem_cons_self _ _
    · obtain ⟨ws1, hw1, _⟩ := words_after pre (v ++ post) hn hpre
      rw [hw1, hw]
      exact List.mem_append_right _ (List.mem_cons_self _ _)
  exact List.mem_filter.mpr ⟨hmem, hv⟩

/-- C6, as amended. Round trip for integration: for every input on which
`integrate` prints no error and returns a text that does not contain `^2^`
(the end of `0.5*x^2`, the integral of `x`, with an exponent put behind it),
`evaluateExpression` applied to the returned text, with every variable that
occurs in that text bound in the Variable Table, returns a value, prints no
error and leaves the table as it was. -/
theorem integrate_roundTrip {F : Type} (L : Locale) (A : Arith F)
    (this : ExpressionParser F) (expression var s : List Nat) (q : ExpressionParser F)
    (that : ExpressionParser F) (after : List Nat) (env : List Nat → F)
    (h : integrate L this expression var = some (s, q)) (hno : q.output = this.output)
    (hpow : ¬ doublePower <:+: s)
    (hb : ∀ v ∈ variablesOf L s, lookupVariable v that.varTable = some (some (env v))) :
    ∃ v q1, evaluateExpression L A that (cString s after) = some (some v, q1) ∧
      q1.output = that.output ∧ q1.varTable = that.varTable := by
  unfold integrate at h
  rw [integrateTerm_eq] at h
  rcases (itext_term L _ _ _ (tokenOk_parseToken L _) h).2 (by simpa using hno) with hs | hs
  · obtain ⟨e, he⟩ := hs
    have hbind : Binds (Occurs L s) env that.varTable :=
      fun v hv => hb v hv.mem_variablesOf
    refine ⟨refEval A env e, lookAt L that ([] ++ 0 :: after), ?_, ?_, ?_⟩
    · have := evaluateExpression_term L A env that hbind e s [] after he rfl
      simpa using this
    · exact (@lookAt_end F L that [] after rfl).2.2
    · exact (@lookAt_end F L that [] after rfl).2.1
  · exact absurd hs hpow

/-- Witness of C6 as amended: the text `(y*x^(2+1))/(2+1)-0.5*x^2` returned for
`y^2 - x` evaluates without error once `x` and `y` are bound. -/
theorem integrate_roundTrip_witness :
    (integrate cLocale (newParser Int) (cString (wstr "y^2 - x") []) (wstr "x") =
        some (wstr "(y*x^(2+1))/(2+1)-0.5*x^2", lookAt cLocale (newParser Int) [0]) ∧
      (lookAt cLocale (newParser Int) [0]).output = (newParser Int).output ∧
      ¬ doublePower <:+: wstr "(y*x^(2+1))/(2+1)-0.5*x^2" ∧
      ∀ v ∈ variablesOf cLocale (wstr "(y*x^(2+1))/(2+1)-0.5*x^2"),
        lookupVariable v [(wstr "x", some (2 : Int)), (wstr "y", some 3)] =
          some (some (if v = wstr "x" then 2 else 3))) ∧
    ∃ v q1, evaluateExpression cLocale intArith
        { newParser Int with varTable := [(wstr "x", some 2), (wstr "y", some 3)] }
        (cString (wstr "(y*x^(2+1))/(2+1)-0.5*x^2") []) = some (some v, q1) ∧
      q1.output = [] ∧ q1.varTable = [(wstr "x", some 2), (wstr "y", some 3)] :=
  ⟨⟨by rfl, by rfl, by decide, by decide⟩,
    integrate_roundTrip cLocale intArith (newParser Int) (cString (wstr "y^2 - x") [])
      (wstr "x") (wstr "(y*x^(2+1))/(2+1)-0.5*x^2") (lookAt cLocale (newParser Int) [0])
      { newParser Int with varTable := [(wstr "x", some 2), (wstr "y", some 3)] } []
      (fun v => if v = wstr "x" then 2 else 3) (by rfl) (by rfl) (by decide) (by decide)⟩

/-- C6, counterexample. On the input `x^2`, `integrate` prints no error and
returns `(0.5*x^2^(2+1))/(2+1)`; `evaluateExpression` applied to that text, its
only variable `x` bound, prints the errors "Unclosed parenthesis" and "Syntax
error": inside the parenthesis the evaluator reads `0.5*x^2` and then meets the
second `^` where it requires `)`. -/
theorem integrate_roundTrip_counterexample :
    (integrate cLocale (newParser Int) (cString (wstr "x^2") []) (wstr "x")).map
        (fun r => (r.1, r.2.output)) = some (wstr "(0.5*x^2^(2+1))/(2+1)", []) ∧
    variablesOf cLocale (wstr "(0.5*x^2^(2+1))/(2+1)") = [wstr "x"] ∧
    (evaluateExpression cLocale intArith
        { newParser Int with varTable := [(wstr "x", some 3)] }
        (cString (wstr "(0.5*x^2^(2+1))/(2+1)") [])).map (fun r => r.2.output) =
      some [1, 0] :=
  ⟨by rfl, by rfl, by rfl⟩
/-! ### C11: a token left after the `Term` -/

/-- What `evaluateExpression` does on a `Term` of the grammar followed by a
token that neither is an operator nor ends the text (a number, a name or a
parenthesis): it returns the value of the `Term` and prints "Syntax error",
once. -/
theorem evaluateExpression_afterTerm {F : Type} (L : Locale) (A : Arith F)
    (env : List Nat → F) (this : ExpressionParser F) {V : List Nat → Prop}
    (hb : Binds V env this.varTable) (e : Expr) (s rest : List Nat)
    (h : Renders L V .term e s)
    (hr : NextNot L this rest [61, 94, 42, 47, 37, 43, 45, 0]) :
    evaluateExpression L A this (s ++ rest) =
      some (some (refEval A env e), syntaxError 0 (lookAt L this rest)) ∧
    (syntaxError 0 (lookAt L this rest)).output = this.output ++ [0] := by
  obtain ⟨⟨t, h1⟩, h2⟩ := evalSpec_of_renders L A env this hb h rest none
    (hr.mono (by intro c hc; simp at hc ⊢; omega))
  have h43 := hr.2 43 (by simp)
  have h45 := hr.2 45 (by simp)
  have h0 := hr.2 0 (by simp)
  refine ⟨?_, by simp [syntaxError, lookAt]⟩
  rw [evaluateExpression_eq]
  rw [show parseToken L { this with expressionPointer := s ++ rest } =
    lookAt L this (s ++ rest) from rfl]
  rw [if_neg h2, h1, evalTermLoop_eq]
  have hno : ¬(deref (lookAt L this rest).currentToken = 43 ∨
      deref (lookAt L this rest).currentToken = 45) := by
    intro hh; rcases hh with hh | hh
    · exact h43 hh
    · exact h45 hh
  rw [if_neg hno]
  simp only [ne_eq, h0, not_false_eq_true, if_true]

/-- C11. Whenever the `Term` that `evaluateExpression` evaluates from the first
token of its input leaves a non-empty token (`*currentToken` is not NUL after
`evaluateTerm`), `evaluateExpression` prints "Syntax error" (code 0), after
whatever `evaluateTerm` printed, and returns what `evaluateTerm` left in
`result`. -/
theorem evaluateExpression_trailing {F : Type} (L : Locale) (A : Arith F)
    (this : ExpressionParser F) (expression : List Nat) (r : Option F)
    (p1 : ExpressionParser F)
    (h1 : deref (lookAt L this expression).currentToken ≠ 0)
    (h2 : evalTerm L A none (lookAt L this expression) = some (r, p1))
    (h3 : deref p1.currentToken ≠ 0) :
    evaluateExpression L A this expression = some (r, syntaxError 0 p1) ∧
    ∃ l, (syntaxError 0 p1).output = this.output ++ l ++ [0] := by
  constructor
  · rw [evaluateExpression_eq]
    rw [show parseToken L { this with expressionPointer := expression } =
      lookAt L this expression from rfl]
    rw [if_neg h1, h2]
    simp only [ne_eq, h3, not_false_eq_true, if_true]
  · obtain ⟨l, hl⟩ := evalTerm_grows L A _ _ _ h2
    refine ⟨l, ?_⟩
    simp only [syntaxError]
    rw [hl]
    simp [lookAt]

/-- Witness of C11: `2 3` leaves the token `3`, `2^3^2` leaves the second `^`. -/
theorem evaluateExpression_trailing_witness :
    (evaluateExpression cLocale intArith (newParser Int) (cString (wstr "2 3") []) =
        some (some 2, syntaxError 0 { newParser Int with
          expressionPointer := [0], currentToken := wstr "3", tokenType := NUMBER }) ∧
      ∃ l, (syntaxError 0 { newParser Int with
          expressionPointer := [0], currentToken := wstr "3", tokenType := NUMBER }).output =
        (newParser Int).output ++ l ++ [0]) ∧
    (evaluateExpression cLocale intArith (newParser Int) (cString (wstr "2^3^2") []) =
        some (some 8, syntaxError 0 { newParser Int with
          expressionPointer := [50, 0], currentToken := wstr "^", tokenType := DELIMITER }) ∧
      ∃ l, (syntaxError 0 { newParser Int with
          expressionPointer := [50, 0], currentToken := wstr "^", tokenType := DELIMITER }).output =
        (newParser Int).output ++ l ++ [0]) :=
  ⟨evaluateExpression_trailing cLocale intArith (newParser Int) (cString (wstr "2 3") [])
      (some 2) _ (by decide) (by rfl) (by decide),
    evaluateExpression_trailing cLocale intArith (newParser Int) (cString (wstr "2^3^2") [])
      (some 8) _ (by decide) (by rfl) (by decide)⟩
/-! ### Invariants of the evaluator -/

theorem findVariable_keeps {F : Type} {L : Locale} {J : ExpressionParser F → Prop}
    {R : ExpressionParser F → ExpressionParser F → Prop} (hc : Closed L J R) (A : Arith F)
    (v : List Nat) (p : ExpressionParser F) (hp : J p) :
    J (findVariable A v p).2 ∧ R p (findVariable A v p).2 := by
  unfold findVariable
  split
  · exact hc.err 0 p (Or.inl rfl) hp
  · exact ⟨hp, hc.refl p⟩

theorem evaluatePrimary_keeps {F : Type} {L : Locale} {J : ExpressionParser F → Prop}
    {R : ExpressionParser F → ExpressionParser F → Prop} (hc : Closed L J R) (A : Arith F)
    {t : Eval F} (h : Keeps J R t) : Keeps J R (evaluatePrimary L A t) := by
  intro r p x hp hx
  unfold evaluatePrimary at hx
  have h1 := hc.parse p hp
  by_cases h40 : deref p.currentToken = 40
  · rw [if_pos h40] at hx
    cases ht : t r (parseToken L p) with
    | none => simp [ht] at hx
    | some y =>
      rw [ht] at hx
      obtain ⟨hj, hr⟩ := h _ _ _ h1.1 ht
      simp only [Option.some.injEq] at hx
      subst hx
      by_cases h41 : deref y.2.currentToken ≠ 41
      · rw [if_pos h41]
        have h2 := hc.err 1 y.2 (Or.inr rfl) hj
        have h3 := hc.parse _ h2.1
        exact ⟨h3.1, hc.trans _ _ _ h1.2 (hc.trans _ _ _ hr (hc.trans _ _ _ h2.2 h3.2))⟩
      · rw [if_neg h41]
        have h3 := hc.parse _ hj
        exact ⟨h3.1, hc.trans _ _ _ h1.2 (hc.trans _ _ _ hr h3.2)⟩
  · rw [if_neg h40] at hx
    cases hty : p.tokenType with
    | NUMBER =>
      simp only [hty, Option.some.injEq] at hx
      subst hx
      exact h1
    | VARIABLE =>
      simp only [hty] at hx
      have h2 := hc.parse _ h1.1
      by_cases h61 : deref (parseToken L p).currentToken = 61
      · rw [if_pos h61] at hx
        cases ht : t r (parseToken L (parseToken L p)) with
        | none => simp [ht] at hx
        | some y =>
          rw [ht] at hx
          obtain ⟨hj, hr⟩ := h _ _ _ h2.1 ht
          simp only [Option.some.injEq] at hx
          subst hx
          have h3 := hc.assign p.currentToken y.1 _ y.2 h1.1 h61 hj
          exact ⟨h3.1, hc.trans _ _ _ h1.2 (hc.trans _ _ _ h2.2 (hc.trans _ _ _ hr h3.2))⟩
      · rw [if_neg h61] at hx
        simp only [Option.some.injEq] at hx
        subst hx
        have h3 := findVariable_keeps hc A p.currentToken _ h1.1
        exact ⟨h3.1, hc.trans _ _ _ h1.2 h3.2⟩
    | DELIMITER =>
      simp only [hty, Option.some.injEq] at hx
      subst hx
      exact hc.err 0 p (Or.inl rfl) hp
    | UNKNOWN =>
      simp only [hty, Option.some.injEq] at hx
      subst hx
      exact hc.err 0 p (Or.inl rfl) hp

theorem evaluateUnary_keeps {F : Type} {L : Locale} {J : ExpressionParser F → Prop}
    {R : ExpressionParser F → ExpressionParser F → Prop} (hc : Closed L J R) (A : Arith F)
    {f : Eval F} (h : Keeps J R f) : Keeps J R (evaluateUnary L A f) := by
  intro r p x hp hx
  unfold evaluateUnary at hx
  by_cases h1 : p.tokenType = DELIMITER ∧ (deref p.currentToken = 43 ∨ deref p.currentToken = 45)
  · rw [if_pos h1] at hx
    have h2 := hc.parse p hp
    cases ht : f r (parseToken L p) with
    | none => simp [ht] at hx
    | some y =>
      rw [ht] at hx
      obtain ⟨hj, hr⟩ := h _ _ _ h2.1 ht
      simp only [Option.some.injEq] at hx
      subst hx
      exact ⟨hj, hc.trans _ _ _ h2.2 hr⟩
  · rw [if_neg h1] at hx; exact h _ _ _ hp hx

theorem evaluatePower_keeps {F : Type} {L : Locale} {J : ExpressionParser F → Prop}
    {R : ExpressionParser F → ExpressionParser F → Prop} (hc : Closed L J R) (A : Arith F)
    {f : Eval F} (h : Keeps J R f) : Keeps J R (evaluatePower L A f) := by
  intro r p x hp hx
  unfold evaluatePower at hx
  cases ht : f r p with
  | none => simp [ht] at hx
  | some y =>
    rw [ht] at hx
    obtain ⟨hj, hr⟩ := h _ _ _ hp ht
    simp only [] at hx
    by_cases h94 : deref y.2.currentToken = 94
    · rw [if_pos h94] at hx
      have h2 := hc.parse _ hj
      cases ht2 : f none (parseToken L y.2) with
      | none => simp [ht2] at hx
      | some z =>
        rw [ht2] at hx
        obtain ⟨hj2, hr2⟩ := h _ _ _ h2.1 ht2
        simp only [Option.some.injEq] at hx
        subst hx
        exact ⟨hj2, hc.trans _ _ _ hr (hc.trans _ _ _ h2.2 hr2)⟩
    · rw [if_neg h94] at hx
      simp only [Option.some.injEq] at hx
      subst hx
      exact ⟨hj, hr⟩
theorem evaluateFactorLoop_keeps {F : Type} {L : Locale} {J : ExpressionParser F → Prop}
    {R : ExpressionParser F → ExpressionParser F → Prop} (hc : Closed L J R) (A : Arith F)
    {f : Eval F} (h : Keeps J R f) (k : Nat) : ∀ (r t : Option F) (p : ExpressionParser F)
    (x : Option F × ExpressionParser F), J p →
    evaluateFactorLoop L A f k r t p = some x → J x.2 ∧ R p x.2 := by
  induction k with
  | zero => intro r t p x _ hx; simp [evaluateFactorLoop] at hx
  | succ k ih =>
    intro r t p x hp hx
    unfold evaluateFactorLoop at hx
    by_cases h1 : deref p.currentToken = 42 ∨ deref p.currentToken = 47 ∨
        deref p.currentToken = 37
    · rw [if_pos h1] at hx
      have h2 := hc.parse p hp
      cases ht : f t (parseToken L p) with
      | none => simp [ht] at hx
      | some y =>
        rw [ht] at hx
        obtain ⟨hj, hr⟩ := h _ _ _ h2.1 ht
        obtain ⟨hj2, hr2⟩ := ih _ _ _ _ hj hx
        exact ⟨hj2, hc.trans _ _ _ h2.2 (hc.trans _ _ _ hr hr2)⟩
    · rw [if_neg h1] at hx
      simp only [Option.some.injEq] at hx
      subst hx
      exact ⟨hp, hc.refl p⟩

theorem evaluateFactor_keeps {F : Type} {L : Locale} {J : ExpressionParser F → Prop}
    {R : ExpressionParser F → ExpressionParser F → Prop} (hc : Closed L J R) (A : Arith F)
    {f : Eval F} (h : Keeps J R f) : Keeps J R (evaluateFactor L A f) := by
  intro r p x hp hx
  unfold evaluateFactor at hx
  cases ht : f r p with
  | none => simp [ht] at hx
  | some y =>
    rw [ht] at hx
    obtain ⟨hj, hr⟩ := h _ _ _ hp ht
    obtain ⟨hj2, hr2⟩ := evaluateFactorLoop_keeps hc A h _ _ _ _ _ hj hx
    exact ⟨hj2, hc.trans _ _ _ hr hr2⟩

theorem evaluateTermLoop_keeps {F : Type} {L : Locale} {J : ExpressionParser F → Prop}
    {R : ExpressionParser F → ExpressionParser F → Prop} (hc : Closed L J R) (A : Arith F)
    {f : Eval F} (h : Keeps J R f) (k : Nat) : ∀ (r t : Option F) (p : ExpressionParser F)
    (x : Option F × ExpressionParser F), J p →
    evaluateTermLoop L A f k r t p = some x → J x.2 ∧ R p x.2 := by
  induction k with
  | zero => intro r t p x _ hx; simp [evaluateTermLoop] at hx
  | succ k ih =>
    intro r t p x hp hx
    unfold evaluateTermLoop at hx
    by_cases h1 : deref p.currentToken = 43 ∨ deref p.currentToken = 45
    · rw [if_pos h1] at hx
      have h2 := hc.parse p hp
      cases ht : f t (parseToken L p) with
      | none => simp [ht] at hx
      | some y =>
        rw [ht] at hx
        obtain ⟨hj, hr⟩ := h _ _ _ h2.1 ht
        obtain ⟨hj2, hr2⟩ := ih _ _ _ _ hj hx
        exact ⟨hj2, hc.trans _ _ _ h2.2 (hc.trans _ _ _ hr hr2)⟩
    · rw [if_neg h1] at hx
      simp only [Option.some.injEq] at hx
      subst hx
      exact ⟨hp, hc.refl p⟩

theorem evaluateTermBody_keeps {F : Type} {L : Locale} {J : ExpressionParser F → Prop}
    {R : ExpressionParser F → ExpressionParser F → Prop} (hc : Closed L J R) (A : Arith F)
    {f : Eval F} (h : Keeps J R f) : Keeps J R (evaluateTermBody L A f) := by
  intro r p x hp hx
  unfold evaluateTermBody at hx
  cases ht : f r p with
  | none => simp [ht] at hx
  | some y =>
    rw [ht] at hx
    obtain ⟨hj, hr⟩ := h _ _ _ hp ht
    obtain ⟨hj2, hr2⟩ := evaluateTermLoop_keeps hc A h _ _ _ _ _ hj hx
    exact ⟨hj2, hc.trans _ _ _ hr hr2⟩

/-- Whatever every step of the evaluator keeps, `evaluateTerm` keeps. -/
theorem evaluateTerm_keeps {F : Type} {L : Locale} {J : ExpressionParser F → Prop}
    {R : ExpressionParser F → ExpressionParser F → Prop} (hc : Closed L J R) (A : Arith F)
    (n : Nat) : Keeps J R (evaluateTerm L A n) := by
  induction n with
  | zero => intro r p x _ hx; simp [evaluateTerm] at hx
  | succ n ih =>
    unfold evaluateTerm
    exact evaluateTermBody_keeps hc A (evaluateFactor_keeps hc A (evaluatePower_keeps hc A
      (evaluateUnary_keeps hc A (evaluatePrimary_keeps hc A ih))))

/-- Whatever every step of the evaluator keeps, `evaluateExpression` keeps
from its first token on, when it does not print "No expression". -/
theorem evaluateExpression_keeps {F : Type} {L : Locale} {J : ExpressionParser F → Prop}
    {R : ExpressionParser F → ExpressionParser F → Prop} (hc : Closed L J R) (A : Arith F)
    (this : ExpressionParser F) (expression : List Nat)
    (x : Option F × ExpressionParser F)
    (hp : J (lookAt L this expression))
    (h0 : deref (lookAt L this expression).currentToken ≠ 0)
    (hx : evaluateExpression L A this expression = some x) :
    J x.2 ∧ R (lookAt L this expression) x.2 := by
  unfold evaluateExpression at hx
  simp only [] at hx
  have h0' : ¬ deref (parseToken L { this with expressionPointer := expression }).currentToken
      = 0 := h0
  rw [if_neg h0'] at hx
  cases ht : evaluateTerm L A (expression.length + 1) none
      (parseToken L { this with expressionPointer := expression }) with
  | none => simp [ht] at hx
  | some y =>
    rw [ht] at hx
    obtain ⟨hj, hr⟩ := evaluateTerm_keeps hc A _ _ _ _ hp ht
    simp only [Option.some.injEq] at hx
    subst hx
    by_cases hz : deref y.2.currentToken ≠ 0
    · rw [if_pos hz]
      have h2 := hc.err 0 y.2 (Or.inl rfl) hj
      exact ⟨h2.1, hc.trans _ _ _ hr h2.2⟩
    · rw [if_neg hz]
      exact ⟨hj, hr⟩

theorem closed_printedErrors {F : Type} (L : Locale) :
    Closed L (fun _ : ExpressionParser F => True) PrintedErrors where
  refl := fun p => ⟨[], by simp, by simp⟩
  trans := by
    rintro p q s ⟨l1, h1, g1⟩ ⟨l2, h2, g2⟩
    refine ⟨l1 ++ l2, by rw [h2, h1, List.append_assoc], ?_⟩
    intro c hc
    rcases List.mem_append.mp hc with hc | hc
    · exact g1 c hc
    · exact g2 c hc
  parse := fun p _ => ⟨trivial, [], by simp, by simp⟩
  err := by
    intro e p he _
    exact ⟨trivial, [e], rfl, by simpa using he⟩
  assign := fun v r p1 p3 _ _ _ => ⟨trivial, [], by simp [assignVariable], by simp⟩
/-! ### C12: the value returned when an error is reported -/

/-- C12, as amended. For every input on which `evaluateExpression` prints
"No expression" (code 2), the value it returns is 0.0, and that message is all
it prints. (After "Syntax error" or "Unclosed parenthesis" it returns what
`evaluateTerm` left in `result`.) -/
theorem evaluateExpression_emptyDefault {F : Type} (L : Locale) (A : Arith F)
    (this : ExpressionParser F) (expression : List Nat) (v : Option F)
    (q : ExpressionParser F) (l : List Nat)
    (h : evaluateExpression L A this expression = some (v, q))
    (hl : q.output = this.output ++ l) (h2 : 2 ∈ l) :
    v = some A.zero ∧ l = [2] := by
  by_cases h0 : deref (lookAt L this expression).currentToken = 0
  · unfold evaluateExpression at h
    simp only [] at h
    have h0' : deref (parseToken L { this with expressionPointer := expression }).currentToken
        = 0 := h0
    rw [if_pos h0'] at h
    simp only [Option.some.injEq, Prod.mk.injEq] at h
    obtain ⟨hv, hq⟩ := h
    subst hq
    simp only [syntaxError, parseToken_output] at hl
    exact ⟨hv.symm, (List.append_cancel_left hl).symm⟩
  · obtain ⟨_, l1, h1, g1⟩ := evaluateExpression_keeps (closed_printedErrors L) A this expression
      (v, q) trivial h0 h
    simp only [lookAt, parseToken_output] at h1
    rw [hl] at h1
    have := List.append_cancel_left h1
    subst this
    rcases g1 2 h2 with h3 | h3 <;> omega

/-- Witness of C12 as amended: the empty input. -/
theorem evaluateExpression_emptyDefault_witness :
    (evaluateExpression cLocale intArith (newParser Int) (cString [] []) =
        some (some 0, syntaxError 2 (lookAt cLocale (newParser Int) [0])) ∧
      (syntaxError 2 (lookAt cLocale (newParser Int) [0])).output =
        (newParser Int).output ++ [2] ∧ 2 ∈ [2]) ∧
    (some (0 : Int) = some intArith.zero ∧ [2] = [2]) :=
  ⟨⟨by rfl, by rfl, by decide⟩,
    evaluateExpression_emptyDefault cLocale intArith (newParser Int) (cString [] []) (some 0)
      (syntaxError 2 (lookAt cLocale (newParser Int) [0])) [2] (by rfl) (by rfl) (by decide)⟩

/-- C12, counterexample. On `2 3` the evaluator prints "Syntax error" and
returns 2; on `(2` it prints "Unclosed parenthesis" and returns 2: in neither
case 0.0. -/
theorem evaluateExpression_errorValue_counterexample :
    (evaluateExpression cLocale intArith (newParser Int) (cString (wstr "2 3") [])).map
        (fun r => (r.1, r.2.output)) = some (some 2, [0]) ∧
    (evaluateExpression cLocale intArith (newParser Int) (cString (wstr "(2") [])).map
        (fun r => (r.1, r.2.output)) = some (some 2, [1]) ∧
    (2 : Int) ≠ intArith.zero :=
  ⟨by rfl, by rfl, by decide⟩
/-! ### C13: two runs of a symbolic mode -/

theorem SameCursor.afterParse {F : Type} (L : Locale) {p q : ExpressionParser F}
    (h : SameCursor p q) : SameCursor (parseToken L p) (parseToken L q) := by
  obtain ⟨h1, _, _⟩ := h
  simp only [SameCursor, parseToken, h1]
  split_ifs <;> exact ⟨rfl, rfl, rfl⟩

theorem Alike.start {F : Type} {p q : ExpressionParser F} (h : SameCursor p q) :
    Alike p q p q :=
  ⟨h, [], by simp, by simp⟩

theorem Alike.thenParse {F : Type} (L : Locale) {p q x y : ExpressionParser F}
    (h : Alike p q x y) : Alike p q (parseToken L x) (parseToken L y) := by
  obtain ⟨hs, l, h1, h2⟩ := h
  exact ⟨hs.afterParse L, l, by simpa using h1, by simpa using h2⟩

theorem Alike.error {F : Type} (e : Nat) {p q x y : ExpressionParser F}
    (h : Alike p q x y) : Alike p q (syntaxError e x) (syntaxError e y) := by
  obtain ⟨hs, l, h1, h2⟩ := h
  exact ⟨hs, l ++ [e], by simp [syntaxError, h1], by simp [syntaxError, h2]⟩

theorem Alike.step {F : Type} {p q x y u v : ExpressionParser F}
    (h1 : Alike p q x y) (h2 : Alike x y u v) : Alike p q u v := by
  obtain ⟨_, l1, a1, b1⟩ := h1
  obtain ⟨hs, l2, a2, b2⟩ := h2
  exact ⟨hs, l1 ++ l2, by rw [a2, a1, List.append_assoc], by rw [b2, b1, List.append_assoc]⟩

theorem symPrimary_alike {F : Type} (R : SymRules) (L : Locale) {t : Sym F}
    (h : SymAlike t) : SymAlike (symPrimary R L t) := by
  intro p q x hs hx
  unfold symPrimary at hx ⊢
  obtain ⟨hptr, htok, hty⟩ := hs
  have hs : SameCursor p q := ⟨hptr, htok, hty⟩
  rw [← htok, ← hty]
  by_cases h40 : deref p.currentToken = 40
  · rw [if_pos h40] at hx ⊢
    cases ht : t (parseToken L p) with
    | none => simp [ht] at hx
    | some z =>
      rw [ht] at hx
      obtain ⟨y, hy, hy1, hy2⟩ := h _ _ _ (hs.afterParse L) ht
      rw [hy]
      simp only [Option.some.injEq] at hx ⊢
      subst hx
      refine ⟨_, rfl, by simp only [hy1], ?_⟩
      have hy3 : Alike p q z.2 y.2 :=
        ⟨hy2.1, by simpa using hy2.2⟩
      rw [← hy2.1.2.1]
      by_cases h41 : deref z.2.currentToken ≠ 41
      · rw [if_pos h41, if_pos h41]
        exact (hy3.error 1).thenParse L
      · rw [if_neg h41, if_neg h41]
        exact hy3.thenParse L
  · rw [if_neg h40] at hx ⊢
    cases hk : p.tokenType with
    | NUMBER =>
      simp only [hk, Option.some.injEq] at hx ⊢
      subst hx
      exact ⟨_, rfl, rfl, (Alike.start hs).thenParse L⟩
    | VARIABLE =>
      simp only [hk, Option.some.injEq] at hx ⊢
      subst hx
      exact ⟨_, rfl, rfl, (Alike.start hs).thenParse L⟩
    | DELIMITER =>
      simp only [hk, Option.some.injEq] at hx ⊢
      subst hx
      exact ⟨_, rfl, rfl, (Alike.start hs).error 0⟩
    | UNKNOWN =>
      simp only [hk, Option.some.injEq] at hx ⊢
      subst hx
      exact ⟨_, rfl, rfl, (Alike.start hs).error 0⟩

theorem symUnary_alike {F : Type} (L : Locale) {f : Sym F}
    (h : SymAlike f) : SymAlike (symUnary L f) := by
  intro p q x hs hx
  unfold symUnary at hx ⊢
  obtain ⟨hptr, htok, hty⟩ := hs
  have hs : SameCursor p q := ⟨hptr, htok, hty⟩
  rw [← htok, ← hty]
  by_cases h1 : p.tokenType = DELIMITER ∧ (deref p.currentToken = 43 ∨ deref p.currentToken = 45)
  · rw [if_pos h1] at hx ⊢
    cases ht : f (parseToken L p) with
    | none => simp [ht] at hx
    | some z =>
      rw [ht] at hx
      obtain ⟨y, hy, hy1, hy2⟩ := h _ _ _ (hs.afterParse L) ht
      rw [hy]
      simp only [Option.some.injEq] at hx ⊢
      subst hx
      exact ⟨_, rfl, by simp only [hy1], hy2.1, by simpa using hy2.2⟩
  · rw [if_neg h1] at hx ⊢
    exact h _ _ _ hs hx

theorem symPower_alike {F : Type} (R : SymRules) (L : Locale) {f : Sym F}
    (h : SymAlike f) : SymAlike (symPower R L f) := by
  intro p q x hs hx
  unfold symPower at hx ⊢
  cases ht : f p with
  | none => simp [ht] at hx
  | some z =>
    rw [ht] at hx
    obtain ⟨y, hy, hy1, hy2⟩ := h _ _ _ hs ht
    rw [hy]
    simp only [] at hx ⊢
    rw [← hy2.1.2.1]
    by_cases h94 : deref z.2.currentToken = 94
    · rw [if_pos h94] at hx ⊢
      cases ht2 : f (parseToken L z.2) with
      | none => simp [ht2] at hx
      | some z2 =>
        rw [ht2] at hx
        obtain ⟨y2, hy', hy1', hy2'⟩ := h _ _ _ (hy2.1.afterParse L) ht2
        rw [hy']
        simp only [Option.some.injEq] at hx ⊢
        subst hx
        refine ⟨_, rfl, by simp only [hy1, hy1'], ?_⟩
        exact hy2.step ⟨hy2'.1, by simpa using hy2'.2⟩
    · rw [if_neg h94] at hx ⊢
      simp only [Option.some.injEq] at hx ⊢
      subst hx
      exact ⟨_, rfl, hy1, hy2⟩
theorem symFactorLoop_alike {F : Type} (R : SymRules) (L : Locale) {f : Sym F}
    (h : SymAlike f) (k : Nat) : ∀ (r : List Nat) (p q : ExpressionParser F)
    (x : List Nat × ExpressionParser F), SameCursor p q →
    symFactorLoop R L f k r p = some x →
    ∃ y, symFactorLoop R L f k r q = some y ∧ y.1 = x.1 ∧ Alike p q x.2 y.2 := by
  induction k with
  | zero => intro r p q x _ hx; simp [symFactorLoop] at hx
  | succ k ih =>
    intro r p q x hs hx
    unfold symFactorLoop at hx ⊢
    rw [← hs.2.1]
    by_cases hc : deref p.currentToken = 42 ∨ deref p.currentToken = 47 ∨
        deref p.currentToken = 37
    · rw [if_pos hc] at hx ⊢
      cases ht : f (parseToken L p) with
      | none => simp [ht] at hx
      | some z =>
        rw [ht] at hx
        obtain ⟨y, hy, hy1, hy2⟩ := h _ _ _ (hs.afterParse L) ht
        rw [hy]
        simp only [] at hx ⊢
        rw [hy1]
        obtain ⟨y2, hy', hy1', hy2'⟩ := ih _ _ _ _ hy2.1 hx
        refine ⟨y2, hy', hy1', ?_⟩
        have hy3 : Alike p q z.2 y.2 := ⟨hy2.1, by simpa using hy2.2⟩
        exact hy3.step hy2'
    · rw [if_neg hc] at hx ⊢
      simp only [Option.some.injEq] at hx ⊢
      subst hx
      exact ⟨_, rfl, rfl, Alike.start hs⟩

theorem symFactor_alike {F : Type} (R : SymRules) (L : Locale) {f : Sym F}
    (h : SymAlike f) : SymAlike (symFactor R L f) := by
  intro p q x hs hx
  unfold symFactor at hx ⊢
  cases ht : f p with
  | none => simp [ht] at hx
  | some z =>
    rw [ht] at hx
    obtain ⟨y, hy, hy1, hy2⟩ := h _ _ _ hs ht
    rw [hy]
    simp only [] at hx ⊢
    rw [hy1, ← hy2.1.1]
    obtain ⟨y2, hy', hy1', hy2'⟩ := symFactorLoop_alike R L h _ _ _ _ _ hy2.1 hx
    exact ⟨y2, hy', hy1', hy2.step hy2'⟩

theorem symTermLoop_alike {F : Type} (L : Locale) {f : Sym F}
    (h : SymAlike f) (k : Nat) : ∀ (r : List Nat) (p q : ExpressionParser F)
    (x : List Nat × ExpressionParser F), SameCursor p q →
    symTermLoop L f k r p = some x →
    ∃ y, symTermLoop L f k r q = some y ∧ y.1 = x.1 ∧ Alike p q x.2 y.2 := by
  induction k with
  | zero => intro r p q x _ hx; simp [symTermLoop] at hx
  | succ k ih =>
    intro r p q x hs hx
    unfold symTermLoop at hx ⊢
    rw [← hs.2.1]
    by_cases hc : deref p.currentToken = 43 ∨ deref p.currentToken = 45
    · rw [if_pos hc] at hx ⊢
      cases ht : f (parseToken L p) with
      | none => simp [ht] at hx
      | some z =>
        rw [ht] at hx
        obtain ⟨y, hy, hy1, hy2⟩ := h _ _ _ (hs.afterParse L) ht
        rw [hy]
        simp only [] at hx ⊢
        rw [hy1]
        obtain ⟨y2, hy', hy1', hy2'⟩ := ih _ _ _ _ hy2.1 hx
        refine ⟨y2, hy', hy1', ?_⟩
        have hy3 : Alike p q z.2 y.2 := ⟨hy2.1, by simpa using hy2.2⟩
        exact hy3.step hy2'
    · rw [if_neg hc] at hx ⊢
      simp only [Option.some.injEq] at hx ⊢
      subst hx
      exact ⟨_, rfl, rfl, Alike.start hs⟩

theorem symTermBody_alike {F : Type} (L : Locale) {f : Sym F}
    (h : SymAlike f) : SymAlike (symTermBody L f) := by
  intro p q x hs hx
  unfold symTermBody at hx ⊢
  cases ht : f p with
  | none => simp [ht] at hx
  | some z =>
    rw [ht] at hx
    obtain ⟨y, hy, hy1, hy2⟩ := h _ _ _ hs ht
    rw [hy]
    simp only [] at hx ⊢
    rw [hy1, ← hy2.1.1]
    obtain ⟨y2, hy', hy1', hy2'⟩ := symTermLoop_alike L h _ _ _ _ _ hy2.1 hx
    exact ⟨y2, hy', hy1', hy2.step hy2'⟩

theorem symTerm_alike {F : Type} (R : SymRules) (L : Locale) (n : Nat) :
    SymAlike (symTerm R L n : Sym F) := by
  induction n with
  | zero => intro p q x _ hx; simp [symTerm] at hx
  | succ n ih =>
    unfold symTerm
    exact symTermBody_alike L (symFactor_alike R L (symPower_alike R L
      (symUnary_alike L (symPrimary_alike R L ih))))

/-- Two runs of a symbolic mode on the same text, whatever the two object
states held before: both return, the same text, having printed the same, and
leave their Variable Tables. -/
theorem walkTerm_textOnly {F : Type} (R : SymRules) (L : Locale)
    (this1 this2 : ExpressionParser F) (expression : List Nat) :
    ∃ s q1 q2 l, walkTerm R L (lookAt L this1 expression) = some (s, q1) ∧
      walkTerm R L (lookAt L this2 expression) = some (s, q2) ∧
      q1.output = this1.output ++ l ∧ q2.output = this2.output ++ l ∧
      q1.varTable = this1.varTable ∧ q2.varTable = this2.varTable := by
  obtain ⟨x, hx, _⟩ := walkTerm_total R L (inputLeft (lookAt L this1 expression) + 1)
    (lookAt L this1 expression) (Nat.lt_succ_self _)
  have hs : SameCursor (lookAt L this1 expression) (lookAt L this2 expression) := by
    simp only [SameCursor, lookAt, parseToken]
    split_ifs <;> exact ⟨rfl, rfl, rfl⟩
  have hfuel : inputLeft (lookAt L this2 expression) = inputLeft (lookAt L this1 expression) := by
    simp only [inputLeft, hs.1, hs.2.1]
  obtain ⟨y, hy, hy1, hy2, l, hl1, hl2⟩ := symTerm_alike R L _ _ _ _ hs hx
  have g1 := (walkTerm_grows R L _ _ hx).2
  have g2 := (symTerm_grows R L _ _ _ hy).2
  refine ⟨x.1, x.2, y.2, l, hx, ?_, by simpa [lookAt] using hl1, by simpa [lookAt] using hl2,
    by simpa [lookAt] using g1, by simpa [lookAt] using g2⟩
  unfold walkTerm
  rw [hfuel, hy, ← hy1]
/-- On one and the same memory (the text and what the buffer holds behind it)
the symbolic modes do not depend on the variable argument nor on the object
state, its Variable Table included: `differentiate` returns the same text and
prints the same errors, and leaves the Variable Table as it found it; so does
`integrate`; and `differentiate` of `y` with respect to `y` is `0`. -/
theorem symbolic_textOnly {F : Type} (L : Locale) (this1 this2 : ExpressionParser F)
    (expression v1 v2 after : List Nat) :
    (∃ s q1 q2 l, differentiate L this1 expression v1 = some (s, q1) ∧
      differentiate L this2 expression v2 = some (s, q2) ∧
      q1.output = this1.output ++ l ∧ q2.output = this2.output ++ l ∧
      q1.varTable = this1.varTable ∧ q2.varTable = this2.varTable) ∧
    (∃ s q1 q2 l, integrate L this1 expression v1 = some (s, q1) ∧
      integrate L this2 expression v2 = some (s, q2) ∧
      q1.output = this1.output ++ l ∧ q2.output = this2.output ++ l ∧
      q1.varTable = this1.varTable ∧ q2.varTable = this2.varTable) ∧
    ∃ q, differentiate L this1 (cString [121] after) [121] = some ([48], q) ∧
      q.output = this1.output := by
  refine ⟨?_, ?_, ?_⟩
  · simp only [differentiate_eq]
    exact walkTerm_textOnly differentiateRules L this1 this2 expression
  · simp only [integrate_eq]
    exact walkTerm_textOnly integrateRules L this1 this2 expression
  · have ha : isAtom L [121] = true := by
      simp [isAtom, isVariableName, L.alpha_ascii 121 (Or.inr (by decide))]
    refine ⟨lookAt L this1 ([] ++ 0 :: after), ?_, (@lookAt_end F L this1 [] after rfl).2.2⟩
    rw [differentiate_eq]
    have := walkTerm_productChain differentiateRules L this1 [] [121] [] [] after rfl ha rfl rfl
    simp only [chainText, List.nil_append, List.append_nil, List.foldl_nil] at this
    rw [this, atomText_differentiate L ha]
    rfl
/-- C13, failing input. The same text `(2 ` gives different results depending
on what the buffer holds behind its terminating NUL: with nothing behind it
`differentiate` returns `(0)` and `integrate` returns `(2)`; with `+x` behind it
(left there by an earlier, longer line) they read on behind the NUL and return
`(0)+1` and `(2)+0.5*x^2`. Both print "Unclosed parenthesis". -/
theorem differentiate_staleText :
    (differentiate cLocale (newParser Int) (cString (wstr "(2 ") []) (wstr "x")).map
      (fun r => (r.1, r.2.output)) = some (wstr "(0)", [1]) ∧
    (differentiate cLocale (newParser Int) (cString (wstr "(2 ") (wstr "+x")) (wstr "x")).map
      (fun r => (r.1, r.2.output)) = some (wstr "(0)+1", [1]) ∧
    (integrate cLocale (newParser Int) (cString (wstr "(2 ") []) (wstr "x")).map
      (fun r => (r.1, r.2.output)) = some (wstr "(2)", [1]) ∧
    (integrate cLocale (newParser Int) (cString (wstr "(2 ") (wstr "+x")) (wstr "x")).map
      (fun r => (r.1, r.2.output)) = some (wstr "(2)+0.5*x^2", [1]) :=
  ⟨by rfl, by rfl, by rfl, by rfl⟩

/-! ### C14: who writes the Variable Table -/

theorem skipSpace_subset (L : Locale) (l : List Nat) : ∀ c ∈ skipSpace L l, c ∈ l := by
  induction l with
  | nil => intro c hc; simp [skipSpace] at hc
  | cons d ds ih =>
    intro c hc
    unfold skipSpace at hc
    split_ifs at hc
    · exact List.mem_cons_of_mem _ (ih c hc)
    · exact hc

theorem scanToken_subset (l : List Nat) :
    (∀ c ∈ (scanToken l).1, c ∈ l) ∧ ∀ c ∈ (scanToken l).2, c ∈ l := by
  induction l with
  | nil => simp [scanToken]
  | cons d ds ih =>
    unfold scanToken
    split_ifs
    · simp
    · refine ⟨?_, fun c hc => List.mem_cons_of_mem _ (ih.2 c hc)⟩
      intro c hc
      rcases List.mem_cons.mp hc with hc | hc
      · subst hc; exact List.mem_cons_self _ _
      · exact List.mem_cons_of_mem _ (ih.1 c hc)

theorem deref_mem (l : List Nat) : deref l = 0 ∨ deref l ∈ l := by
  cases l with
  | nil => exact Or.inl rfl
  | cons c cs => exact Or.inr (List.mem_cons_self _ _)

/-- The token read by `parseToken` and the text left are made of characters
of the text before. -/
theorem parseToken_subset {F : Type} (L : Locale) (p : ExpressionParser F) :
    (∀ c ∈ (parseToken L p).currentToken, c ∈ p.expressionPointer) ∧
    ∀ c ∈ (parseToken L p).expressionPointer, c ∈ p.expressionPointer := by
  have hs := skipSpace_subset L p.expressionPointer
  have hk := scanToken_subset (skipSpace L p.expressionPointer)
  unfold parseToken
  by_cases h0 : deref p.expressionPointer = 0
  · rw [if_pos h0]; simp
  · rw [if_neg h0]
    simp only []
    by_cases hd : wcschr delimiterChars (deref (skipSpace L p.expressionPointer)) = true
    · rw [if_pos hd]
      refine ⟨?_, fun c hc => hs c (List.mem_of_mem_tail hc)⟩
      intro c hc
      simp only [oneChar] at hc
      by_cases hz : deref (skipSpace L p.expressionPointer) = 0
      · rw [if_pos hz] at hc; simp at hc
      · rw [if_neg hz] at hc
        rcases deref_mem (skipSpace L p.expressionPointer) with h1 | h1
        · exact absurd h1 hz
        · simp only [List.mem_singleton] at hc
          subst hc
          exact hs _ h1
    · rw [if_neg hd]
      by_cases ha : L.iswalpha (deref (skipSpace L p.expressionPointer)) = true
      · rw [if_pos ha]
        exact ⟨fun c hc => hs c (hk.1 c hc), fun c hc => hs c (hk.2 c hc)⟩
      · rw [if_neg ha]
        by_cases hg : L.iswdigit (deref (skipSpace L p.expressionPointer)) = true
        · rw [if_pos hg]
          exact ⟨fun c hc => hs c (hk.1 c hc), fun c hc => hs c (hk.2 c hc)⟩
        · rw [if_neg hg]
          exact ⟨by simp, fun c hc => hs c hc⟩

theorem closed_noAssign {F : Type} (L : Locale) :
    Closed L (NoAssign : ExpressionParser F → Prop) SameTable where
  refl := fun _ => rfl
  trans := fun p q s h1 h2 => by unfold SameTable at *; rw [h2, h1]
  parse := by
    intro p hp
    have hsub := parseToken_subset L p
    refine ⟨⟨fun h => hp.1 (hsub.2 61 h), ?_⟩, parseToken_varTable L p⟩
    intro h
    rcases deref_mem (parseToken L p).currentToken with h1 | h1
    · omega
    · rw [h] at h1; exact hp.1 (hsub.1 61 h1)
  err := fun e p _ hp => ⟨hp, rfl⟩
  assign := fun v r p1 p3 h1 h61 _ => absurd h61 h1.2

/-- When neither the text nor what the buffer holds behind it contains `=`,
`evaluateExpression` leaves the Variable Table as it was, whether it prints an
error or not. -/
theorem evaluateExpression_noAssign {F : Type} (L : Locale) (A : Arith F)
    (this : ExpressionParser F) (s after : List Nat) (hs : 61 ∉ s) (ha : 61 ∉ after) :
    ∃ v q, evaluateExpression L A this (cString s after) = some (v, q) ∧
      q.varTable = this.varTable := by
  by_cases h0 : deref (lookAt L this (cString s after)).currentToken = 0
  · refine ⟨some A.zero, syntaxError 2 (lookAt L this (cString s after)), ?_, by simp [lookAt, syntaxError]⟩
    rw [evaluateExpression_eq]
    exact if_pos h0
  · obtain ⟨x, hx, _⟩ := evalTerm_total L A _ none (lookAt L this (cString s after))
      (Nat.lt_succ_self _)
    have he : evaluateExpression L A this (cString s after) =
        some (x.1, if deref x.2.currentToken ≠ 0 then syntaxError 0 x.2 else x.2) := by
      rw [evaluateExpression_eq]
      rw [show parseToken L { this with expressionPointer := cString s after } =
        lookAt L this (cString s after) from rfl]
      rw [if_neg h0, hx]
    refine ⟨_, _, he, ?_⟩
    have hmem : 61 ∉ cString s after := by
      simp only [cString, List.mem_append, List.mem_cons, not_or]
      exact ⟨hs, by decide, ha⟩
    have hsub := parseToken_subset L { this with expressionPointer := cString s after }
    have hj : NoAssign (lookAt L this (cString s after)) := by
      refine ⟨fun h => hmem (hsub.2 61 h), ?_⟩
      intro h
      rcases deref_mem (lookAt L this (cString s after)).currentToken with h1 | h1
      · omega
      · rw [h] at h1; exact hmem (hsub.1 61 h1)
    have := (evaluateExpression_keeps (closed_noAssign L) A this _ _ hj h0 he).2
    simpa [SameTable, lookAt] using this
/-- C14, failing input. The text `(2 ` contains no `=`. In a buffer that holds
`+y=y+1` behind the terminating NUL of that text (left there by an earlier,
longer line), `evaluateExpression` reads on behind the NUL, evaluates
`y=y+1` and changes the entry of `y` from 1 to 2; it prints "Unclosed
parenthesis" and returns 4. -/
theorem evaluateExpression_staleAssign :
    61 ∉ wstr "(2 " ∧
    (evaluateExpression cLocale intArith
        { newParser Int with varTable := [(wstr "y", some 1)] }
        (cString (wstr "(2 ") (wstr "+y=y+1"))).map
      (fun r => (r.1, r.2.varTable, r.2.output)) =
      some (some 4, [(wstr "y", some 2)], [1]) :=
  ⟨by decide, by rfl⟩

/-! ### C15: the tokens of kind `DELIMITER` -/

/-- White space before the end of the text: `parseToken` skips it, finds the
terminating NUL in the string of delimiters, and steps over it with an empty
token of kind `DELIMITER`. -/
theorem lookAt_blankEnd {F : Type} (L : Locale) (p : ExpressionParser F) (c : Nat)
    (ws after : List Nat) (h : isBlank (c :: ws) = true) :
    lookAt L p (c :: ws ++ 0 :: after) =
      { p with tokenType := DELIMITER, currentToken := [], expressionPointer := after } := by
  obtain ⟨hc, _⟩ := isBlank_cons h
  have h1 : deref (c :: ws ++ 0 :: after) ≠ 0 := by
    simp only [List.cons_append, deref]; omega
  simp only [lookAt, parseToken]
  rw [if_neg h1]
  simp only [skipSpace_blank L _ h, skipSpace_of_not_space L _ L.space_not_nul, deref]
  simp [wcschr, oneChar]

/-- A token of kind `DELIMITER` is one of the nine characters `+ - * / % ^ = ( )`,
or it is empty: the latter when white space was skipped up to a NUL. -/
theorem parseToken_delimiter {F : Type} (L : Locale) (p : ExpressionParser F)
    (h : (parseToken L p).tokenType = DELIMITER) :
    (∃ c ∈ delimiterChars, (parseToken L p).currentToken = [c]) ∨
    ((parseToken L p).currentToken = [] ∧ deref p.expressionPointer ≠ 0 ∧
      deref (skipSpace L p.expressionPointer) = 0) := by
  unfold parseToken at h ⊢
  by_cases h0 : deref p.expressionPointer = 0
  · rw [if_pos h0] at h; cases h
  · rw [if_neg h0] at h ⊢
    simp only [] at h ⊢
    by_cases hd : wcschr delimiterChars (deref (skipSpace L p.expressionPointer)) = true
    · rw [if_pos hd]
      simp only [oneChar]
      by_cases hz : deref (skipSpace L p.expressionPointer) = 0
      · rw [if_pos hz]; exact Or.inr ⟨rfl, h0, hz⟩
      · rw [if_neg hz]
        refine Or.inl ⟨_, ?_, rfl⟩
        rcases (wcschr_delimiterChars _).mp hd with h1 | h1
        · exact absurd h1 hz
        · exact h1
    · rw [if_neg hd] at h
      by_cases ha : L.iswalpha (deref (skipSpace L p.expressionPointer)) = true
      · rw [if_pos ha] at h; cases h
      · rw [if_neg ha] at h
        by_cases hg : L.iswdigit (deref (skipSpace L p.expressionPointer)) = true
        · rw [if_pos hg] at h; cases h
        · rw [if_neg hg] at h; cases h

/-- C15, failing input. On the text made of one blank, `parseToken` produces a
token of kind `DELIMITER` whose text is empty, and leaves the cursor behind the
terminating NUL. -/
theorem parseToken_blank_delimiter :
    (lookAt cLocale (newParser Int) (cString (wstr " ") [55])).tokenType = DELIMITER ∧
    (lookAt cLocale (newParser Int) (cString (wstr " ") [55])).currentToken = [] ∧
    (lookAt cLocale (newParser Int) (cString (wstr " ") [55])).expressionPointer = [55] :=
  ⟨by rfl, by rfl, by rfl⟩
/-! ### C16: the tokens of kind `NUMBER` -/

theorem scanToken_split (l : List Nat) :
    l = (scanToken l).1 ++ (scanToken l).2 ∧ isDelimiter (deref (scanToken l).2) = true := by
  induction l with
  | nil => exact ⟨rfl, by decide⟩
  | cons c cs ih =>
    unfold scanToken
    by_cases h : isDelimiter c = true
    · rw [if_pos h]; exact ⟨rfl, h⟩
    · rw [if_neg h]
      refine ⟨?_, ih.2⟩
      show c :: cs = c :: ((scanToken cs).1 ++ (scanToken cs).2)
      rw [← ih.1]

/-- C16, as amended. A token that `parseToken` classifies as `NUMBER` starts
with a digit and holds no delimiter (blank, tab, carriage return, one of
`+ - * / % ^ = ( )`, NUL); it is the longest such run at the place where the
white space ended: the text there is the token followed by what is left to
read, and what is left to read starts with a delimiter. -/
theorem parseToken_number {F : Type} (L : Locale) (p : ExpressionParser F)
    (h : (parseToken L p).tokenType = NUMBER) :
    (∃ c cs, (parseToken L p).currentToken = c :: cs ∧ L.iswdigit c = true) ∧
    (∀ d ∈ (parseToken L p).currentToken, isDelimiter d = false) ∧
    skipSpace L p.expressionPointer =
      (parseToken L p).currentToken ++ (parseToken L p).expressionPointer ∧
    isDelimiter (deref (parseToken L p).expressionPointer) = true := by
  have hok := (tokenOk_parseToken L p).1 h
  have hsplit := scanToken_split (skipSpace L p.expressionPointer)
  have htok : (parseToken L p).currentToken = (scanToken (skipSpace L p.expressionPointer)).1 ∧
      (parseToken L p).expressionPointer = (scanToken (skipSpace L p.expressionPointer)).2 := by
    unfold parseToken at h ⊢
    by_cases h0 : deref p.expressionPointer = 0
    · rw [if_pos h0] at h; cases h
    · rw [if_neg h0] at h ⊢
      simp only [] at h ⊢
      by_cases hd : wcschr delimiterChars (deref (skipSpace L p.expressionPointer)) = true
      · rw [if_pos hd] at h; cases h
      · rw [if_neg hd] at h ⊢
        by_cases ha : L.iswalpha (deref (skipSpace L p.expressionPointer)) = true
        · rw [if_pos ha] at h; cases h
        · rw [if_neg ha] at h ⊢
          by_cases hg : L.iswdigit (deref (skipSpace L p.expressionPointer)) = true
          · rw [if_pos hg]; exact ⟨rfl, rfl⟩
          · rw [if_neg hg] at h; cases h
  refine ⟨?_, ?_, ?_, ?_⟩
  · cases hc : (parseToken L p).currentToken with
    | nil => rw [hc] at hok; simp [isNumberLiteral] at hok
    | cons c cs =>
      rw [hc] at hok
      simp only [isNumberLiteral, Bool.and_eq_true] at hok
      exact ⟨c, cs, rfl, hok.1⟩
  · rw [htok.1]
    have := scanToken_all (skipSpace L p.expressionPointer)
    simp only [List.all_eq_true, Bool.not_eq_true'] at this
    exact this
  · rw [htok.1, htok.2]; exact hsplit.1
  · rw [htok.2]; exact hsplit.2

/-- Witness of C16 as amended: the token of ` 2.5e+1` is `2.5e`. -/
theorem parseToken_number_witness :
    (lookAt cLocale (newParser Int) (cString (wstr " 2.5e+1") [])).tokenType = NUMBER ∧
    ((∃ c cs, (lookAt cLocale (newParser Int) (cString (wstr " 2.5e+1") [])).currentToken
        = c :: cs ∧ cLocale.iswdigit c = true) ∧
    (∀ d ∈ (lookAt cLocale (newParser Int) (cString (wstr " 2.5e+1") [])).currentToken,
      isDelimiter d = false) ∧
    skipSpace cLocale (cString (wstr " 2.5e+1") []) =
      (lookAt cLocale (newParser Int) (cString (wstr " 2.5e+1") [])).currentToken ++
        (lookAt cLocale (newParser Int) (cString (wstr " 2.5e+1") [])).expressionPointer ∧
    isDelimiter (deref
      (lookAt cLocale (newParser Int) (cString (wstr " 2.5e+1") [])).expressionPointer) = true) :=
  ⟨by rfl, parseToken_number cLocale
    { newParser Int with expressionPointer := cString (wstr " 2.5e+1") [] } (by rfl)⟩

/-- C16, counterexample. The token `parseToken` reads from `2a` is of kind
`NUMBER` and is `2a`; the letter `a` in it is neither a digit nor the decimal
point, and the longest run of digits and decimal points from its first
character is `2`. -/
theorem parseToken_number_counterexample :
    (lookAt cLocale (newParser Int) (cString (wstr "2a") [])).tokenType = NUMBER ∧
    (lookAt cLocale (newParser Int) (cString (wstr "2a") [])).currentToken = wstr "2a" ∧
    97 ∈ wstr "2a" ∧ cLocale.iswdigit 97 = false ∧ 97 ≠ 46 :=
  ⟨by rfl, by rfl, by decide, by rfl, by decide⟩
/-! ### C18: termination -/

/-- C19. A leading sign binds tighter than `^`: for number literals `a` and
`b` (tokens of at most 79 characters, as `currentToken[80]` holds them),
`evaluateExpression` on `-a^b` prints no error, leaves the Variable Table and
returns `pow(-a, b)`, or 1 when `b` is 0: the sign is applied to the base
before the exponentiation. -/
theorem evaluateExpression_signedPower {F : Type} (L : Locale) (A : Arith F)
    (this : ExpressionParser F) (a b after : List Nat)
    (hat : isNumberToken L a = true) (hbt : isNumberToken L b = true) :
    ∃ q, evaluateExpression L A this (cString (45 :: a ++ 94 :: b) after) =
        some (some (if A.isZero (A.wcstod b) then A.one
          else A.pow (A.neg (A.wcstod a)) (A.wcstod b)), q) ∧
      q.output = this.output ∧ q.varTable = this.varTable := by
  have ha : isNumberLiteral L a = true := by
    simp only [isNumberToken, Bool.and_eq_true] at hat; exact hat.1
  have hb : isNumberLiteral L b = true := by
    simp only [isNumberToken, Bool.and_eq_true] at hbt; exact hbt.1
  have h1 : Renders L noVariable .unary (.neg (.num a)) ([] ++ 45 :: ([] ++ a)) :=
    Renders.minus [] _ _ rfl (Renders.number [] a rfl ha)
  have h2 : Renders L noVariable .unary (.num b) ([] ++ b) :=
    Renders.primary _ _ (Renders.number [] b rfl hb)
  have h3 := Renders.factor _ _ (Renders.power _ _ (Renders.pow [] _ _ _ _ rfl h1 h2))
  have h4 := evaluateExpression_term L A (fun _ => A.zero) this (binds_noVariable _ _) _ _ []
    after h3 rfl
  refine ⟨lookAt L this ([] ++ 0 :: after), ?_, (@lookAt_end F L this [] after rfl).2.2,
    (@lookAt_end F L this [] after rfl).2.1⟩
  simpa [refEval] using h4

/-- Witness of C19: `-2^2` is 4. -/
theorem evaluateExpression_signedPower_witness :
    (isNumberToken cLocale (wstr "2") = true ∧ isNumberToken cLocale (wstr "2") = true) ∧
    ∃ q, evaluateExpression cLocale intArith (newParser Int) (cString (wstr "-2^2") []) =
        some (some 4, q) ∧
      q.output = (newParser Int).output ∧ q.varTable = (newParser Int).varTable :=
  ⟨⟨by rfl, by rfl⟩,
    evaluateExpression_signedPower cLocale intArith (newParser Int) (wstr "2") (wstr "2") []
      (by rfl) (by rfl)⟩
/-! ### C17 and C20: the cursor and the end of the text -/

/-- C17, failing input. The text `(2 ` has three characters. In a buffer that
holds eighty letters `a` behind its terminating NUL, `evaluateExpression`,
`differentiate` and `integrate` read on behind the NUL after the white space,
and the `parseToken` that follows "Unclosed parenthesis" produces a token of
eighty characters, one more than the 79 that `currentToken` holds with its
terminator. -/
theorem parseToken_longToken :
    (wstr "(2 ").length = 3 ∧
    (evaluateExpression cLocale intArith (newParser Int)
        (cString (wstr "(2 ") (List.replicate 80 97))).map
      (fun r => (r.2.currentToken.length, r.2.output)) = some (80, [1, 0]) ∧
    (differentiate cLocale (newParser Int)
        (cString (wstr "(2 ") (List.replicate 80 97)) (wstr "x")).map
      (fun r => (r.2.currentToken.length, r.2.output)) = some (80, [1]) ∧
    (integrate cLocale (newParser Int)
        (cString (wstr "(2 ") (List.replicate 80 97)) (wstr "x")).map
      (fun r => (r.2.currentToken.length, r.2.output)) = some (80, [1]) :=
  ⟨by rfl, by rfl, by rfl, by rfl⟩

/-- C20, failing input. On the text `2 `, two characters long, in a buffer
that holds `7` behind the terminating NUL, `evaluateExpression` leaves the
cursor behind the NUL, at position 3; on `(2 ` followed by `9` it goes on to
read that `9` as a token and prints "Unclosed parenthesis" and "Syntax
error". -/
theorem evaluateExpression_cursorPastEnd :
    (evaluateExpression cLocale intArith (newParser Int) (cString (wstr "2 ") [55])).map
      (fun r => (r.1, r.2.expressionPointer, r.2.output)) = some (some 2, [55], []) ∧
    (cString (wstr "2 ") [55]).length - [55].length = 3 ∧ (wstr "2 ").length = 2 ∧
    (evaluateExpression cLocale intArith (newParser Int) (cString (wstr "(2 ") [57])).map
      (fun r => (r.1, r.2.currentToken, r.2.expressionPointer, r.2.output)) =
      some (some 2, [57], [], [1, 0]) :=
  ⟨by rfl, by rfl, by rfl, by rfl⟩

end KPZ
